import Mathlib

/-!
Verification of the jsonfmt streaming JSON re-formatter (src/lib.rs).

The development shallowly embeds the Rust code. Bytes are modelled as Nat,
the byte source as a finite list, and the buffered reader (std BufReader)
as a cursor holding the currently buffered chunk, the bytes not yet read
from the underlying source, and the buffer capacity. Loops of the source
that are not structurally terminating are modelled with an explicit fuel
parameter; fuel sufficiency is proved in lemmas, and exhausting fuel
(result none) models divergence of the corresponding Rust loop.
-/

namespace Jsonfmt

/-- Byte values used by the formatter, named for readability: 9 tab, 10 nl,
13 cr, 32 space, 34 quote, 44 comma, 58 colon, 91 lbracket, 93 rbracket,
123 lbrace, 125 rbrace, 92 backslash, 45 minus. -/
def isWs (c : Nat) : Bool := c == 9 || c == 32 || c == 10 || c == 13

/-- Character class continuing a number token, from write_number in the
source: ascii digits, minus, dot, plus, lowercase e, uppercase E. -/
def numCont (c : Nat) : Bool :=
  (48 ≤ c && c ≤ 57) || c == 45 || c == 46 || c == 43 || c == 101 || c == 69

/-- Test for an ascii digit, matching is_ascii_digit in the source. -/
def isDigit (c : Nat) : Bool := 48 ≤ c && c ≤ 57

/-- Error kinds of the formatter, mirroring the errors constructed in the
source: unexpectedEof is io ErrorKind UnexpectedEof, unexpectedInput carries
the offending byte of the message unexpected input, invalidInput carries the
first differing byte of the message invalid input (the literal mismatch),
and assertFail models a violated assert (an index panic on an empty buffer
or a non-quote first byte in write_string). -/
inductive JErr where
  | unexpectedEof
  | unexpectedInput (c : Nat)
  | invalidInput (c : Nat)
  | assertFail
  deriving Repr, DecidableEq

/-- Cursor: the BufReader of the source over a finite byte stream. chunk is
the currently buffered, not yet consumed bytes; rest is what the underlying
source still holds; cap is the buffer capacity. -/
structure Cursor where
  chunk : List Nat
  rest : List Nat
  cap : Nat
  deriving Repr, DecidableEq

/-- Flat remaining data of a cursor: buffered bytes then unread bytes. -/
def Cursor.flat (c : Cursor) : List Nat := c.chunk ++ c.rest

/-- Length of the flat remaining data. -/
def Cursor.flatLen (c : Cursor) : Nat := c.chunk.length + c.rest.length

/-- Model of BufReader fill_buf: returns the buffered bytes, refilling from
the source (up to cap bytes) when the buffer is empty. Returns the buffer
and the updated cursor. An empty result means end of stream. -/
def Cursor.fillBuf (c : Cursor) : List Nat × Cursor :=
  if c.chunk.isEmpty then
    (c.rest.take c.cap, ⟨c.rest.take c.cap, c.rest.drop c.cap, c.cap⟩)
  else (c.chunk, c)

/-- Model of BufReader consume: drops n bytes from the buffered chunk. -/
def Cursor.consume (c : Cursor) (n : Nat) : Cursor :=
  ⟨c.chunk.drop n, c.rest, c.cap⟩

/-- Model of the std read_exact contract on a BufReader: take n bytes from
the stream (across refills) or fail with none when the stream is shorter.
Stated at the level of the flat data since read_exact is std library code,
not code of this repository. -/
def Cursor.readExact (c : Cursor) (n : Nat) : Option (List Nat × Cursor) :=
  if n ≤ c.flatLen then
    some (c.flat.take n, ⟨c.chunk.drop n, c.rest.drop (n - c.chunk.length), c.cap⟩)
  else none

/-- Convenience constructor: a cursor over the given data with an empty
buffer and the given capacity. -/
def mkCursor (data : List Nat) (cap : Nat) : Cursor := ⟨[], data, cap⟩

/-- Model of peek_char: the first buffered byte, or 0 (BAD_CHAR) at end of
stream. Returns the byte and the cursor with its chunk loaded, since
fill_buf mutates the reader. -/
def peek_char (c : Cursor) : Nat × Cursor :=
  let p := c.fillBuf
  (p.1.headD 0, p.2)

/-- Model of skip_whitespace: repeatedly fill the buffer, scan it for the
first non-whitespace byte, consume up to there and return, or consume the
whole buffer and refill. The source loop does not test for end of stream,
so on a stream whose remaining bytes are all whitespace it loops forever;
fuel counts refill rounds and none models that divergence. -/
def skip_whitespace : Nat → Cursor → Option Cursor
  | 0, _ => none
  | fuel + 1, c =>
    let p := c.fillBuf
    match p.1.findIdx? (fun b => !isWs b) with
    | some i => some (p.2.consume i)
    | none => skip_whitespace fuel (p.2.consume p.1.length)

/-- Chunk scanner of write_string: scans the given bytes with the escape
state prev (the previous byte, 0 after an escaped backslash pair). Returns
inl k when the terminating unescaped quote is the k-th scanned byte, or
inr of the final escape state when the chunk is exhausted. -/
def str_chunk_scan : List Nat → Nat → Nat ⊕ Nat
  | [], prev => .inr prev
  | c :: cs, prev =>
    if c == 34 && prev != 92 then .inl 1
    else
      match str_chunk_scan cs (if c == 92 && prev == 92 then 0 else c) with
      | .inl k => .inl (k + 1)
      | .inr p => .inr p

/-- Flat reference scanner for string tokens: scanning the given bytes with
escape state prev yields the number of bytes up to and including the first
unescaped quote, or none when no unescaped quote remains. Used to state the
behaviour of write_string independently of chunk boundaries. -/
def str_scan : List Nat → Nat → Option Nat
  | [], _ => none
  | c :: cs, prev =>
    if c == 34 && prev != 92 then some 1
    else (str_scan cs (if c == 92 && prev == 92 then 0 else c)).map (· + 1)

/-- Loop of write_string. base counts the bytes of the current chunk that
were already scanned (1 for the opening quote in the first round), todo is
the rest of the chunk, prev the escape state carried across refills. When
the chunk is exhausted the source writes the whole chunk, consumes it and
refills; an empty refill is an unexpected end of stream. On success the
scanned bytes up to and including the closing quote are written and
consumed. Fuel counts refill rounds. -/
def write_string_go : Nat → Nat → List Nat → Nat → Cursor → List Nat →
    Option (Except JErr (List Nat × Cursor))
  | fuel, base, todo, prev, cur, out =>
    match str_chunk_scan todo prev with
    | .inl k => some (.ok (out ++ cur.chunk.take (base + k), cur.consume (base + k)))
    | .inr prev' =>
      match fuel with
      | 0 => none
      | fuel' + 1 =>
        let out1 := out ++ cur.chunk
        let cur1 := cur.consume cur.chunk.length
        let p := cur1.fillBuf
        if p.1.isEmpty then some (.error .unexpectedEof)
        else write_string_go fuel' 0 p.1 prev' p.2 out1

/-- Model of write_string: asserts the first buffered byte is a quote, then
copies bytes verbatim until the first unescaped closing quote. -/
def write_string (fuel : Nat) (cur : Cursor) : Option (Except JErr (List Nat × Cursor)) :=
  let p := cur.fillBuf
  if p.1.headD 0 == 34 then write_string_go fuel 1 (p.1.drop 1) 0 p.2 []
  else some (.error .assertFail)

/-- Loop of write_number: scan the current chunk for the first byte outside
the number class; on exhaustion write the chunk, consume it and refill, and
stop quietly at end of stream. Fuel counts refill rounds. -/
def write_number_go : Nat → Nat → List Nat → Cursor → List Nat →
    Option (List Nat × Cursor)
  | fuel, base, todo, cur, out =>
    match todo.findIdx? (fun c => !numCont c) with
    | some k => some (out ++ cur.chunk.take (base + k), cur.consume (base + k))
    | none =>
      match fuel with
      | 0 => none
      | fuel' + 1 =>
        let out1 := out ++ cur.chunk
        let cur1 := cur.consume cur.chunk.length
        let p := cur1.fillBuf
        if p.1.isEmpty then some (out1, p.2)
        else write_number_go fuel' 0 p.1 p.2 out1

/-- Model of write_number: unconditionally consumes the first buffered byte
(the caller peeked a digit or minus) and then copies bytes of the number
class verbatim until the class ends or the stream ends. -/
def write_number (fuel : Nat) (cur : Cursor) : Option (List Nat × Cursor) :=
  let p := cur.fillBuf
  write_number_go fuel 1 (p.1.drop 1) p.2 []

/-- First mismatch between the expected bytes and the read bytes, returning
the read byte at the first differing position, as the source loop does. -/
def firstDiff : List Nat → List Nat → Option Nat
  | e :: es, b :: bs => if e ≠ b then some b else firstDiff es bs
  | _, _ => none

/-- Model of write_expected: read exactly as many bytes as expected; a short
stream is an unexpected end of stream; on a mismatch report the first
differing read byte and write nothing; on a match write the expected bytes. -/
def write_expected (cur : Cursor) (expect : List Nat) : Except JErr (List Nat × Cursor) :=
  match cur.readExact expect.length with
  | none => .error .unexpectedEof
  | some (buf, c1) =>
    match firstDiff expect buf with
    | some b => .error (.invalidInput b)
    | none => .ok (expect, c1)

/-- Indentation tracker. one_tab is the per-level unit (width spaces), pfx
the current prefix (named pfx rather than as in the source for syntactic
reasons). -/
structure Indent where
  one_tab : List Nat
  pfx : List Nat
  deriving Repr, DecidableEq

/-- Constructor Indent new: width spaces per level, empty prefix. -/
def Indent.new (width : Nat) : Indent := ⟨List.replicate width 32, []⟩

/-- Push one indentation level. -/
def Indent.push (i : Indent) : Indent := ⟨i.one_tab, i.pfx ++ i.one_tab⟩

/-- Pop one indentation level. The source truncates to len minus tab len on
a usize; with overflow checks off the underflowing case (empty prefix,
positive tab) wraps and the truncate call is a no-op, leaving the empty
prefix unchanged, which coincides with truncating to the natural
subtraction used here on every state whose prefix is a multiple of the
unit, in particular on all states the formatters reach. -/
def Indent.pop (i : Indent) : Indent :=
  ⟨i.one_tab, i.pfx.take (i.pfx.length - i.one_tab.length)⟩

/-- Bytes emitted by Indent write_to. -/
def Indent.write_to (i : Indent) : List Nat := i.pfx

/-- Parse states of the grammar driven formatter, as in the source. -/
inductive St where
  | Value
  | Object
  | Pair
  | Array
  | Elem
  deriving Repr, DecidableEq

/-- Configuration of the grammar driven formatter: the explicit state stack
(top first), the indentation tracker, the cursor, and the output written so
far. -/
structure FmtCfg where
  stack : List St
  ind : Indent
  cur : Cursor
  out : List Nat
  deriving Repr, DecidableEq

/-- Result of one iteration of the format_json loop. -/
inductive StepRes where
  | cont (cfg : FmtCfg)
  | done (out : List Nat)
  | fail (e : JErr)
  | hang
  deriving Repr, DecidableEq

/-- One iteration of the format_json while loop: pop a state, skip
whitespace, dispatch on the peeked byte. The fuel given to the inner
scanners is the remaining stream length plus one, which lemmas prove
sufficient, so hang arises exactly when skip_whitespace diverges. -/
def format_json_step (cfg : FmtCfg) : StepRes :=
  match cfg.stack with
  | [] => .done cfg.out
  | st :: stk =>
    match skip_whitespace (cfg.cur.flatLen + 1) cfg.cur with
    | none => .hang
    | some c1 =>
      match st with
      | .Value =>
        let pc := peek_char c1
        let ch := pc.1
        let c2 := pc.2
        if ch == 123 || ch == 91 then
          .cont ⟨(if ch == 123 then .Object else .Array) :: stk, cfg.ind.push,
            c2.consume 1, cfg.out ++ [ch, 10]⟩
        else if ch == 34 then
          match write_string (c2.flatLen + 1) c2 with
          | none => .hang
          | some (.error e) => .fail e
          | some (.ok (s, c3)) => .cont ⟨stk, cfg.ind, c3, cfg.out ++ s⟩
        else if isDigit ch || ch == 45 then
          match write_number (c2.flatLen + 1) c2 with
          | none => .hang
          | some (s, c3) => .cont ⟨stk, cfg.ind, c3, cfg.out ++ s⟩
        else if ch == 110 then
          match write_expected c2 [110, 117, 108, 108] with
          | .error e => .fail e
          | .ok (s, c3) => .cont ⟨stk, cfg.ind, c3, cfg.out ++ s⟩
        else if ch == 116 then
          match write_expected c2 [116, 114, 117, 101] with
          | .error e => .fail e
          | .ok (s, c3) => .cont ⟨stk, cfg.ind, c3, cfg.out ++ s⟩
        else if ch == 102 then
          match write_expected c2 [102, 97, 108, 115, 101] with
          | .error e => .fail e
          | .ok (s, c3) => .cont ⟨stk, cfg.ind, c3, cfg.out ++ s⟩
        else .fail (.unexpectedInput ch)
      | .Pair =>
        let pc := peek_char c1
        let ch := pc.1
        let c2 := pc.2
        if ch == 44 then
          .cont ⟨.Object :: stk, cfg.ind, c2.consume 1, cfg.out ++ [44, 10]⟩
        else if ch != 125 then .fail (.unexpectedInput ch)
        else .cont ⟨.Object :: stk, cfg.ind, c2, cfg.out ++ [10]⟩
      | .Elem =>
        let pc := peek_char c1
        let ch := pc.1
        let c2 := pc.2
        if ch == 44 then
          .cont ⟨.Array :: stk, cfg.ind, c2.consume 1, cfg.out ++ [44, 10]⟩
        else if ch != 93 then .fail (.unexpectedInput ch)
        else .cont ⟨.Array :: stk, cfg.ind, c2, cfg.out ++ [10]⟩
      | .Object =>
        let pc := peek_char c1
        let ch := pc.1
        let c2 := pc.2
        if ch == 34 then
          match write_string (c2.flatLen + 1) c2 with
          | none => .hang
          | some (.error e) => .fail e
          | some (.ok (s, c3)) =>
            match skip_whitespace (c3.flatLen + 1) c3 with
            | none => .hang
            | some c4 =>
              match write_expected c4 [58] with
              | .error e => .fail e
              | .ok (s2, c5) =>
                .cont ⟨.Value :: .Pair :: stk, cfg.ind, c5,
                  cfg.out ++ cfg.ind.write_to ++ s ++ s2 ++ [32]⟩
        else if ch == 125 then
          .cont ⟨stk, cfg.ind.pop, c2.consume 1,
            cfg.out ++ (cfg.ind.pop).write_to ++ [125]⟩
        else .fail (.unexpectedInput ch)
      | .Array =>
        let pc := peek_char c1
        let ch := pc.1
        let c2 := pc.2
        if ch == 93 then
          .cont ⟨stk, cfg.ind.pop, c2.consume 1,
            cfg.out ++ (cfg.ind.pop).write_to ++ [93]⟩
        else
          .cont ⟨.Value :: .Elem :: stk, cfg.ind, c2, cfg.out ++ cfg.ind.write_to⟩

/-- Iterated format_json loop. Fuel bounds the number of loop iterations;
none models divergence or exhausted fuel. -/
def format_json_go : Nat → FmtCfg → Option (Except JErr (List Nat))
  | 0, _ => none
  | fuel + 1, cfg =>
    match format_json_step cfg with
    | .done out => some (.ok out)
    | .fail e => some (.error e)
    | .hang => none
    | .cont cfg' => format_json_go fuel cfg'

/-- Model of format_json: run the state machine from a single Value frame
with an empty output. -/
def format_json (fuel : Nat) (cur : Cursor) (ind : Indent) :
    Option (Except JErr (List Nat)) :=
  format_json_go fuel ⟨[.Value], ind, cur, []⟩

/-- Result of scanning one chunk in format_json_fast: either the chunk was
fully processed, or a quote byte was found after scanning pos bytes. The
indentation, pending newline flag and output of the scan are carried. -/
inductive FastChunkRes where
  | endOfChunk (ind : Indent) (nl : Bool) (out : List Nat)
  | quoteAt (pos : Nat) (ind : Indent) (nl : Bool) (out : List Nat)
  deriving Repr, DecidableEq

/-- Per-byte scan of format_json_fast over one chunk, mirroring the loop
body: on a closing bracket pop the indentation first and, unless a newline
is already pending, write a newline and the popped indentation; then flush
a pending indentation if flagged; then dispatch on the byte. A quote stops
the chunk scan so the caller can delegate to write_string. -/
def fast_chunk : List Nat → Nat → Indent → Bool → List Nat → FastChunkRes
  | [], _, ind, nl, out => .endOfChunk ind nl out
  | c :: cs, pos, ind, nl, out =>
    let ind1 := if c == 125 || c == 93 then ind.pop else ind
    let out1 :=
      if c == 125 || c == 93 then
        if !nl then out ++ 10 :: ind1.write_to else out
      else out
    let out2 := if nl then out1 ++ ind1.write_to else out1
    let nl1 := if nl then false else nl
    if c == 34 then .quoteAt pos ind1 nl1 out2
    else if c == 123 || c == 91 then
      fast_chunk cs (pos + 1) ind1.push true (out2 ++ [c, 10])
    else if c == 44 then fast_chunk cs (pos + 1) ind1 true (out2 ++ [44, 10])
    else if c == 58 then fast_chunk cs (pos + 1) ind1 nl1 (out2 ++ [58, 32])
    else if isWs c then fast_chunk cs (pos + 1) ind1 nl1 out2
    else fast_chunk cs (pos + 1) ind1 nl1 (out2 ++ [c])

/-- Loop of format_json_fast: scan the buffered chunk; at a quote consume up
to the quote, delegate to write_string and continue on the refilled buffer;
at the end of the chunk consume it and refill, stopping at end of stream.
The cursor always holds the chunk being scanned. Fuel counts rounds. -/
def format_json_fast_go : Nat → Cursor → Indent → Bool → List Nat →
    Option (Except JErr (List Nat))
  | fuel, cur, ind, nl, out =>
    match fast_chunk cur.chunk 0 ind nl out with
    | .quoteAt pos ind1 nl1 out2 =>
      let cur1 := cur.consume pos
      match write_string (cur1.flatLen + 1) cur1 with
      | none => none
      | some (.error e) => some (.error e)
      | some (.ok (s, c2)) =>
        match fuel with
        | 0 => none
        | fuel' + 1 =>
          format_json_fast_go fuel' (c2.fillBuf).2 ind1 nl1 (out2 ++ s)
    | .endOfChunk ind1 nl1 out1 =>
      match fuel with
      | 0 => none
      | fuel' + 1 =>
        let cur1 := cur.consume cur.chunk.length
        let p := cur1.fillBuf
        if p.1.isEmpty then some (.ok out1)
        else format_json_fast_go fuel' p.2 ind1 nl1 out1

/-- Model of format_json_fast: load the first buffer and run the single
pass scan with no pending newline and an empty output. -/
def format_json_fast (fuel : Nat) (cur : Cursor) (ind : Indent) :
    Option (Except JErr (List Nat)) :=
  format_json_fast_go fuel (cur.fillBuf).2 ind false []

/-- Flat reference model of the single pass formatter: the same per byte
state machine as format_json_fast, processing the whole remaining data at
once so that chunk boundaries are erased. Proved to agree with
format_json_fast for every capacity and chunk alignment. -/
def fastFlat : List Nat → Indent → Bool → List Nat → Except JErr (List Nat)
  | [], _, _, out => .ok out
  | c :: cs, ind, nl, out =>
    let ind1 := if c == 125 || c == 93 then ind.pop else ind
    let out1 :=
      if c == 125 || c == 93 then
        if !nl then out ++ 10 :: ind1.write_to else out
      else out
    let out2 := if nl then out1 ++ ind1.write_to else out1
    if c == 34 then
      match str_scan cs 0 with
      | none => .error .unexpectedEof
      | some k => fastFlat (cs.drop k) ind1 false (out2 ++ 34 :: cs.take k)
    else if c == 123 || c == 91 then fastFlat cs ind1.push true (out2 ++ [c, 10])
    else if c == 44 then fastFlat cs ind1 true (out2 ++ [44, 10])
    else if c == 58 then fastFlat cs ind1 false (out2 ++ [58, 32])
    else if isWs c then fastFlat cs ind1 false out2
    else fastFlat cs ind1 false (out2 ++ [c])
termination_by l => l.length
decreasing_by
  all_goals simp
  omega

/-- Byte class passed through verbatim by the single pass formatter:
neither whitespace nor any structural byte. -/
def plainB (c : Nat) : Bool :=
  !isWs c && c != 34 && c != 123 && c != 91 && c != 125 && c != 93 &&
    c != 44 && c != 58

/-- Indentation after the closing bracket block of one fast formatter
byte step. -/
def fastInd1 (c : Nat) (ind : Indent) : Indent :=
  if c == 125 || c == 93 then ind.pop else ind

/-- Output after the closing bracket block and the pending indentation
flush of one fast formatter byte step. -/
def fastOut2 (c : Nat) (ind : Indent) (nl : Bool) (out : List Nat) : List Nat :=
  (if c == 125 || c == 93 then
    (if !nl then out ++ 10 :: (fastInd1 c ind).write_to else out)
   else out) ++ (if nl then (fastInd1 c ind).write_to else [])

/-!
Well-formed inputs. A WVal is a JSON value decorated with every whitespace
choice of a concrete serialization: arrays carry per-item whitespace before
and after the item and whitespace before the closing bracket, objects carry
whitespace before the key, before the colon, before the value, and after
the value. Rendering a WVal produces one serialization; quantifying over
all valid WVal values quantifies over all serializations accepted along the
happy path of the grammar driven formatter, a superset of well-formed JSON
(string contents and number spellings are only constrained as the code
constrains them). -/
inductive WVal where
  | wstr (s : List Nat)
  | wnum (b : List Nat)
  | wnull
  | wtrue
  | wfalse
  | warr (items : List (List Nat × WVal × List Nat)) (closeW : List Nat)
  | wobj (fields : List (List Nat × List Nat × List Nat × List Nat × WVal × List Nat))
      (closeW : List Nat)
  deriving Repr

/-- Assemble rendered container entries: entries joined by commas, then the
closing whitespace and the closing bracket byte. -/
def assembleSeq : List (List Nat) → List Nat → Nat → List Nat
  | [], w, cl => w ++ [cl]
  | [r], w, cl => r ++ w ++ [cl]
  | r :: rs, w, cl => r ++ 44 :: assembleSeq rs w cl

/-- Assemble pretty printed container entries: entries joined by comma and
newline, a final newline, the outer prefix and the closing bracket; an
empty container is just the outer prefix and the closing bracket. -/
def assemblePretty : List (List Nat) → List Nat → Nat → List Nat
  | [], p, cl => p ++ [cl]
  | [r], p, cl => r ++ 10 :: (p ++ [cl])
  | r :: rs, p, cl => r ++ 44 :: 10 :: assemblePretty rs p cl

/-- Serialization of a decorated value. -/
def render : WVal → List Nat
  | .wstr s => 34 :: s ++ [34]
  | .wnum b => b
  | .wnull => [110, 117, 108, 108]
  | .wtrue => [116, 114, 117, 101]
  | .wfalse => [102, 97, 108, 115, 101]
  | .warr items w =>
      91 :: assembleSeq (items.attach.map fun x =>
        x.1.1 ++ render x.1.2.1 ++ x.1.2.2) w 93
  | .wobj fs w =>
      123 :: assembleSeq (fs.attach.map fun x =>
        x.1.1 ++ 34 :: x.1.2.1 ++ 34 :: x.1.2.2.1 ++ 58 :: x.1.2.2.2.1 ++
          render x.1.2.2.2.2.1 ++ x.1.2.2.2.2.2) w 125
termination_by v => sizeOf v
decreasing_by
  all_goals
    obtain ⟨a, hx⟩ := x
    have hm := List.sizeOf_lt_of_mem hx
    first
    | (obtain ⟨p, v, q⟩ := a; simp_all; omega)
    | (obtain ⟨p1, p2, p3, p4, v, q⟩ := a; simp_all; omega)

/-- Pretty printed form of a value, with indentation unit tab and current
prefix p; this is the byte output both formatters produce for the value. -/
def pretty : WVal → List Nat → List Nat → List Nat
  | .wstr s, _, _ => 34 :: s ++ [34]
  | .wnum b, _, _ => b
  | .wnull, _, _ => [110, 117, 108, 108]
  | .wtrue, _, _ => [116, 114, 117, 101]
  | .wfalse, _, _ => [102, 97, 108, 115, 101]
  | .warr items _, tab, p =>
      91 :: 10 :: assemblePretty (items.attach.map fun x =>
        (p ++ tab) ++ pretty x.1.2.1 tab (p ++ tab)) p 93
  | .wobj fs _, tab, p =>
      123 :: 10 :: assemblePretty (fs.attach.map fun x =>
        (p ++ tab) ++ 34 :: x.1.2.1 ++ 34 :: 58 :: 32 ::
          pretty x.1.2.2.2.2.1 tab (p ++ tab)) p 125
termination_by v => sizeOf v
decreasing_by
  all_goals
    obtain ⟨a, hx⟩ := x
    have hm := List.sizeOf_lt_of_mem hx
    first
    | (obtain ⟨p, v, q⟩ := a; simp_all; omega)
    | (obtain ⟨p1, p2, p3, p4, v, q⟩ := a; simp_all; omega)

/-- Predicate of whitespace-only byte lists. -/
def wsOnly (l : List Nat) : Bool := l.all isWs

/-- Validity of string content bytes: running the escape automaton of
write_string over the content never meets an unescaped quote, and the state
after the content does not escape the closing quote. -/
def strOK : List Nat → Nat → Bool
  | [], prev => prev != 92
  | c :: cs, prev =>
    if c == 34 && prev != 92 then false
    else strOK cs (if c == 92 && prev == 92 then 0 else c)

/-- Validity of number bytes: nonempty, first byte a digit or minus so the
dispatch in format_json selects write_number, and every later byte in the
number continuation class so write_number consumes exactly these bytes. -/
def numOK (b : List Nat) : Bool :=
  !b.isEmpty && (isDigit (b.headD 0) || b.headD 0 == 45) && b.tail.all numCont

/-- Validity of a decorated value: every whitespace slot holds only
whitespace, every string content and key satisfies the escape automaton,
and every number satisfies the number shape. -/
def validB : WVal → Bool
  | .wstr s => strOK s 0
  | .wnum b => numOK b
  | .wnull => true
  | .wtrue => true
  | .wfalse => true
  | .warr items w =>
      wsOnly w && items.attach.all fun x =>
        wsOnly x.1.1 && wsOnly x.1.2.2 && validB x.1.2.1
  | .wobj fs w =>
      wsOnly w && fs.attach.all fun x =>
        wsOnly x.1.1 && strOK x.1.2.1 0 && wsOnly x.1.2.2.1 &&
          wsOnly x.1.2.2.2.1 && wsOnly x.1.2.2.2.2.2 && validB x.1.2.2.2.2.1
termination_by v => sizeOf v
decreasing_by
  all_goals
    obtain ⟨a, hx⟩ := x
    have hm := List.sizeOf_lt_of_mem hx
    first
    | (obtain ⟨p, v, q⟩ := a; simp_all; omega)
    | (obtain ⟨p1, p2, p3, p4, v, q⟩ := a; simp_all; omega)

/-- Number of format_json loop iterations needed to format a value. -/
def stepsW : WVal → Nat
  | .wstr _ => 1
  | .wnum _ => 1
  | .wnull => 1
  | .wtrue => 1
  | .wfalse => 1
  | .warr items _ => 2 + (items.attach.map fun x => stepsW x.1.2.1 + 2).sum
  | .wobj fs _ => 2 + (fs.attach.map fun x => stepsW x.1.2.2.2.2.1 + 2).sum
termination_by v => sizeOf v
decreasing_by
  all_goals
    obtain ⟨a, hx⟩ := x
    have hm := List.sizeOf_lt_of_mem hx
    first
    | (obtain ⟨p, v, q⟩ := a; simp_all; omega)
    | (obtain ⟨p1, p2, p3, p4, v, q⟩ := a; simp_all; omega)

/-- Standard decoration: rebuilds a value with exactly the whitespace the
pretty printer emits, so that rendering it yields the pretty form. -/
def canon : WVal → List Nat → List Nat → WVal
  | .wstr s, _, _ => .wstr s
  | .wnum b, _, _ => .wnum b
  | .wnull, _, _ => .wnull
  | .wtrue, _, _ => .wtrue
  | .wfalse, _, _ => .wfalse
  | .warr items _, tab, p =>
      .warr (items.attach.map fun x =>
        (10 :: (p ++ tab), canon x.1.2.1 tab (p ++ tab), [])) (10 :: p)
  | .wobj fs _, tab, p =>
      .wobj (fs.attach.map fun x =>
        (10 :: (p ++ tab), x.1.2.1, [], [32], canon x.1.2.2.2.2.1 tab (p ++ tab), []))
        (10 :: p)
termination_by v => sizeOf v
decreasing_by
  all_goals
    obtain ⟨a, hx⟩ := x
    have hm := List.sizeOf_lt_of_mem hx
    first
    | (obtain ⟨p, v, q⟩ := a; simp_all; omega)
    | (obtain ⟨p1, p2, p3, p4, v, q⟩ := a; simp_all; omega)

/-- Predicate of values whose empty containers carry no inner whitespace;
on serializations of such values the two formatters agree. -/
def noWsEmptyB : WVal → Bool
  | .wstr _ => true
  | .wnum _ => true
  | .wnull => true
  | .wtrue => true
  | .wfalse => true
  | .warr items w =>
      (!items.isEmpty || w.isEmpty) && items.attach.all fun x => noWsEmptyB x.1.2.1
  | .wobj fs w =>
      (!fs.isEmpty || w.isEmpty) && fs.attach.all fun x => noWsEmptyB x.1.2.2.2.2.1
termination_by v => sizeOf v
decreasing_by
  all_goals
    obtain ⟨a, hx⟩ := x
    have hm := List.sizeOf_lt_of_mem hx
    first
    | (obtain ⟨p, v, q⟩ := a; simp_all; omega)
    | (obtain ⟨p1, p2, p3, p4, v, q⟩ := a; simp_all; omega)

/-- Predicate of values containing no empty container at all; on such
values the single pass formatter is idempotent. -/
def noEmptyB : WVal → Bool
  | .wstr _ => true
  | .wnum _ => true
  | .wnull => true
  | .wtrue => true
  | .wfalse => true
  | .warr items _ =>
      !items.isEmpty && items.attach.all fun x => noEmptyB x.1.2.1
  | .wobj fs _ =>
      !fs.isEmpty && fs.attach.all fun x => noEmptyB x.1.2.2.2.2.1
termination_by v => sizeOf v
decreasing_by
  all_goals
    obtain ⟨a, hx⟩ := x
    have hm := List.sizeOf_lt_of_mem hx
    first
    | (obtain ⟨p, v, q⟩ := a; simp_all; omega)
    | (obtain ⟨p1, p2, p3, p4, v, q⟩ := a; simp_all; omega)

/-- Side condition at the right edge of a number token: the byte following
a top level number must not extend the token. The default 44 makes the
empty rest satisfy the condition. -/
def numSafe : WVal → List Nat → Prop
  | .wnum _, rest => numCont (rest.headD 44) = false
  | _, _ => True

/-! Basic cursor lemmas: every scanner of the source observes the stream
only through fillBuf and consume, so its behaviour is determined by the
flat remaining data once the capacity is at least one. -/

theorem fillBuf_flat (c : Cursor) : (c.fillBuf).2.flat = c.flat := by
  unfold Cursor.fillBuf Cursor.flat
  by_cases h : c.chunk.isEmpty
  · simp [h, List.isEmpty_iff.mp h]
  · simp [h]

theorem fillBuf_cap (c : Cursor) : (c.fillBuf).2.cap = c.cap := by
  unfold Cursor.fillBuf
  by_cases h : c.chunk.isEmpty <;> simp [h]

theorem fillBuf_chunk (c : Cursor) : (c.fillBuf).2.chunk = (c.fillBuf).1 := by
  unfold Cursor.fillBuf
  by_cases h : c.chunk.isEmpty <;> simp [h]

theorem fillBuf_rest (c : Cursor) :
    (c.fillBuf).1 ++ (c.fillBuf).2.rest = c.flat := by
  unfold Cursor.fillBuf Cursor.flat
  by_cases h : c.chunk.isEmpty
  · simp [h, List.isEmpty_iff.mp h]
  · simp [h]

theorem fillBuf_empty_iff (c : Cursor) (hcap : 1 ≤ c.cap) :
    (c.fillBuf).1 = [] ↔ c.flat = [] := by
  unfold Cursor.fillBuf Cursor.flat
  by_cases h : c.chunk.isEmpty
  · rw [if_pos h]
    have hc : c.chunk = [] := List.isEmpty_iff.mp h
    rw [hc]
    obtain ⟨k, hk⟩ : ∃ k, c.cap = k + 1 := ⟨c.cap - 1, by omega⟩
    rw [hk]
    cases c.rest <;> simp
  · rw [if_neg h]
    have hc : c.chunk ≠ [] := by
      intro he; exact h (by simp [he])
    simp [hc]

theorem fillBuf_prefix (c : Cursor) :
    c.flat = (c.fillBuf).1 ++ (c.fillBuf).2.rest ∧
      (c.fillBuf).2.chunk = (c.fillBuf).1 := by
  exact ⟨(fillBuf_rest c).symm, fillBuf_chunk c⟩

theorem consume_flat (c : Cursor) (n : Nat) (h : n ≤ c.chunk.length) :
    (c.consume n).flat = c.flat.drop n := by
  unfold Cursor.consume Cursor.flat
  simp [List.drop_append_eq_append_drop, Nat.sub_eq_zero_of_le h]

theorem consume_cap (c : Cursor) (n : Nat) : (c.consume n).cap = c.cap := rfl

theorem consume_chunk (c : Cursor) (n : Nat) :
    (c.consume n).chunk = c.chunk.drop n := rfl

/-! List level helpers about whitespace scanning. -/

theorem findIdx?_none_iff (p : Nat → Bool) (l : List Nat) :
    l.findIdx? p = none ↔ ∀ x ∈ l, p x = false := by
  induction l with
  | nil => simp
  | cons c cs ih =>
    simp only [List.findIdx?_cons, Nat.zero_add, List.findIdx?_succ]
    by_cases h : p c <;> simp [h, ih]

theorem dropWhile_all_append (p : Nat → Bool) (l₁ l₂ : List Nat)
    (h : ∀ x ∈ l₁, p x = true) :
    (l₁ ++ l₂).dropWhile p = l₂.dropWhile p := by
  induction l₁ with
  | nil => simp
  | cons c cs ih =>
    simp only [List.cons_append, List.dropWhile_cons]
    have hc : p c = true := h c (by simp)
    simp [hc]
    exact ih (fun x hx => h x (by simp [hx]))

theorem takeWhile_all_append (p : Nat → Bool) (l₁ l₂ : List Nat)
    (h : ∀ x ∈ l₁, p x = true) :
    (l₁ ++ l₂).takeWhile p = l₁ ++ l₂.takeWhile p := by
  induction l₁ with
  | nil => simp
  | cons c cs ih =>
    simp only [List.cons_append, List.takeWhile_cons]
    have hc : p c = true := h c (by simp)
    simp [hc]
    exact ih (fun x hx => h x (by simp [hx]))

theorem dropWhile_findIdx (p : Nat → Bool) (l₁ l₂ : List Nat) (i : Nat)
    (h : l₁.findIdx? (fun b => !p b) = some i) :
    (l₁ ++ l₂).dropWhile p = (l₁ ++ l₂).drop i := by
  induction l₁ generalizing i with
  | nil => simp at h
  | cons c cs ih =>
    simp only [List.findIdx?_cons, Nat.zero_add, List.findIdx?_succ] at h
    by_cases hc : p c
    · simp [hc] at h
      obtain ⟨j, hj, hi⟩ := h
      subst hi
      simp only [List.cons_append, List.dropWhile_cons, hc, List.drop_succ_cons]
      exact ih j hj
    · simp [hc] at h
      subst h
      simp [List.dropWhile_cons, hc]

theorem takeWhile_append_findIdx (p : Nat → Bool) (l₁ l₂ : List Nat) (i : Nat)
    (h : l₁.findIdx? (fun b => !p b) = some i) :
    (l₁ ++ l₂).takeWhile p = l₁.take i := by
  induction l₁ generalizing i with
  | nil => simp at h
  | cons c cs ih =>
    simp only [List.findIdx?_cons, Nat.zero_add, List.findIdx?_succ] at h
    by_cases hc : p c
    · simp [hc] at h
      obtain ⟨j, hj, hi⟩ := h
      subst hi
      simp only [List.cons_append, List.takeWhile_cons, hc, List.take_succ_cons]
      rw [ih j hj]
      simp
    · simp [hc] at h
      subst h
      simp [List.takeWhile_cons, hc]

theorem takeWhile_findIdx (p : Nat → Bool) (l : List Nat) (i : Nat)
    (h : l.findIdx? (fun b => !p b) = some i) :
    (l.takeWhile p).length = i ∧ i ≤ l.length := by
  induction l generalizing i with
  | nil => simp at h
  | cons c cs ih =>
    simp only [List.findIdx?_cons, Nat.zero_add, List.findIdx?_succ] at h
    by_cases hc : p c
    · simp [hc] at h
      obtain ⟨j, hj, hi⟩ := h
      subst hi
      have := ih j hj
      simp [List.takeWhile_cons, hc, this.1]
      omega
    · simp [hc] at h
      subst h
      simp [List.takeWhile_cons, hc]

theorem flatLen_eq (c : Cursor) : c.flatLen = c.flat.length := by
  simp [Cursor.flatLen, Cursor.flat]

/-- Divergence of skip_whitespace: when every remaining byte is whitespace,
in particular at end of stream, the loop never returns, whatever the fuel. -/
theorem skip_whitespace_diverges (fuel : Nat) :
    ∀ (c : Cursor), c.flat.all isWs = true → skip_whitespace fuel c = none := by
  induction fuel with
  | zero => intro c _; rfl
  | succ fuel ih =>
    intro c hws
    unfold skip_whitespace
    have hpre : c.flat = (c.fillBuf).1 ++ (c.fillBuf).2.rest := (fillBuf_rest c).symm
    have hbuf : ∀ x ∈ (c.fillBuf).1, isWs x = true := by
      intro x hx
      exact (List.all_eq_true.mp hws) x (by rw [hpre]; exact List.mem_append_left _ hx)
    have hnone : (c.fillBuf).1.findIdx? (fun b => !isWs b) = none := by
      rw [findIdx?_none_iff]
      intro x hx
      simp [hbuf x hx]
    simp only [hnone]
    apply ih
    have hfl : ((c.fillBuf).2.consume (c.fillBuf).1.length).flat =
        c.flat.drop (c.fillBuf).1.length := by
      rw [consume_flat _ _ (by rw [fillBuf_chunk]), fillBuf_flat]
    rw [hfl]
    exact List.all_eq_true.mpr fun x hx =>
      (List.all_eq_true.mp hws) x (List.mem_of_mem_drop hx)

/-- Successful skip_whitespace: when some remaining byte is not whitespace
and the fuel covers the stream, the maximal whitespace run is consumed. -/
theorem skip_whitespace_some (fuel : Nat) :
    ∀ (c : Cursor), 1 ≤ c.cap → c.flatLen + 1 ≤ fuel →
    c.flat.all isWs = false →
    ∃ c', skip_whitespace fuel c = some c' ∧
      c'.flat = c.flat.dropWhile isWs ∧ c'.cap = c.cap := by
  induction fuel with
  | zero => intro c _ hf _; omega
  | succ fuel ih =>
    intro c hcap hfuel hws
    have hpre : c.flat = (c.fillBuf).1 ++ (c.fillBuf).2.rest := (fillBuf_rest c).symm
    cases hidx : (c.fillBuf).1.findIdx? (fun b => !isWs b) with
    | some i =>
      have hti := takeWhile_findIdx isWs _ _ hidx
      have hlen : i ≤ (c.fillBuf).2.chunk.length := by
        rw [fillBuf_chunk]; exact hti.2
      have heq : skip_whitespace (fuel + 1) c = some ((c.fillBuf).2.consume i) := by
        conv_lhs => rw [skip_whitespace]
        simp only [hidx]
      refine ⟨(c.fillBuf).2.consume i, heq, ?_, ?_⟩
      · rw [consume_flat _ _ hlen, fillBuf_flat, hpre]
        exact (dropWhile_findIdx isWs _ _ _ hidx).symm
      · rw [consume_cap, fillBuf_cap]
    | none =>
      have hbuf : ∀ x ∈ (c.fillBuf).1, isWs x = true := by
        have := (findIdx?_none_iff _ _).mp hidx
        intro x hx
        have hb := this x hx
        simpa using hb
      have hne : (c.fillBuf).1 ≠ [] := by
        intro he
        rw [(fillBuf_empty_iff c hcap).mp he] at hws
        simp at hws
      set c2 := (c.fillBuf).2.consume (c.fillBuf).1.length with hc2
      have hfl : c2.flat = c.flat.drop (c.fillBuf).1.length := by
        rw [hc2, consume_flat _ _ (by rw [fillBuf_chunk]), fillBuf_flat]
      have hfl2 : c2.flat = (c.fillBuf).2.rest := by
        rw [hfl, hpre, List.drop_append_eq_append_drop]
        simp
      have hws2 : c2.flat.all isWs = false := by
        rw [hfl2]
        rw [hpre, List.all_append] at hws
        have hb : (c.fillBuf).1.all isWs = true := List.all_eq_true.mpr hbuf
        rw [hb] at hws
        simpa using hws
      have hcap2 : 1 ≤ c2.cap := by
        rw [hc2, consume_cap, fillBuf_cap]; exact hcap
      have hlen2 : c2.flatLen + 1 ≤ fuel := by
        rw [flatLen_eq c2, hfl]
        rw [flatLen_eq c] at hfuel
        have : 1 ≤ (c.fillBuf).1.length := by
          cases hb : (c.fillBuf).1 with
          | nil => exact absurd hb hne
          | cons a l => simp
        have hle : (c.fillBuf).1.length ≤ c.flat.length := by
          rw [hpre]; simp
        simp only [List.length_drop]
        omega
      obtain ⟨c', h1, h2, h3⟩ := ih c2 hcap2 hlen2 hws2
      have heq : skip_whitespace (fuel + 1) c = skip_whitespace fuel c2 := by
        conv_lhs => rw [skip_whitespace]
        simp only [hidx, hc2]
      refine ⟨c', by rw [heq]; exact h1, ?_, by rw [h3, hc2, consume_cap, fillBuf_cap]⟩
      rw [h2, hfl2, hpre]
      exact (dropWhile_all_append isWs _ _ hbuf).symm

/-! Relating the chunk scanner of write_string to the flat scanner. -/

theorem str_chunk_scan_inl (todo : List Nat) :
    ∀ (prev k : Nat) (u : List Nat), str_chunk_scan todo prev = .inl k →
      str_scan (todo ++ u) prev = some k ∧ 1 ≤ k ∧ k ≤ todo.length := by
  induction todo with
  | nil => intro prev k u h; simp [str_chunk_scan] at h
  | cons c cs ih =>
    intro prev k u h
    rw [str_chunk_scan] at h
    by_cases hc : (c == 34 && prev != 92) = true
    · rw [if_pos hc] at h
      cases h
      rw [List.cons_append, str_scan, if_pos hc]
      simp
    · rw [if_neg hc] at h
      cases hrec : str_chunk_scan cs (if c == 92 && prev == 92 then 0 else c) with
      | inl k' =>
        rw [hrec] at h
        cases h
        have := ih _ k' u hrec
        rw [List.cons_append, str_scan, if_neg hc, this.1]
        simp
        omega
      | inr p => rw [hrec] at h; cases h

theorem str_chunk_scan_inr (todo : List Nat) :
    ∀ (prev p : Nat) (u : List Nat), str_chunk_scan todo prev = .inr p →
      str_scan (todo ++ u) prev = (str_scan u p).map (· + todo.length) := by
  induction todo with
  | nil =>
    intro prev p u h
    rw [str_chunk_scan] at h
    cases h
    simp
  | cons c cs ih =>
    intro prev p u h
    rw [str_chunk_scan] at h
    by_cases hc : (c == 34 && prev != 92) = true
    · rw [if_pos hc] at h; cases h
    · rw [if_neg hc] at h
      cases hrec : str_chunk_scan cs (if c == 92 && prev == 92 then 0 else c) with
      | inl k' => rw [hrec] at h; cases h
      | inr p' =>
        rw [hrec] at h
        cases h
        rw [List.cons_append, str_scan, if_neg hc, ih _ _ u hrec]
        cases str_scan u p <;> simp
        omega

/-- Core lemma of write_string, error case: when no unescaped quote remains
in the data, the copier reports an unexpected end of stream. -/
theorem write_string_go_none (fuel : Nat) :
    ∀ (base : Nat) (todo : List Nat) (prev : Nat) (cur : Cursor) (out : List Nat),
      1 ≤ cur.cap → todo = cur.chunk.drop base → base ≤ cur.chunk.length →
      cur.rest.length + 1 ≤ fuel →
      str_scan (todo ++ cur.rest) prev = none →
      write_string_go fuel base todo prev cur out = some (.error .unexpectedEof) := by
  induction fuel with
  | zero => intro base todo prev cur out _ _ _ hf _; omega
  | succ fuel ih =>
    intro base todo prev cur out hcap htodo hbase hfuel hscan
    rw [write_string_go]
    cases hcs : str_chunk_scan todo prev with
    | inl k =>
      have := (str_chunk_scan_inl todo prev k cur.rest hcs).1
      rw [this] at hscan; cases hscan
    | inr p' =>
      have hmap := str_chunk_scan_inr todo prev p' cur.rest hcs
      rw [hmap] at hscan
      have hrest : str_scan cur.rest p' = none := by
        cases h : str_scan cur.rest p' with
        | none => rfl
        | some k => rw [h] at hscan; simp at hscan
      set cur1 := cur.consume cur.chunk.length with hcur1
      have hch : cur1.chunk = [] := by
        rw [hcur1, consume_chunk]; simp
      have hrest1 : cur1.rest = cur.rest := rfl
      by_cases hre : cur.rest = []
      · have hemp : ((cur1.fillBuf).1).isEmpty = true := by
          rw [Cursor.fillBuf, if_pos (by simp [hch]), hrest1, hre]
          simp
        simp only [hemp]
        rfl
      · have hne : ((cur1.fillBuf).1) ≠ [] := by
          intro he
          exact hre (by
            have := (fillBuf_empty_iff cur1 (by rw [hcur1, consume_cap]; exact hcap)).mp he
            rw [Cursor.flat, hch, hrest1] at this
            simpa using this)
        have hemp : ((cur1.fillBuf).1).isEmpty = false := by
          cases h : (cur1.fillBuf).1 with
          | nil => exact absurd h hne
          | cons a l => simp
        simp only [hemp]
        rw [if_neg (by simp [hemp])]
        apply ih
        · rw [fillBuf_cap, hcur1, consume_cap]; exact hcap
        · rw [fillBuf_chunk]; simp
        · simp
        · have : (cur1.fillBuf).2.rest.length + (cur1.fillBuf).1.length =
              cur.rest.length := by
            have h2 := fillBuf_rest cur1
            have : ((cur1.fillBuf).1 ++ (cur1.fillBuf).2.rest).length =
                cur1.flat.length := by rw [h2]
            rw [Cursor.flat, hch, hrest1] at this
            simp at this
            omega
          have hpos : 1 ≤ (cur1.fillBuf).1.length := by
            cases h : (cur1.fillBuf).1 with
            | nil => exact absurd h hne
            | cons a l => simp
          omega
        · have h2 := fillBuf_rest cur1
          rw [Cursor.flat, hch, hrest1] at h2
          simp at h2
          rw [h2]
          exact hrest

/-- Core lemma of write_string, success case: the copier writes every byte
up to and including the first unescaped closing quote verbatim, whatever
the chunk boundaries, and leaves the cursor exactly behind the quote. -/
theorem write_string_go_some (fuel : Nat) :
    ∀ (base : Nat) (todo : List Nat) (prev : Nat) (cur : Cursor) (out : List Nat)
      (k : Nat),
      1 ≤ cur.cap → todo = cur.chunk.drop base → base ≤ cur.chunk.length →
      cur.rest.length + 1 ≤ fuel →
      str_scan (todo ++ cur.rest) prev = some k →
      ∃ cur', write_string_go fuel base todo prev cur out =
          some (.ok (out ++ cur.chunk.take base ++ (todo ++ cur.rest).take k, cur')) ∧
        cur'.flat = (todo ++ cur.rest).drop k ∧ cur'.cap = cur.cap := by
  induction fuel with
  | zero => intro base todo prev cur out k _ _ _ hf _; omega
  | succ fuel ih =>
    intro base todo prev cur out k hcap htodo hbase hfuel hscan
    have hchunk : cur.chunk = cur.chunk.take base ++ todo := by
      rw [htodo, List.take_append_drop]
    have hlbase : (cur.chunk.take base).length = base := by
      rw [List.length_take]; omega
    cases hcs : str_chunk_scan todo prev with
    | inl k0 =>
      have hk0 := str_chunk_scan_inl todo prev k0 cur.rest hcs
      rw [hk0.1] at hscan
      cases hscan
      have hlen : base + k ≤ cur.chunk.length := by
        have := hk0.2.2
        have h2 : todo.length = cur.chunk.length - base := by
          rw [htodo, List.length_drop]
        omega
      refine ⟨cur.consume (base + k), ?_, ?_, by rw [consume_cap]⟩
      · have hgo1 : write_string_go (fuel + 1) base todo prev cur out =
            some (.ok (out ++ cur.chunk.take (base + k), cur.consume (base + k))) := by
          rw [write_string_go, hcs]
        have htk : cur.chunk.take (base + k) =
            cur.chunk.take base ++ (todo ++ cur.rest).take k := by
          conv_lhs => rw [hchunk]
          rw [List.take_append_eq_append_take, List.take_take, hlbase]
          have h1 : min (base + k) base = base := by omega
          have h2 : base + k - base = k := by omega
          rw [h1, h2, List.take_append_eq_append_take]
          have h3 : k - todo.length = 0 := by omega
          rw [h3]
          simp
        rw [hgo1, htk, List.append_assoc]
      · have hflat : cur.flat = cur.chunk.take base ++ (todo ++ cur.rest) := by
          rw [Cursor.flat]
          conv_lhs => rw [hchunk]
          simp [List.append_assoc]
        rw [consume_flat _ _ hlen, hflat, List.drop_append_eq_append_drop, hlbase]
        rw [List.drop_eq_nil_of_le (by rw [hlbase]; omega :
          (cur.chunk.take base).length ≤ base + k)]
        have h2 : base + k - base = k := by omega
        rw [h2]
        simp
    | inr p' =>
      have hmap := str_chunk_scan_inr todo prev p' cur.rest hcs
      rw [hmap] at hscan
      obtain ⟨k2, hk2, hkeq⟩ := Option.map_eq_some'.mp hscan
      set cur1 := cur.consume cur.chunk.length with hcur1
      have hch : cur1.chunk = [] := by rw [hcur1, consume_chunk]; simp
      have hrest1 : cur1.rest = cur.rest := rfl
      have hre : cur.rest ≠ [] := by
        intro he
        rw [he] at hk2
        simp [str_scan] at hk2
      have hne : ((cur1.fillBuf).1) ≠ [] := by
        intro he
        have := (fillBuf_empty_iff cur1 (by rw [hcur1, consume_cap]; exact hcap)).mp he
        rw [Cursor.flat, hch, hrest1] at this
        exact hre (by simpa using this)
      have hemp : ((cur1.fillBuf).1).isEmpty = false := by
        cases h : (cur1.fillBuf).1 with
        | nil => exact absurd h hne
        | cons a l => simp
      have hflat1 : (cur1.fillBuf).1 ++ (cur1.fillBuf).2.rest = cur.rest := by
        have h2 := fillBuf_rest cur1
        rw [Cursor.flat, hch, hrest1] at h2
        simpa using h2
      have hlen1 : 1 ≤ (cur1.fillBuf).1.length := by
        cases h : (cur1.fillBuf).1 with
        | nil => exact absurd h hne
        | cons a l => simp
      have hlensum : (cur1.fillBuf).1.length + (cur1.fillBuf).2.rest.length =
          cur.rest.length := by
        have : ((cur1.fillBuf).1 ++ (cur1.fillBuf).2.rest).length = cur.rest.length := by
          rw [hflat1]
        simpa using this
      have hscan2 : str_scan ((cur1.fillBuf).1 ++ (cur1.fillBuf).2.rest) p' = some k2 := by
        rw [hflat1]; exact hk2
      obtain ⟨cur', hgo, hfl, hcap'⟩ := ih 0 ((cur1.fillBuf).1) p' ((cur1.fillBuf).2)
        (out ++ cur.chunk) k2
        (by rw [fillBuf_cap, hcur1, consume_cap]; exact hcap)
        (by rw [fillBuf_chunk]; simp)
        (by simp)
        (by omega)
        hscan2
      have hout : out ++ cur.chunk ++ (cur1.fillBuf).2.chunk.take 0 ++
          ((cur1.fillBuf).1 ++ (cur1.fillBuf).2.rest).take k2 =
          out ++ cur.chunk.take base ++ (todo ++ cur.rest).take k := by
        rw [hflat1]
        have htk : (todo ++ cur.rest).take k = todo ++ cur.rest.take k2 := by
          rw [← hkeq, List.take_append_eq_append_take]
          have h1 : todo.take (k2 + todo.length) = todo :=
            List.take_of_length_le (by omega)
          have h2 : k2 + todo.length - todo.length = k2 := by omega
          rw [h1, h2]
        rw [htk]
        conv_lhs => rw [hchunk]
        simp [List.append_assoc]
      refine ⟨cur', ?_, ?_, by rw [hcap', fillBuf_cap, hcur1, consume_cap]⟩
      · rw [write_string_go, hcs]
        simp only [hemp]
        rw [if_neg (by simp [hemp])]
        rw [hgo, hout]
      · rw [hfl, hflat1, ← hkeq]
        rw [List.drop_append_eq_append_drop]
        have h1 : todo.drop (k2 + todo.length) = [] :=
          List.drop_eq_nil_of_le (by omega)
        have h2 : k2 + todo.length - todo.length = k2 := by omega
        rw [h1, h2]
        simp

/-- Behaviour of write_string on a cursor positioned at an opening quote:
with sufficient fuel, the token up to and including the first unescaped
closing quote is written verbatim and consumed, and a stream with no
unescaped closing quote yields an unexpected end of stream. Holds for every
buffer capacity of at least one byte and every chunk alignment. -/
theorem write_string_spec (fuel : Nat) (cur : Cursor) (u : List Nat)
    (hcap : 1 ≤ cur.cap) (hflat : cur.flat = 34 :: u)
    (hfuel : cur.flatLen + 1 ≤ fuel) :
    (str_scan u 0 = none → write_string fuel cur = some (.error .unexpectedEof)) ∧
    (∀ k, str_scan u 0 = some k →
      ∃ cur', write_string fuel cur = some (.ok (34 :: u.take k, cur')) ∧
        cur'.flat = u.drop k ∧ cur'.cap = cur.cap) := by
  have hne : (cur.fillBuf).1 ≠ [] := by
    intro he
    rw [(fillBuf_empty_iff cur hcap).mp he] at hflat
    cases hflat
  obtain ⟨t, ht⟩ : ∃ t, (cur.fillBuf).1 = 34 :: t := by
    have h1 := fillBuf_rest cur
    rw [hflat] at h1
    cases hb : (cur.fillBuf).1 with
    | nil => exact absurd hb hne
    | cons a l =>
      rw [hb] at h1
      simp at h1
      exact ⟨l, by rw [h1.1]⟩
  have hrest : t ++ (cur.fillBuf).2.rest = u := by
    have h1 := fillBuf_rest cur
    rw [hflat, ht] at h1
    simpa using h1
  have heq : write_string fuel cur = write_string_go fuel 1 t 0 (cur.fillBuf).2 [] := by
    simp [write_string, ht]
  have hchunk2 : (cur.fillBuf).2.chunk = 34 :: t := by rw [fillBuf_chunk, ht]
  have hcap2 : 1 ≤ (cur.fillBuf).2.cap := by rw [fillBuf_cap]; exact hcap
  have hflen : (cur.fillBuf).2.rest.length + 1 ≤ fuel := by
    have h2 : (t ++ (cur.fillBuf).2.rest).length = u.length := by rw [hrest]
    simp at h2
    rw [flatLen_eq, hflat] at hfuel
    simp at hfuel
    omega
  constructor
  · intro hnone
    rw [heq]
    exact write_string_go_none fuel 1 t 0 _ [] hcap2 (by rw [hchunk2]; simp)
      (by rw [hchunk2]; simp) hflen (by rw [hrest]; exact hnone)
  · intro k hsome
    obtain ⟨cur', hgo, hfl, hcap'⟩ := write_string_go_some fuel 1 t 0 (cur.fillBuf).2 [] k
      hcap2 (by rw [hchunk2]; simp) (by rw [hchunk2]; simp) hflen
      (by rw [hrest]; exact hsome)
    refine ⟨cur', ?_, ?_, by rw [hcap', fillBuf_cap]⟩
    · rw [heq, hgo, hchunk2, hrest]
      simp
    · rw [hfl, hrest]

/-- Core lemma of write_number: the copier writes the maximal run of bytes
in the number class verbatim and stops at the first byte outside the class
or quietly at end of stream, whatever the chunk boundaries. -/
theorem write_number_go_spec (fuel : Nat) :
    ∀ (base : Nat) (todo : List Nat) (cur : Cursor) (out : List Nat),
      1 ≤ cur.cap → todo = cur.chunk.drop base → base ≤ cur.chunk.length →
      cur.rest.length + 1 ≤ fuel →
      ∃ cur', write_number_go fuel base todo cur out =
          some (out ++ cur.chunk.take base ++ (todo ++ cur.rest).takeWhile numCont,
            cur') ∧
        cur'.flat = (todo ++ cur.rest).dropWhile numCont ∧ cur'.cap = cur.cap := by
  induction fuel with
  | zero => intro base todo cur out _ _ _ hf; omega
  | succ fuel ih =>
    intro base todo cur out hcap htodo hbase hfuel
    have hchunk : cur.chunk = cur.chunk.take base ++ todo := by
      rw [htodo, List.take_append_drop]
    have hlbase : (cur.chunk.take base).length = base := by
      rw [List.length_take]; omega
    cases hidx : todo.findIdx? (fun c => !numCont c) with
    | some k =>
      have hk := takeWhile_findIdx (fun c => numCont c) todo k (by
        have : (fun b => !(fun c => numCont c) b) = (fun c => !numCont c) := rfl
        rw [this]; exact hidx)
      have hlen : base + k ≤ cur.chunk.length := by
        have h2 : todo.length = cur.chunk.length - base := by
          rw [htodo, List.length_drop]
        omega
      have hgo1 : write_number_go (fuel + 1) base todo cur out =
          some (out ++ cur.chunk.take (base + k), cur.consume (base + k)) := by
        rw [write_number_go, hidx]
      have htw : (todo ++ cur.rest).takeWhile numCont = todo.take k :=
        takeWhile_append_findIdx numCont todo cur.rest k hidx
      have hdw : (todo ++ cur.rest).dropWhile numCont = (todo ++ cur.rest).drop k :=
        dropWhile_findIdx numCont todo cur.rest k hidx
      refine ⟨cur.consume (base + k), ?_, ?_, by rw [consume_cap]⟩
      · rw [hgo1, htw]
        have htk : cur.chunk.take (base + k) =
            cur.chunk.take base ++ todo.take k := by
          conv_lhs => rw [hchunk]
          rw [List.take_append_eq_append_take, List.take_take, hlbase]
          have h1 : min (base + k) base = base := by omega
          have h2 : base + k - base = k := by omega
          rw [h1, h2]
        rw [htk, List.append_assoc]
      · have hflat : cur.flat = cur.chunk.take base ++ (todo ++ cur.rest) := by
          rw [Cursor.flat]
          conv_lhs => rw [hchunk]
          simp [List.append_assoc]
        rw [consume_flat _ _ hlen, hflat, List.drop_append_eq_append_drop, hlbase,
          hdw]
        rw [List.drop_eq_nil_of_le (by rw [hlbase]; omega :
          (cur.chunk.take base).length ≤ base + k)]
        have h2 : base + k - base = k := by omega
        rw [h2]
        simp
    | none =>
      have hall : ∀ x ∈ todo, numCont x = true := by
        have := (findIdx?_none_iff _ _).mp hidx
        intro x hx
        simpa using this x hx
      have htw : (todo ++ cur.rest).takeWhile numCont =
          todo ++ cur.rest.takeWhile numCont := takeWhile_all_append numCont _ _ hall
      have hdw : (todo ++ cur.rest).dropWhile numCont =
          cur.rest.dropWhile numCont := dropWhile_all_append numCont _ _ hall
      set cur1 := cur.consume cur.chunk.length with hcur1
      have hch : cur1.chunk = [] := by rw [hcur1, consume_chunk]; simp
      have hrest1 : cur1.rest = cur.rest := rfl
      by_cases hre : cur.rest = []
      · have hemp : ((cur1.fillBuf).1).isEmpty = true := by
          rw [Cursor.fillBuf, if_pos (by simp [hch]), hrest1, hre]
          simp
        have hgo1 : write_number_go (fuel + 1) base todo cur out =
            some (out ++ cur.chunk, (cur1.fillBuf).2) := by
          rw [write_number_go, hidx]
          simp only [hemp]
          rfl
        refine ⟨(cur1.fillBuf).2, ?_, ?_, by rw [fillBuf_cap, hcur1, consume_cap]⟩
        · rw [hgo1, htw, hre]
          conv_lhs => rw [hchunk]
          simp
        · have h3 : (cur1.fillBuf).2.flat = [] := by
            rw [fillBuf_flat cur1, Cursor.flat, hch, hrest1, hre]
            rfl
          rw [h3, hdw, hre]
          simp
      · have hne : ((cur1.fillBuf).1) ≠ [] := by
          intro he
          have := (fillBuf_empty_iff cur1 (by rw [hcur1, consume_cap]; exact hcap)).mp he
          rw [Cursor.flat, hch, hrest1] at this
          exact hre (by simpa using this)
        have hemp : ((cur1.fillBuf).1).isEmpty = false := by
          cases h : (cur1.fillBuf).1 with
          | nil => exact absurd h hne
          | cons a l => simp
        have hflat1 : (cur1.fillBuf).1 ++ (cur1.fillBuf).2.rest = cur.rest := by
          have h2 := fillBuf_rest cur1
          rw [Cursor.flat, hch, hrest1] at h2
          simpa using h2
        have hlen1 : 1 ≤ (cur1.fillBuf).1.length := by
          cases h : (cur1.fillBuf).1 with
          | nil => exact absurd h hne
          | cons a l => simp
        have hlensum : (cur1.fillBuf).1.length + (cur1.fillBuf).2.rest.length =
            cur.rest.length := by
          have : ((cur1.fillBuf).1 ++ (cur1.fillBuf).2.rest).length = cur.rest.length := by
            rw [hflat1]
          simpa using this
        obtain ⟨cur', hgo, hfl, hcap'⟩ := ih 0 ((cur1.fillBuf).1) ((cur1.fillBuf).2)
          (out ++ cur.chunk)
          (by rw [fillBuf_cap, hcur1, consume_cap]; exact hcap)
          (by rw [fillBuf_chunk]; simp)
          (by simp)
          (by omega)
        refine ⟨cur', ?_, ?_, by rw [hcap', fillBuf_cap, hcur1, consume_cap]⟩
        · rw [write_number_go, hidx]
          simp only [hemp]
          rw [if_neg (by simp [hemp])]
          rw [hgo, htw]
          have heq2 : (cur1.fillBuf).1 ++ (cur1.fillBuf).2.rest = cur.rest := hflat1
          rw [heq2]
          conv_lhs => rw [hchunk]
          simp [List.append_assoc]
        · rw [hfl, hflat1, hdw]

/-- Behaviour of write_number on a nonempty stream: the first byte is
consumed unconditionally, then the maximal run of number class bytes; the
bytes are written verbatim; end of stream is not an error. -/
theorem write_number_spec (fuel : Nat) (cur : Cursor) (a : Nat) (u : List Nat)
    (hcap : 1 ≤ cur.cap) (hflat : cur.flat = a :: u)
    (hfuel : cur.flatLen + 1 ≤ fuel) :
    ∃ cur', write_number fuel cur = some (a :: u.takeWhile numCont, cur') ∧
      cur'.flat = u.dropWhile numCont ∧ cur'.cap = cur.cap := by
  have hne : (cur.fillBuf).1 ≠ [] := by
    intro he
    rw [(fillBuf_empty_iff cur hcap).mp he] at hflat
    cases hflat
  obtain ⟨t, ht⟩ : ∃ t, (cur.fillBuf).1 = a :: t := by
    have h1 := fillBuf_rest cur
    rw [hflat] at h1
    cases hb : (cur.fillBuf).1 with
    | nil => exact absurd hb hne
    | cons b l =>
      rw [hb] at h1
      simp at h1
      exact ⟨l, by rw [h1.1]⟩
  have hrest : t ++ (cur.fillBuf).2.rest = u := by
    have h1 := fillBuf_rest cur
    rw [hflat, ht] at h1
    simpa using h1
  have heq : write_number fuel cur = write_number_go fuel 1 t (cur.fillBuf).2 [] := by
    simp [write_number, ht]
  have hchunk2 : (cur.fillBuf).2.chunk = a :: t := by rw [fillBuf_chunk, ht]
  have hflen : (cur.fillBuf).2.rest.length + 1 ≤ fuel := by
    have h2 : (t ++ (cur.fillBuf).2.rest).length = u.length := by rw [hrest]
    simp at h2
    rw [flatLen_eq, hflat] at hfuel
    simp at hfuel
    omega
  obtain ⟨cur', hgo, hfl, hcap'⟩ := write_number_go_spec fuel 1 t (cur.fillBuf).2 []
    (by rw [fillBuf_cap]; exact hcap) (by rw [hchunk2]; simp)
    (by rw [hchunk2]; simp) hflen
  refine ⟨cur', ?_, ?_, by rw [hcap', fillBuf_cap]⟩
  · rw [heq, hgo, hchunk2, hrest]
    simp
  · rw [hfl, hrest]

/-- Behaviour of peek_char: the head of the remaining data, or the NUL
sentinel at end of stream; the stream itself is not advanced. -/
theorem peek_char_spec (cur : Cursor) (hcap : 1 ≤ cur.cap) :
    (peek_char cur).1 = cur.flat.headD 0 ∧ (peek_char cur).2.flat = cur.flat ∧
      (peek_char cur).2.cap = cur.cap := by
  refine ⟨?_, fillBuf_flat cur, fillBuf_cap cur⟩
  have hp : (peek_char cur).1 = (cur.fillBuf).1.headD 0 := rfl
  rw [hp]
  cases hb : (cur.fillBuf).1 with
  | nil =>
    rw [(fillBuf_empty_iff cur hcap).mp hb]
  | cons b l =>
    have h1 := fillBuf_rest cur
    rw [hb] at h1
    rw [← h1]
    rfl

/-- Consuming one byte after a peek on a nonempty stream drops its head. -/
theorem peek_consume_one (cur : Cursor) (hcap : 1 ≤ cur.cap)
    (hne : cur.flat ≠ []) :
    ((peek_char cur).2.consume 1).flat = cur.flat.drop 1 ∧
      ((peek_char cur).2.consume 1).cap = cur.cap := by
  have hne1 : (cur.fillBuf).1 ≠ [] := by
    intro he; exact hne ((fillBuf_empty_iff cur hcap).mp he)
  have hlen : 1 ≤ (peek_char cur).2.chunk.length := by
    show 1 ≤ (cur.fillBuf).2.chunk.length
    rw [fillBuf_chunk]
    cases hb : (cur.fillBuf).1 with
    | nil => exact absurd hb hne1
    | cons b l => simp
  constructor
  · rw [consume_flat _ _ hlen]
    show ((cur.fillBuf).2.flat).drop 1 = cur.flat.drop 1
    rw [fillBuf_flat]
  · show ((cur.fillBuf).2.consume 1).cap = cur.cap
    rw [consume_cap, fillBuf_cap]

/-- Success of readExact: when the stream holds at least n bytes, exactly
the first n are taken. -/
theorem readExact_some (c : Cursor) (n : Nat) (h : n ≤ c.flat.length) :
    ∃ c', c.readExact n = some (c.flat.take n, c') ∧ c'.flat = c.flat.drop n ∧
      c'.cap = c.cap := by
  refine ⟨⟨c.chunk.drop n, c.rest.drop (n - c.chunk.length), c.cap⟩, ?_, ?_, rfl⟩
  · rw [Cursor.readExact, if_pos (by rw [flatLen_eq]; exact h)]
  · show c.chunk.drop n ++ c.rest.drop (n - c.chunk.length) = c.flat.drop n
    rw [Cursor.flat, List.drop_append_eq_append_drop]

/-- Failure of readExact: a short stream cannot provide n bytes. -/
theorem readExact_none (c : Cursor) (n : Nat) (h : c.flat.length < n) :
    c.readExact n = none := by
  rw [Cursor.readExact, if_neg (by rw [flatLen_eq]; omega)]

theorem firstDiff_refl (l : List Nat) : firstDiff l l = none := by
  induction l with
  | nil => rfl
  | cons c cs ih => simp [firstDiff, ih]

theorem firstDiff_append_left (p l₁ l₂ : List Nat) :
    firstDiff (p ++ l₁) (p ++ l₂) = firstDiff l₁ l₂ := by
  induction p with
  | nil => rfl
  | cons c cs ih => simp [List.cons_append, firstDiff, ih]

/-- Match case of write_expected: the expected bytes are present, they are
consumed and written. -/
theorem write_expected_ok (cur : Cursor) (expect rest : List Nat)
    (hflat : cur.flat = expect ++ rest) :
    ∃ cur', write_expected cur expect = .ok (expect, cur') ∧
      cur'.flat = rest ∧ cur'.cap = cur.cap := by
  obtain ⟨c', hre, hfl, hcap'⟩ := readExact_some cur expect.length
    (by rw [hflat]; simp)
  have htake : cur.flat.take expect.length = expect := by
    rw [hflat, List.take_append_eq_append_take]
    simp
  refine ⟨c', ?_, ?_, hcap'⟩
  · rw [write_expected, hre, htake]
    show (match firstDiff expect expect with
      | some b => Except.error (JErr.invalidInput b)
      | none => Except.ok (expect, c')) = Except.ok (expect, c')
    rw [firstDiff_refl]
  · rw [hfl, hflat, List.drop_append_eq_append_drop]
    simp

/-- End of stream case of write_expected: fewer bytes remain than expected. -/
theorem write_expected_eof (cur : Cursor) (expect : List Nat)
    (h : cur.flat.length < expect.length) :
    write_expected cur expect = .error .unexpectedEof := by
  rw [write_expected, readExact_none cur expect.length h]

/-- Mismatch case of write_expected: the first differing read byte is
reported and nothing is written. -/
theorem write_expected_mismatch (cur : Cursor) (expect pre : List Nat)
    (x y : Nat) (e2 u : List Nat) (hx : x ≠ y)
    (hexp : expect = pre ++ x :: e2)
    (hflat : cur.flat = pre ++ y :: u)
    (hlen : expect.length ≤ cur.flat.length) :
    write_expected cur expect = .error (.invalidInput y) := by
  obtain ⟨c', hre, hfl, hcap'⟩ := readExact_some cur expect.length hlen
  have htake : cur.flat.take expect.length =
      pre ++ y :: u.take (e2.length) := by
    rw [hflat, hexp, List.take_append_eq_append_take]
    have h1 : pre.take (pre ++ x :: e2).length = pre :=
      List.take_of_length_le (by simp)
    rw [h1]
    have h2 : (pre ++ x :: e2).length - pre.length = e2.length + 1 := by
      simp
    rw [h2]
    rfl
  rw [write_expected, hre, htake, hexp]
  show (match firstDiff (pre ++ x :: e2) (pre ++ y :: u.take e2.length) with
    | some b => Except.error (JErr.invalidInput b)
    | none => Except.ok (pre ++ x :: e2, c')) = Except.error (JErr.invalidInput y)
  rw [firstDiff_append_left]
  show (match (if x ≠ y then some y else firstDiff e2 (u.take e2.length)) with
    | some b => Except.error (JErr.invalidInput b)
    | none => Except.ok (pre ++ x :: e2, c')) = Except.error (JErr.invalidInput y)
  rw [if_pos hx]

/-- Popping directly after a push restores the indentation state. -/
theorem Indent.pop_push (i : Indent) : i.push.pop = i := by
  cases i with
  | mk tab pfx =>
    simp only [Indent.push, Indent.pop, Indent.mk.injEq]
    refine ⟨trivial, ?_⟩
    have h1 : (pfx ++ tab).length - tab.length = pfx.length := by simp
    rw [h1, List.take_append_eq_append_take, List.take_of_length_le (le_refl _),
      Nat.sub_self]
    simp

/-- Skipping whitespace inside one formatter step: a whitespace slot
followed by a non whitespace byte is consumed exactly. -/
theorem skip_ws_in_step (cur : Cursor) (w u : List Nat) (a : Nat)
    (hcap : 1 ≤ cur.cap) (hflat : cur.flat = w ++ a :: u)
    (hw : wsOnly w = true) (ha : isWs a = false) :
    ∃ c1, skip_whitespace (cur.flatLen + 1) cur = some c1 ∧
      c1.flat = a :: u ∧ c1.cap = cur.cap := by
  have hwall : ∀ x ∈ w, isWs x = true := by
    intro x hx
    exact (List.all_eq_true.mp hw) x hx
  have hws : cur.flat.all isWs = false := by
    rw [hflat, List.all_append]
    simp [ha]
  obtain ⟨c1, h1, h2, h3⟩ := skip_whitespace_some (cur.flatLen + 1) cur hcap
    (le_refl _) hws
  refine ⟨c1, h1, ?_, h3⟩
  rw [h2, hflat, dropWhile_all_append isWs _ _ hwall, List.dropWhile_cons]
  simp [ha]

/-- Valid string content scans to exactly its closing quote. -/
theorem str_scan_strOK (s : List Nat) :
    ∀ (prev : Nat) (u : List Nat), strOK s prev = true →
      str_scan (s ++ 34 :: u) prev = some (s.length + 1) := by
  induction s with
  | nil =>
    intro prev u h
    rw [strOK] at h
    rw [List.nil_append, str_scan, if_pos (by simp [h])]
    rfl
  | cons c cs ih =>
    intro prev u h
    rw [strOK] at h
    by_cases hc : (c == 34 && prev != 92) = true
    · rw [if_pos hc] at h; cases h
    · rw [if_neg hc] at h
      rw [List.cons_append, str_scan, if_neg hc, ih _ u h]
      rfl

/-- Remaining bytes outside the number class are not consumed by the
number copier. -/
theorem takeWhile_numCont_stop (u : List Nat) (h : numCont (u.headD 44) = false) :
    u.takeWhile numCont = [] ∧ u.dropWhile numCont = u := by
  cases u with
  | nil => simp
  | cons c cs =>
    simp only [List.headD_cons] at h
    simp [List.takeWhile_cons, List.dropWhile_cons, h]

/-- Step of the grammar formatter on a Value frame at an opening bracket:
the bracket and a newline are written, one indentation level is pushed and
the matching container frame replaces the Value frame. -/
theorem step_value_open (K : List St) (ind : Indent) (cur : Cursor)
    (out w u : List Nat) (b : Nat) (hb : b = 123 ∨ b = 91)
    (hcap : 1 ≤ cur.cap) (hw : wsOnly w = true)
    (hflat : cur.flat = w ++ b :: u) :
    ∃ cur', format_json_step ⟨.Value :: K, ind, cur, out⟩ =
        .cont ⟨(if b == 123 then St.Object else St.Array) :: K, ind.push, cur',
          out ++ [b, 10]⟩ ∧
      cur'.flat = u ∧ cur'.cap = cur.cap := by
  have hbw : isWs b = false := by rcases hb with rfl | rfl <;> rfl
  obtain ⟨c1, hskip, hfl1, hcap1⟩ := skip_ws_in_step cur w u b hcap hflat hw hbw
  have hcap1' : 1 ≤ c1.cap := by rw [hcap1]; exact hcap
  have hpk := peek_char_spec c1 hcap1'
  have hch : (peek_char c1).1 = b := by rw [hpk.1, hfl1]; rfl
  have hcons := peek_consume_one c1 hcap1' (by rw [hfl1]; simp)
  refine ⟨(peek_char c1).2.consume 1, ?_, ?_, ?_⟩
  · unfold format_json_step
    simp only [hskip, hch]
    rw [if_pos (by rcases hb with rfl | rfl <;> rfl)]
  · rw [hcons.1, hfl1]
    rfl
  · rw [hcons.2, hcap1]

/-- Step of the grammar formatter on a Value frame at a string: the token
is copied verbatim. -/
theorem step_value_string (K : List St) (ind : Indent) (cur : Cursor)
    (out w k u : List Nat)
    (hcap : 1 ≤ cur.cap) (hw : wsOnly w = true) (hk : strOK k 0 = true)
    (hflat : cur.flat = w ++ 34 :: (k ++ 34 :: u)) :
    ∃ cur', format_json_step ⟨.Value :: K, ind, cur, out⟩ =
        .cont ⟨K, ind, cur', out ++ (34 :: k ++ [34])⟩ ∧
      cur'.flat = u ∧ cur'.cap = cur.cap := by
  obtain ⟨c1, hskip, hfl1, hcap1⟩ := skip_ws_in_step cur w (k ++ 34 :: u) 34
    hcap hflat hw rfl
  have hcap1' : 1 ≤ c1.cap := by rw [hcap1]; exact hcap
  have hpk := peek_char_spec c1 hcap1'
  have hch : (peek_char c1).1 = 34 := by rw [hpk.1, hfl1]; rfl
  have hscan : str_scan (k ++ 34 :: u) 0 = some (k.length + 1) :=
    str_scan_strOK k 0 u hk
  have hc2 : (peek_char c1).2.flat = 34 :: (k ++ 34 :: u) := by
    rw [hpk.2.1, hfl1]
  obtain ⟨c3, hws, hfl3, hcap3⟩ := (write_string_spec ((peek_char c1).2.flatLen + 1)
    (peek_char c1).2 (k ++ 34 :: u) (by rw [hpk.2.2]; exact hcap1') hc2
    (le_refl _)).2 (k.length + 1) hscan
  have htok : 34 :: (k ++ 34 :: u).take (k.length + 1) = 34 :: k ++ [34] := by
    rw [List.take_append_eq_append_take, List.take_of_length_le (by omega)]
    have h2 : k.length + 1 - k.length = 1 := by omega
    rw [h2]
    rfl
  have hdrop : (k ++ 34 :: u).drop (k.length + 1) = u := by
    rw [List.drop_append_eq_append_drop, List.drop_eq_nil_of_le (by omega)]
    have h2 : k.length + 1 - k.length = 1 := by omega
    rw [h2]
    rfl
  refine ⟨c3, ?_, ?_, ?_⟩
  · unfold format_json_step
    simp only [hskip, hch]
    rw [if_neg (by simp), if_pos (by simp)]
    rw [hws, htok]
  · rw [hfl3, hdrop]
  · rw [hcap3, hpk.2.2, hcap1]

/-- Step of the grammar formatter on a Value frame at a number: the maximal
number token is copied verbatim. -/
theorem step_value_number (K : List St) (ind : Indent) (cur : Cursor)
    (out w u : List Nat) (a : Nat) (t : List Nat)
    (hcap : 1 ≤ cur.cap) (hw : wsOnly w = true)
    (ha : (isDigit a || a == 45) = true)
    (ht : ∀ x ∈ t, numCont x = true)
    (hu : numCont (u.headD 44) = false)
    (hflat : cur.flat = w ++ a :: (t ++ u)) :
    ∃ cur', format_json_step ⟨.Value :: K, ind, cur, out⟩ =
        .cont ⟨K, ind, cur', out ++ (a :: t)⟩ ∧
      cur'.flat = u ∧ cur'.cap = cur.cap := by
  have hadig : (48 ≤ a ∧ a ≤ 57) ∨ a = 45 := by
    rw [Bool.or_eq_true] at ha
    rcases ha with h | h
    · left
      simp [isDigit] at h
      exact h
    · right
      simpa using h
  have haw : isWs a = false := by
    simp [isWs]
    omega
  obtain ⟨c1, hskip, hfl1, hcap1⟩ := skip_ws_in_step cur w (t ++ u) a hcap hflat hw haw
  have hcap1' : 1 ≤ c1.cap := by rw [hcap1]; exact hcap
  have hpk := peek_char_spec c1 hcap1'
  have hch : (peek_char c1).1 = a := by rw [hpk.1, hfl1]; rfl
  have hc2 : (peek_char c1).2.flat = a :: (t ++ u) := by rw [hpk.2.1, hfl1]
  obtain ⟨c3, hwn, hfl3, hcap3⟩ := write_number_spec ((peek_char c1).2.flatLen + 1)
    (peek_char c1).2 a (t ++ u) (by rw [hpk.2.2]; exact hcap1') hc2 (le_refl _)
  have hstop := takeWhile_numCont_stop u hu
  have htw : (t ++ u).takeWhile numCont = t := by
    rw [takeWhile_all_append numCont _ _ ht, hstop.1]
    simp
  have hdw : (t ++ u).dropWhile numCont = u := by
    rw [dropWhile_all_append numCont _ _ ht, hstop.2]
  refine ⟨c3, ?_, ?_, ?_⟩
  · unfold format_json_step
    simp only [hskip, hch]
    rw [if_neg (by simp; omega), if_neg (by simp; omega), if_pos ha]
    rw [hwn, htw]
  · rw [hfl3, hdw]
  · rw [hcap3, hpk.2.2, hcap1]

/-- Step of the grammar formatter on a Value frame at a literal keyword:
the expected bytes are matched and written. -/
theorem step_value_lit (K : List St) (ind : Indent) (cur : Cursor)
    (out w u lit : List Nat)
    (hlit : lit = [110, 117, 108, 108] ∨ lit = [116, 114, 117, 101] ∨
      lit = [102, 97, 108, 115, 101])
    (hcap : 1 ≤ cur.cap) (hw : wsOnly w = true)
    (hflat : cur.flat = w ++ lit ++ u) :
    ∃ cur', format_json_step ⟨.Value :: K, ind, cur, out⟩ =
        .cont ⟨K, ind, cur', out ++ lit⟩ ∧
      cur'.flat = u ∧ cur'.cap = cur.cap := by
  obtain ⟨a, t, hat⟩ : ∃ a t, lit = a :: t := by
    rcases hlit with rfl | rfl | rfl
    · exact ⟨_, _, rfl⟩
    · exact ⟨_, _, rfl⟩
    · exact ⟨_, _, rfl⟩
  have hflat' : cur.flat = w ++ a :: (t ++ u) := by
    rw [hflat, hat]
    simp
  have haw : isWs a = false := by
    rcases hlit with h | h | h <;> rw [hat] at h <;> cases h <;> rfl
  obtain ⟨c1, hskip, hfl1, hcap1⟩ := skip_ws_in_step cur w (t ++ u) a hcap hflat' hw haw
  have hcap1' : 1 ≤ c1.cap := by rw [hcap1]; exact hcap
  have hpk := peek_char_spec c1 hcap1'
  have hch : (peek_char c1).1 = a := by rw [hpk.1, hfl1]; rfl
  have hc2 : (peek_char c1).2.flat = lit ++ u := by
    rw [hpk.2.1, hfl1, hat]
    rfl
  obtain ⟨c3, hwe, hfl3, hcap3⟩ := write_expected_ok (peek_char c1).2 lit u hc2
  refine ⟨c3, ?_, ?_, ?_⟩
  · unfold format_json_step
    simp only [hskip, hch]
    rw [hat] at hwe
    rw [hat]
    rcases hlit with h | h | h <;> rw [hat] at h <;> cases h
    · rw [if_neg (by simp), if_neg (by simp), if_neg (by simp [isDigit]),
        if_pos (by simp)]
      rw [hwe]
    · rw [if_neg (by simp), if_neg (by simp), if_neg (by simp [isDigit]),
        if_neg (by simp), if_pos (by simp)]
      rw [hwe]
    · rw [if_neg (by simp), if_neg (by simp), if_neg (by simp [isDigit]),
        if_neg (by simp), if_neg (by simp), if_pos (by simp)]
      rw [hwe]
  · rw [hfl3]
  · rw [hcap3, hpk.2.2, hcap1]

/-- Step of the grammar formatter on an Object frame at a closing brace:
the brace is consumed, one level is popped and the outer indentation and
the brace are written. -/
theorem step_object_close (K : List St) (ind : Indent) (cur : Cursor)
    (out w u : List Nat)
    (hcap : 1 ≤ cur.cap) (hw : wsOnly w = true)
    (hflat : cur.flat = w ++ 125 :: u) :
    ∃ cur', format_json_step ⟨.Object :: K, ind, cur, out⟩ =
        .cont ⟨K, ind.pop, cur', out ++ ind.pop.pfx ++ [125]⟩ ∧
      cur'.flat = u ∧ cur'.cap = cur.cap := by
  obtain ⟨c1, hskip, hfl1, hcap1⟩ := skip_ws_in_step cur w u 125 hcap hflat hw rfl
  have hcap1' : 1 ≤ c1.cap := by rw [hcap1]; exact hcap
  have hpk := peek_char_spec c1 hcap1'
  have hch : (peek_char c1).1 = 125 := by rw [hpk.1, hfl1]; rfl
  have hcons := peek_consume_one c1 hcap1' (by rw [hfl1]; simp)
  refine ⟨(peek_char c1).2.consume 1, ?_, ?_, ?_⟩
  · unfold format_json_step
    simp only [hskip, hch]
    rw [if_neg (by simp), if_pos (by simp)]
    rfl
  · rw [hcons.1, hfl1]
    rfl
  · rw [hcons.2, hcap1]

/-- Step of the grammar formatter on an Array frame at a closing bracket. -/
theorem step_array_close (K : List St) (ind : Indent) (cur : Cursor)
    (out w u : List Nat)
    (hcap : 1 ≤ cur.cap) (hw : wsOnly w = true)
    (hflat : cur.flat = w ++ 93 :: u) :
    ∃ cur', format_json_step ⟨.Array :: K, ind, cur, out⟩ =
        .cont ⟨K, ind.pop, cur', out ++ ind.pop.pfx ++ [93]⟩ ∧
      cur'.flat = u ∧ cur'.cap = cur.cap := by
  obtain ⟨c1, hskip, hfl1, hcap1⟩ := skip_ws_in_step cur w u 93 hcap hflat hw rfl
  have hcap1' : 1 ≤ c1.cap := by rw [hcap1]; exact hcap
  have hpk := peek_char_spec c1 hcap1'
  have hch : (peek_char c1).1 = 93 := by rw [hpk.1, hfl1]; rfl
  have hcons := peek_consume_one c1 hcap1' (by rw [hfl1]; simp)
  refine ⟨(peek_char c1).2.consume 1, ?_, ?_, ?_⟩
  · unfold format_json_step
    simp only [hskip, hch]
    rw [if_pos (by simp)]
    rfl
  · rw [hcons.1, hfl1]
    rfl
  · rw [hcons.2, hcap1]

/-- Step of the grammar formatter on an Array frame at the start of an
element: the current indentation is written and Value and Elem frames are
pushed; nothing is consumed beyond the whitespace. -/
theorem step_array_item (K : List St) (ind : Indent) (cur : Cursor)
    (out w u : List Nat) (a : Nat)
    (hcap : 1 ≤ cur.cap) (hw : wsOnly w = true)
    (ha : isWs a = false) (hne : a ≠ 93)
    (hflat : cur.flat = w ++ a :: u) :
    ∃ cur', format_json_step ⟨.Array :: K, ind, cur, out⟩ =
        .cont ⟨.Value :: .Elem :: K, ind, cur', out ++ ind.pfx⟩ ∧
      cur'.flat = a :: u ∧ cur'.cap = cur.cap := by
  obtain ⟨c1, hskip, hfl1, hcap1⟩ := skip_ws_in_step cur w u a hcap hflat hw ha
  have hcap1' : 1 ≤ c1.cap := by rw [hcap1]; exact hcap
  have hpk := peek_char_spec c1 hcap1'
  have hch : (peek_char c1).1 = a := by rw [hpk.1, hfl1]; rfl
  refine ⟨(peek_char c1).2, ?_, ?_, ?_⟩
  · unfold format_json_step
    simp only [hskip, hch]
    rw [if_neg (by simp [hne])]
    rfl
  · rw [hpk.2.1, hfl1]
  · rw [hpk.2.2, hcap1]

/-- Step of the grammar formatter on an Object frame at a key: the
indentation, key string, colon and one space are written, and Value and
Pair frames are pushed. -/
theorem step_object_key (K : List St) (ind : Indent) (cur : Cursor)
    (out w1 k w2 u : List Nat)
    (hcap : 1 ≤ cur.cap) (hw1 : wsOnly w1 = true) (hw2 : wsOnly w2 = true)
    (hk : strOK k 0 = true)
    (hflat : cur.flat = w1 ++ 34 :: (k ++ 34 :: (w2 ++ 58 :: u))) :
    ∃ cur', format_json_step ⟨.Object :: K, ind, cur, out⟩ =
        .cont ⟨.Value :: .Pair :: K, ind, cur',
          out ++ ind.pfx ++ (34 :: k ++ [34]) ++ [58] ++ [32]⟩ ∧
      cur'.flat = u ∧ cur'.cap = cur.cap := by
  obtain ⟨c1, hskip, hfl1, hcap1⟩ := skip_ws_in_step cur w1 (k ++ 34 :: (w2 ++ 58 :: u))
    34 hcap hflat hw1 rfl
  have hcap1' : 1 ≤ c1.cap := by rw [hcap1]; exact hcap
  have hpk := peek_char_spec c1 hcap1'
  have hch : (peek_char c1).1 = 34 := by rw [hpk.1, hfl1]; rfl
  have hscan : str_scan (k ++ 34 :: (w2 ++ 58 :: u)) 0 = some (k.length + 1) :=
    str_scan_strOK k 0 (w2 ++ 58 :: u) hk
  have hc2 : (peek_char c1).2.flat = 34 :: (k ++ 34 :: (w2 ++ 58 :: u)) := by
    rw [hpk.2.1, hfl1]
  obtain ⟨c3, hws, hfl3, hcap3⟩ := (write_string_spec ((peek_char c1).2.flatLen + 1)
    (peek_char c1).2 (k ++ 34 :: (w2 ++ 58 :: u)) (by rw [hpk.2.2]; exact hcap1') hc2
    (le_refl _)).2 (k.length + 1) hscan
  have htok : 34 :: (k ++ 34 :: (w2 ++ 58 :: u)).take (k.length + 1) = 34 :: k ++ [34] := by
    rw [List.take_append_eq_append_take, List.take_of_length_le (by omega)]
    have h2 : k.length + 1 - k.length = 1 := by omega
    rw [h2]
    rfl
  have hfl3' : c3.flat = w2 ++ 58 :: u := by
    rw [hfl3, List.drop_append_eq_append_drop, List.drop_eq_nil_of_le (by omega)]
    have h2 : k.length + 1 - k.length = 1 := by omega
    rw [h2]
    rfl
  obtain ⟨c4, hskip2, hfl4, hcap4⟩ := skip_ws_in_step c3 w2 u 58
    (by rw [hcap3, hpk.2.2]; exact hcap1') hfl3' hw2 rfl
  obtain ⟨c5, hwe, hfl5, hcap5⟩ := write_expected_ok c4 [58] u (by rw [hfl4]; rfl)
  refine ⟨c5, ?_, ?_, ?_⟩
  · unfold format_json_step
    simp only [hskip, hch]
    rw [if_pos (by simp)]
    rw [hws, htok]
    have hfuel : c3.flatLen + 1 = c3.flatLen + 1 := rfl
    simp only [hskip2, hwe]
    rfl
  · rw [hfl5]
  · rw [hcap5, hcap4, hcap3, hpk.2.2, hcap1]

/-- Step of the grammar formatter on a Pair frame at a comma: the comma is
consumed, a comma and newline are written, and the Object frame resumes. -/
theorem step_pair_comma (K : List St) (ind : Indent) (cur : Cursor)
    (out w u : List Nat)
    (hcap : 1 ≤ cur.cap) (hw : wsOnly w = true)
    (hflat : cur.flat = w ++ 44 :: u) :
    ∃ cur', format_json_step ⟨.Pair :: K, ind, cur, out⟩ =
        .cont ⟨.Object :: K, ind, cur', out ++ [44, 10]⟩ ∧
      cur'.flat = u ∧ cur'.cap = cur.cap := by
  obtain ⟨c1, hskip, hfl1, hcap1⟩ := skip_ws_in_step cur w u 44 hcap hflat hw rfl
  have hcap1' : 1 ≤ c1.cap := by rw [hcap1]; exact hcap
  have hpk := peek_char_spec c1 hcap1'
  have hch : (peek_char c1).1 = 44 := by rw [hpk.1, hfl1]; rfl
  have hcons := peek_consume_one c1 hcap1' (by rw [hfl1]; simp)
  refine ⟨(peek_char c1).2.consume 1, ?_, ?_, ?_⟩
  · unfold format_json_step
    simp only [hskip, hch]
    rw [if_pos (by simp)]
  · rw [hcons.1, hfl1]
    rfl
  · rw [hcons.2, hcap1]

/-- Step of the grammar formatter on an Elem frame at a comma: the comma is
consumed, a comma and newline are written, and the Array frame resumes. -/
theorem step_elem_comma (K : List St) (ind : Indent) (cur : Cursor)
    (out w u : List Nat)
    (hcap : 1 ≤ cur.cap) (hw : wsOnly w = true)
    (hflat : cur.flat = w ++ 44 :: u) :
    ∃ cur', format_json_step ⟨.Elem :: K, ind, cur, out⟩ =
        .cont ⟨.Array :: K, ind, cur', out ++ [44, 10]⟩ ∧
      cur'.flat = u ∧ cur'.cap = cur.cap := by
  obtain ⟨c1, hskip, hfl1, hcap1⟩ := skip_ws_in_step cur w u 44 hcap hflat hw rfl
  have hcap1' : 1 ≤ c1.cap := by rw [hcap1]; exact hcap
  have hpk := peek_char_spec c1 hcap1'
  have hch : (peek_char c1).1 = 44 := by rw [hpk.1, hfl1]; rfl
  have hcons := peek_consume_one c1 hcap1' (by rw [hfl1]; simp)
  refine ⟨(peek_char c1).2.consume 1, ?_, ?_, ?_⟩
  · unfold format_json_step
    simp only [hskip, hch]
    rw [if_pos (by simp)]
  · rw [hcons.1, hfl1]
    rfl
  · rw [hcons.2, hcap1]

/-- Step of the grammar formatter on a Pair frame at a closing brace: the
brace is not consumed, a newline is written and the Object frame resumes. -/
theorem step_pair_close (K : List St) (ind : Indent) (cur : Cursor)
    (out w u : List Nat)
    (hcap : 1 ≤ cur.cap) (hw : wsOnly w = true)
    (hflat : cur.flat = w ++ 125 :: u) :
    ∃ cur', format_json_step ⟨.Pair :: K, ind, cur, out⟩ =
        .cont ⟨.Object :: K, ind, cur', out ++ [10]⟩ ∧
      cur'.flat = 125 :: u ∧ cur'.cap = cur.cap := by
  obtain ⟨c1, hskip, hfl1, hcap1⟩ := skip_ws_in_step cur w u 125 hcap hflat hw rfl
  have hcap1' : 1 ≤ c1.cap := by rw [hcap1]; exact hcap
  have hpk := peek_char_spec c1 hcap1'
  have hch : (peek_char c1).1 = 125 := by rw [hpk.1, hfl1]; rfl
  refine ⟨(peek_char c1).2, ?_, ?_, ?_⟩
  · unfold format_json_step
    simp only [hskip, hch]
    rw [if_neg (by simp), if_neg (by simp)]
  · rw [hpk.2.1, hfl1]
  · rw [hpk.2.2, hcap1]

/-- Step of the grammar formatter on an Elem frame at a closing bracket:
the bracket is not consumed, a newline is written and the Array frame
resumes. -/
theorem step_elem_close (K : List St) (ind : Indent) (cur : Cursor)
    (out w u : List Nat)
    (hcap : 1 ≤ cur.cap) (hw : wsOnly w = true)
    (hflat : cur.flat = w ++ 93 :: u) :
    ∃ cur', format_json_step ⟨.Elem :: K, ind, cur, out⟩ =
        .cont ⟨.Array :: K, ind, cur', out ++ [10]⟩ ∧
      cur'.flat = 93 :: u ∧ cur'.cap = cur.cap := by
  obtain ⟨c1, hskip, hfl1, hcap1⟩ := skip_ws_in_step cur w u 93 hcap hflat hw rfl
  have hcap1' : 1 ≤ c1.cap := by rw [hcap1]; exact hcap
  have hpk := peek_char_spec c1 hcap1'
  have hch : (peek_char c1).1 = 93 := by rw [hpk.1, hfl1]; rfl
  refine ⟨(peek_char c1).2, ?_, ?_, ?_⟩
  · unfold format_json_step
    simp only [hskip, hch]
    rw [if_neg (by simp), if_neg (by simp)]
  · rw [hpk.2.1, hfl1]
  · rw [hpk.2.2, hcap1]

/-! Unfolding lemmas for the recursive definitions over WVal, removing the
attach wrapper used for termination. -/

theorem attach_all_eq {α : Type} (l : List α) (g : α → Bool) :
    l.attach.all (fun x => g x.1) = l.all g := by
  cases h : l.all g with
  | true =>
    rw [List.all_eq_true]
    intro x _
    exact (List.all_eq_true.mp h) x.1 x.2
  | false =>
    obtain ⟨x, hx, hgx⟩ := List.all_eq_false.mp h
    exact List.all_eq_false.mpr ⟨⟨x, hx⟩, List.mem_attach _ _, hgx⟩

theorem render_arr (items : List (List Nat × WVal × List Nat)) (w : List Nat) :
    render (.warr items w) =
      91 :: assembleSeq (items.map (fun t => t.1 ++ render t.2.1 ++ t.2.2)) w 93 := by
  rw [render]
  exact congrArg (fun z => 91 :: assembleSeq z w 93)
    (List.attach_map_val items (fun t => t.1 ++ render t.2.1 ++ t.2.2))

theorem render_obj
    (fs : List (List Nat × List Nat × List Nat × List Nat × WVal × List Nat))
    (w : List Nat) :
    render (.wobj fs w) =
      123 :: assembleSeq (fs.map (fun t =>
        t.1 ++ 34 :: t.2.1 ++ 34 :: t.2.2.1 ++ 58 :: t.2.2.2.1 ++
          render t.2.2.2.2.1 ++ t.2.2.2.2.2)) w 125 := by
  rw [render]
  exact congrArg (fun z => 123 :: assembleSeq z w 125)
    (List.attach_map_val fs (fun t =>
      t.1 ++ 34 :: t.2.1 ++ 34 :: t.2.2.1 ++ 58 :: t.2.2.2.1 ++
        render t.2.2.2.2.1 ++ t.2.2.2.2.2))

theorem pretty_arr (items : List (List Nat × WVal × List Nat))
    (w tab p : List Nat) :
    pretty (.warr items w) tab p =
      91 :: 10 :: assemblePretty (items.map (fun t =>
        (p ++ tab) ++ pretty t.2.1 tab (p ++ tab))) p 93 := by
  rw [pretty]
  exact congrArg (fun z => 91 :: 10 :: assemblePretty z p 93)
    (List.attach_map_val items (fun t => (p ++ tab) ++ pretty t.2.1 tab (p ++ tab)))

theorem pretty_obj
    (fs : List (List Nat × List Nat × List Nat × List Nat × WVal × List Nat))
    (w tab p : List Nat) :
    pretty (.wobj fs w) tab p =
      123 :: 10 :: assemblePretty (fs.map (fun t =>
        (p ++ tab) ++ 34 :: t.2.1 ++ 34 :: 58 :: 32 ::
          pretty t.2.2.2.2.1 tab (p ++ tab))) p 125 := by
  rw [pretty]
  exact congrArg (fun z => 123 :: 10 :: assemblePretty z p 125)
    (List.attach_map_val fs (fun t =>
      (p ++ tab) ++ 34 :: t.2.1 ++ 34 :: 58 :: 32 :: pretty t.2.2.2.2.1 tab (p ++ tab)))

theorem validB_arr (items : List (List Nat × WVal × List Nat)) (w : List Nat) :
    validB (.warr items w) =
      (wsOnly w && items.all (fun t => wsOnly t.1 && wsOnly t.2.2 && validB t.2.1)) := by
  rw [validB]
  exact congrArg (fun z => wsOnly w && z)
    (attach_all_eq items (fun t => wsOnly t.1 && wsOnly t.2.2 && validB t.2.1))

theorem validB_obj
    (fs : List (List Nat × List Nat × List Nat × List Nat × WVal × List Nat))
    (w : List Nat) :
    validB (.wobj fs w) =
      (wsOnly w && fs.all (fun t => wsOnly t.1 && strOK t.2.1 0 && wsOnly t.2.2.1 &&
        wsOnly t.2.2.2.1 && wsOnly t.2.2.2.2.2 && validB t.2.2.2.2.1)) := by
  rw [validB]
  exact congrArg (fun z => wsOnly w && z)
    (attach_all_eq fs (fun t => wsOnly t.1 && strOK t.2.1 0 && wsOnly t.2.2.1 &&
      wsOnly t.2.2.2.1 && wsOnly t.2.2.2.2.2 && validB t.2.2.2.2.1))

theorem stepsW_arr (items : List (List Nat × WVal × List Nat)) (w : List Nat) :
    stepsW (.warr items w) = 2 + (items.map (fun t => stepsW t.2.1 + 2)).sum := by
  rw [stepsW]
  exact congrArg (fun z => 2 + List.sum z)
    (List.attach_map_val items (fun t => stepsW t.2.1 + 2))

theorem stepsW_obj
    (fs : List (List Nat × List Nat × List Nat × List Nat × WVal × List Nat))
    (w : List Nat) :
    stepsW (.wobj fs w) = 2 + (fs.map (fun t => stepsW t.2.2.2.2.1 + 2)).sum := by
  rw [stepsW]
  exact congrArg (fun z => 2 + List.sum z)
    (List.attach_map_val fs (fun t => stepsW t.2.2.2.2.1 + 2))

/-- Structural induction principle for WVal exposing list membership. -/
theorem WVal.indOn {motive : WVal → Prop}
    (hstr : ∀ s, motive (.wstr s)) (hnum : ∀ b, motive (.wnum b))
    (hnull : motive .wnull) (htrue : motive .wtrue) (hfalse : motive .wfalse)
    (harr : ∀ items w, (∀ p v q, (p, v, q) ∈ items → motive v) →
      motive (.warr items w))
    (hobj : ∀ fs w,
      (∀ pk k pc pv v q, (pk, k, pc, pv, v, q) ∈ fs → motive v) →
      motive (.wobj fs w)) :
    ∀ v, motive v
  | .wstr s => hstr s
  | .wnum b => hnum b
  | .wnull => hnull
  | .wtrue => htrue
  | .wfalse => hfalse
  | .warr items w => harr items w (fun p v q h =>
      WVal.indOn hstr hnum hnull htrue hfalse harr hobj v)
  | .wobj fs w => hobj fs w (fun pk k pc pv v q h =>
      WVal.indOn hstr hnum hnull htrue hfalse harr hobj v)
termination_by v => sizeOf v
decreasing_by
  · have hm := List.sizeOf_lt_of_mem h
    simp_all
    omega
  · have hm := List.sizeOf_lt_of_mem h
    simp_all
    omega

theorem go_cont (F : Nat) (cfg cfg' : FmtCfg)
    (h : format_json_step cfg = .cont cfg') :
    format_json_go (F + 1) cfg = format_json_go F cfg' := by
  conv_lhs => rw [format_json_go]
  rw [h]

theorem wsOnly_append (a b : List Nat) (ha : wsOnly a = true) (hb : wsOnly b = true) :
    wsOnly (a ++ b) = true := by
  rw [wsOnly, List.all_append]
  rw [wsOnly] at ha hb
  simp [ha, hb]

theorem numCont_of_ws (c : Nat) (h : isWs c = true) : numCont c = false := by
  simp [isWs] at h
  rcases h with ((rfl | rfl) | rfl) | rfl <;> rfl

/-- Head byte after a whitespace run followed by a delimiter byte is never
in the number class. -/
theorem numCont_head_ws_append (w : List Nat) (x : Nat) (u : List Nat)
    (hw : wsOnly w = true) (hx : numCont x = false) :
    numCont ((w ++ x :: u).headD 44) = false := by
  cases w with
  | nil => simpa using hx
  | cons c cs =>
    have hc : isWs c = true := (List.all_eq_true.mp hw) c (by simp)
    simpa using numCont_of_ws c hc

theorem numSafe_concat (v : WVal) (q tail : List Nat) (hq : wsOnly q = true)
    (htail : numCont (tail.headD 44) = false) : numSafe v (q ++ tail) := by
  cases v with
  | wnum b =>
    rw [numSafe]
    cases q with
    | nil => simpa using htail
    | cons c cs =>
      have hc : isWs c = true := (List.all_eq_true.mp hq) c (by simp)
      simpa using numCont_of_ws c hc
  | wstr s => trivial
  | wnull => trivial
  | wtrue => trivial
  | wfalse => trivial
  | warr items w => trivial
  | wobj fs w => trivial

/-- The first byte of a rendered valid value is a token byte: not
whitespace and none of the closing or separator bytes. -/
theorem render_head (v : WVal) (hv : validB v = true) :
    ∃ a u, render v = a :: u ∧ isWs a = false ∧ a ≠ 93 ∧ a ≠ 125 ∧ a ≠ 44 := by
  cases v with
  | wstr s => exact ⟨34, s ++ [34], by simp [render], rfl, by omega, by omega, by omega⟩
  | wnum b =>
    rw [validB, numOK] at hv
    simp only [Bool.and_eq_true] at hv
    obtain ⟨⟨h1, h2⟩, h3⟩ := hv
    cases hb : b with
    | nil => rw [hb] at h1; simp at h1
    | cons a t =>
      rw [hb] at h2
      simp only [List.headD_cons] at h2
      have ha : (48 ≤ a ∧ a ≤ 57) ∨ a = 45 := by
        rw [Bool.or_eq_true] at h2
        rcases h2 with h | h
        · left; simp [isDigit] at h; exact h
        · right; simpa using h
      refine ⟨a, t, by simp [render, hb], ?_, by omega, by omega, by omega⟩
      simp [isWs]
      omega
  | wnull => exact ⟨110, _, by rw [render], rfl, by omega, by omega, by omega⟩
  | wtrue => exact ⟨116, _, by rw [render], rfl, by omega, by omega, by omega⟩
  | wfalse => exact ⟨102, _, by rw [render], rfl, by omega, by omega, by omega⟩
  | warr items w =>
    exact ⟨91, _, by rw [render_arr], rfl, by omega, by omega, by omega⟩
  | wobj fs w =>
    exact ⟨123, _, by rw [render_obj], rfl, by omega, by omega, by omega⟩

/-- Execution of the grammar formatter over the remaining entries of an
array, from the Array frame with the pushed indentation: each entry is
written on its own line at the current indentation, separated by commas,
and the closing bracket line restores and uses the popped indentation. -/
theorem thmA_items :
    ∀ (items : List (List Nat × WVal × List Nat)) (w : List Nat),
      wsOnly w = true →
      (∀ p v q, (p, v, q) ∈ items → validB v = true →
        ∀ (K : List St) (ind : Indent) (cur : Cursor) (out wv rest : List Nat),
          1 ≤ cur.cap → wsOnly wv = true → cur.flat = wv ++ render v ++ rest →
          numSafe v rest →
          ∃ cur', cur'.flat = rest ∧ cur'.cap = cur.cap ∧
            ∀ F, format_json_go (F + stepsW v) ⟨.Value :: K, ind, cur, out⟩ =
              format_json_go F ⟨K, ind, cur', out ++ pretty v ind.one_tab ind.pfx⟩) →
      (∀ p v q, (p, v, q) ∈ items →
        wsOnly p = true ∧ wsOnly q = true ∧ validB v = true) →
      ∀ (K : List St) (ind : Indent) (cur : Cursor) (out rest : List Nat),
        1 ≤ cur.cap →
        cur.flat = assembleSeq (items.map (fun t => t.1 ++ render t.2.1 ++ t.2.2))
          w 93 ++ rest →
        ∃ cur', cur'.flat = rest ∧ cur'.cap = cur.cap ∧
          ∀ F, format_json_go (F + ((items.map (fun t => stepsW t.2.1 + 2)).sum + 1))
              ⟨.Array :: K, ind, cur, out⟩ =
            format_json_go F ⟨K, ind.pop, cur',
              out ++ assemblePretty (items.map (fun t =>
                ind.pfx ++ pretty t.2.1 ind.one_tab ind.pfx)) ind.pop.pfx 93⟩ := by
  intro items
  induction items with
  | nil =>
    intro w hw _ _ K ind cur out rest hcap hflat
    have hflat' : cur.flat = w ++ 93 :: rest := by
      rw [hflat]
      simp [assembleSeq]
    obtain ⟨cur', hstep, hfl, hcap'⟩ := step_array_close K ind cur out w rest hcap hw hflat'
    refine ⟨cur', hfl, hcap', ?_⟩
    intro F
    have hfuel : F + ((([] : List (List Nat × WVal × List Nat)).map
        (fun t => stepsW t.2.1 + 2)).sum + 1) = F + 1 := by simp
    rw [hfuel, go_cont F _ _ hstep]
    refine congrArg (format_json_go F) ?_
    simp [assemblePretty, List.append_assoc]
  | cons x xs ih =>
    obtain ⟨p, v, q⟩ := x
    intro w hw hIH hval K ind cur out rest hcap hflat
    have hx : (p, v, q) ∈ (p, v, q) :: xs := by simp
    obtain ⟨hp, hq, hv⟩ := hval p v q hx
    obtain ⟨a, rv, hrv, haw, ha93, _, _⟩ := render_head v hv
    cases xs with
    | nil =>
      have hflat' : cur.flat = p ++ a :: (rv ++ (q ++ (w ++ 93 :: rest))) := by
        rw [hflat]
        simp [assembleSeq, hrv, List.append_assoc]
      obtain ⟨c1, hs1, hfl1, hcap1⟩ := step_array_item K ind cur out p
        (rv ++ (q ++ (w ++ 93 :: rest))) a hcap hp haw ha93 hflat'
      have hnums : numSafe v (q ++ (w ++ 93 :: rest)) :=
        numSafe_concat v q _ hq (numCont_head_ws_append w 93 rest hw rfl)
      obtain ⟨c2, hfl2, hcap2, hgo2⟩ := hIH p v q hx hv (.Elem :: K) ind c1
        (out ++ ind.pfx) [] (q ++ (w ++ 93 :: rest))
        (by rw [hcap1]; exact hcap) rfl
        (by rw [hfl1, hrv]; simp) hnums
      obtain ⟨c3, hs3, hfl3, hcap3⟩ := step_elem_close K ind c2
        (out ++ ind.pfx ++ pretty v ind.one_tab ind.pfx) (q ++ w) rest
        (by rw [hcap2, hcap1]; exact hcap) (wsOnly_append q w hq hw)
        (by rw [hfl2]; simp)
      obtain ⟨c4, hs4, hfl4, hcap4⟩ := step_array_close K ind c3
        (out ++ ind.pfx ++ pretty v ind.one_tab ind.pfx ++ [10]) [] rest
        (by rw [hcap3, hcap2, hcap1]; exact hcap) rfl (by rw [hfl3]; rfl)
      refine ⟨c4, hfl4, by rw [hcap4, hcap3, hcap2, hcap1], ?_⟩
      intro F
      have hfuel : F + ((([(p, v, q)]).map (fun t => stepsW t.2.1 + 2)).sum + 1) =
          ((F + 1 + 1) + stepsW v) + 1 := by simp; omega
      rw [hfuel, go_cont _ _ _ hs1, hgo2 (F + 1 + 1), go_cont _ _ _ hs3,
        go_cont _ _ _ hs4]
      refine congrArg (format_json_go F) ?_
      simp [assemblePretty, List.append_assoc]
    | cons x2 xs2 =>
      have hflat' : cur.flat = p ++ a :: (rv ++ (q ++ 44 ::
          (assembleSeq ((x2 :: xs2).map (fun t => t.1 ++ render t.2.1 ++ t.2.2))
            w 93 ++ rest))) := by
        rw [hflat]
        simp [assembleSeq, hrv, List.append_assoc]
      obtain ⟨c1, hs1, hfl1, hcap1⟩ := step_array_item K ind cur out p
        (rv ++ (q ++ 44 ::
          (assembleSeq ((x2 :: xs2).map (fun t => t.1 ++ render t.2.1 ++ t.2.2))
            w 93 ++ rest))) a hcap hp haw ha93 hflat'
      have hnums : numSafe v (q ++ 44 ::
          (assembleSeq ((x2 :: xs2).map (fun t => t.1 ++ render t.2.1 ++ t.2.2))
            w 93 ++ rest)) :=
        numSafe_concat v q _ hq rfl
      obtain ⟨c2, hfl2, hcap2, hgo2⟩ := hIH p v q hx hv (.Elem :: K) ind c1
        (out ++ ind.pfx) [] (q ++ 44 ::
          (assembleSeq ((x2 :: xs2).map (fun t => t.1 ++ render t.2.1 ++ t.2.2))
            w 93 ++ rest))
        (by rw [hcap1]; exact hcap) rfl
        (by rw [hfl1, hrv]; simp) hnums
      obtain ⟨c3, hs3, hfl3, hcap3⟩ := step_elem_comma K ind c2
        (out ++ ind.pfx ++ pretty v ind.one_tab ind.pfx) q
        (assembleSeq ((x2 :: xs2).map (fun t => t.1 ++ render t.2.1 ++ t.2.2))
          w 93 ++ rest)
        (by rw [hcap2, hcap1]; exact hcap) hq (by rw [hfl2])
      obtain ⟨c4, hfl4, hcap4, hgo4⟩ := ih w hw
        (fun p' v' q' h => hIH p' v' q' (by simp [h]))
        (fun p' v' q' h => hval p' v' q' (by simp [h]))
        K ind c3 (out ++ ind.pfx ++ pretty v ind.one_tab ind.pfx ++ [44, 10]) rest
        (by rw [hcap3, hcap2, hcap1]; exact hcap) hfl3
      refine ⟨c4, hfl4, by rw [hcap4, hcap3, hcap2, hcap1], ?_⟩
      intro F
      have hfuel : F + ((((p, v, q) :: x2 :: xs2).map
          (fun t => stepsW t.2.1 + 2)).sum + 1) =
          (((F + (((x2 :: xs2).map (fun t => stepsW t.2.1 + 2)).sum + 1)) + 1) +
            stepsW v) + 1 := by
        simp
        omega
      rw [hfuel, go_cont _ _ _ hs1,
        hgo2 (F + (((x2 :: xs2).map (fun t => stepsW t.2.1 + 2)).sum + 1) + 1),
        go_cont _ _ _ hs3,
        hgo4 F]
      refine congrArg (format_json_go F) ?_
      simp [assemblePretty, List.append_assoc]

/-- Execution of the grammar formatter over the remaining fields of an
object, from the Object frame with the pushed indentation. -/
theorem thmA_fields :
    ∀ (fs : List (List Nat × List Nat × List Nat × List Nat × WVal × List Nat))
      (w : List Nat),
      wsOnly w = true →
      (∀ pk k pc pv v q, (pk, k, pc, pv, v, q) ∈ fs → validB v = true →
        ∀ (K : List St) (ind : Indent) (cur : Cursor) (out wv rest : List Nat),
          1 ≤ cur.cap → wsOnly wv = true → cur.flat = wv ++ render v ++ rest →
          numSafe v rest →
          ∃ cur', cur'.flat = rest ∧ cur'.cap = cur.cap ∧
            ∀ F, format_json_go (F + stepsW v) ⟨.Value :: K, ind, cur, out⟩ =
              format_json_go F ⟨K, ind, cur', out ++ pretty v ind.one_tab ind.pfx⟩) →
      (∀ pk k pc pv v q, (pk, k, pc, pv, v, q) ∈ fs →
        wsOnly pk = true ∧ strOK k 0 = true ∧ wsOnly pc = true ∧
          wsOnly pv = true ∧ wsOnly q = true ∧ validB v = true) →
      ∀ (K : List St) (ind : Indent) (cur : Cursor) (out rest : List Nat),
        1 ≤ cur.cap →
        cur.flat = assembleSeq (fs.map (fun t =>
          t.1 ++ 34 :: t.2.1 ++ 34 :: t.2.2.1 ++ 58 :: t.2.2.2.1 ++
            render t.2.2.2.2.1 ++ t.2.2.2.2.2)) w 125 ++ rest →
        ∃ cur', cur'.flat = rest ∧ cur'.cap = cur.cap ∧
          ∀ F, format_json_go
              (F + ((fs.map (fun t => stepsW t.2.2.2.2.1 + 2)).sum + 1))
              ⟨.Object :: K, ind, cur, out⟩ =
            format_json_go F ⟨K, ind.pop, cur',
              out ++ assemblePretty (fs.map (fun t =>
                ind.pfx ++ 34 :: t.2.1 ++ 34 :: 58 :: 32 ::
                  pretty t.2.2.2.2.1 ind.one_tab ind.pfx)) ind.pop.pfx 125⟩ := by
  intro fs
  induction fs with
  | nil =>
    intro w hw _ _ K ind cur out rest hcap hflat
    have hflat' : cur.flat = w ++ 125 :: rest := by
      rw [hflat]
      simp [assembleSeq]
    obtain ⟨cur', hstep, hfl, hcap'⟩ := step_object_close K ind cur out w rest hcap hw
      hflat'
    refine ⟨cur', hfl, hcap', ?_⟩
    intro F
    have hfuel : F + ((([] : List (List Nat × List Nat × List Nat × List Nat ×
        WVal × List Nat)).map (fun t => stepsW t.2.2.2.2.1 + 2)).sum + 1) = F + 1 := by
      simp
    rw [hfuel, go_cont F _ _ hstep]
    refine congrArg (format_json_go F) ?_
    simp [assemblePretty, List.append_assoc]
  | cons x xs ih =>
    obtain ⟨pk, k, pc, pv, v, q⟩ := x
    intro w hw hIH hval K ind cur out rest hcap hflat
    have hx : (pk, k, pc, pv, v, q) ∈ (pk, k, pc, pv, v, q) :: xs := by simp
    obtain ⟨hpk, hk, hpc, hpv, hq, hv⟩ := hval pk k pc pv v q hx
    obtain ⟨a, rv, hrv, haw, ha93, _, _⟩ := render_head v hv
    cases xs with
    | nil =>
      have hflat' : cur.flat = pk ++ 34 :: (k ++ 34 :: (pc ++ 58 ::
          (pv ++ render v ++ (q ++ (w ++ 125 :: rest))))) := by
        rw [hflat]
        simp [assembleSeq, List.append_assoc]
      obtain ⟨c1, hs1, hfl1, hcap1⟩ := step_object_key K ind cur out pk k pc
        (pv ++ render v ++ (q ++ (w ++ 125 :: rest))) hcap hpk hpc hk hflat'
      have hnums : numSafe v (q ++ (w ++ 125 :: rest)) :=
        numSafe_concat v q _ hq (numCont_head_ws_append w 125 rest hw rfl)
      obtain ⟨c2, hfl2, hcap2, hgo2⟩ := hIH pk k pc pv v q hx hv (.Pair :: K) ind c1
        (out ++ ind.pfx ++ (34 :: k ++ [34]) ++ [58] ++ [32]) pv
        (q ++ (w ++ 125 :: rest))
        (by rw [hcap1]; exact hcap) hpv (by rw [hfl1]) hnums
      obtain ⟨c3, hs3, hfl3, hcap3⟩ := step_pair_close K ind c2
        (out ++ ind.pfx ++ (34 :: k ++ [34]) ++ [58] ++ [32] ++
          pretty v ind.one_tab ind.pfx) (q ++ w) rest
        (by rw [hcap2, hcap1]; exact hcap) (wsOnly_append q w hq hw)
        (by rw [hfl2]; simp)
      obtain ⟨c4, hs4, hfl4, hcap4⟩ := step_object_close K ind c3
        (out ++ ind.pfx ++ (34 :: k ++ [34]) ++ [58] ++ [32] ++
          pretty v ind.one_tab ind.pfx ++ [10]) [] rest
        (by rw [hcap3, hcap2, hcap1]; exact hcap) rfl (by rw [hfl3]; rfl)
      refine ⟨c4, hfl4, by rw [hcap4, hcap3, hcap2, hcap1], ?_⟩
      intro F
      have hfuel : F + ((([(pk, k, pc, pv, v, q)]).map
          (fun t => stepsW t.2.2.2.2.1 + 2)).sum + 1) =
          ((F + 1 + 1) + stepsW v) + 1 := by simp; omega
      rw [hfuel, go_cont _ _ _ hs1, hgo2 (F + 1 + 1), go_cont _ _ _ hs3,
        go_cont _ _ _ hs4]
      refine congrArg (format_json_go F) ?_
      simp [assemblePretty, List.append_assoc]
    | cons x2 xs2 =>
      have hflat' : cur.flat = pk ++ 34 :: (k ++ 34 :: (pc ++ 58 ::
          (pv ++ render v ++ (q ++ 44 ::
            (assembleSeq ((x2 :: xs2).map (fun t =>
              t.1 ++ 34 :: t.2.1 ++ 34 :: t.2.2.1 ++ 58 :: t.2.2.2.1 ++
                render t.2.2.2.2.1 ++ t.2.2.2.2.2)) w 125 ++ rest))))) := by
        rw [hflat]
        simp [assembleSeq, List.append_assoc]
      obtain ⟨c1, hs1, hfl1, hcap1⟩ := step_object_key K ind cur out pk k pc
        (pv ++ render v ++ (q ++ 44 ::
          (assembleSeq ((x2 :: xs2).map (fun t =>
            t.1 ++ 34 :: t.2.1 ++ 34 :: t.2.2.1 ++ 58 :: t.2.2.2.1 ++
              render t.2.2.2.2.1 ++ t.2.2.2.2.2)) w 125 ++ rest)))
        hcap hpk hpc hk hflat'
      have hnums : numSafe v (q ++ 44 ::
          (assembleSeq ((x2 :: xs2).map (fun t =>
            t.1 ++ 34 :: t.2.1 ++ 34 :: t.2.2.1 ++ 58 :: t.2.2.2.1 ++
              render t.2.2.2.2.1 ++ t.2.2.2.2.2)) w 125 ++ rest)) :=
        numSafe_concat v q _ hq rfl
      obtain ⟨c2, hfl2, hcap2, hgo2⟩ := hIH pk k pc pv v q hx hv (.Pair :: K) ind c1
        (out ++ ind.pfx ++ (34 :: k ++ [34]) ++ [58] ++ [32]) pv
        (q ++ 44 :: (assembleSeq ((x2 :: xs2).map (fun t =>
          t.1 ++ 34 :: t.2.1 ++ 34 :: t.2.2.1 ++ 58 :: t.2.2.2.1 ++
            render t.2.2.2.2.1 ++ t.2.2.2.2.2)) w 125 ++ rest))
        (by rw [hcap1]; exact hcap) hpv (by rw [hfl1]) hnums
      obtain ⟨c3, hs3, hfl3, hcap3⟩ := step_pair_comma K ind c2
        (out ++ ind.pfx ++ (34 :: k ++ [34]) ++ [58] ++ [32] ++
          pretty v ind.one_tab ind.pfx) q
        (assembleSeq ((x2 :: xs2).map (fun t =>
          t.1 ++ 34 :: t.2.1 ++ 34 :: t.2.2.1 ++ 58 :: t.2.2.2.1 ++
            render t.2.2.2.2.1 ++ t.2.2.2.2.2)) w 125 ++ rest)
        (by rw [hcap2, hcap1]; exact hcap) hq (by rw [hfl2])
      obtain ⟨c4, hfl4, hcap4, hgo4⟩ := ih w hw
        (fun pk' k' pc' pv' v' q' h => hIH pk' k' pc' pv' v' q' (by simp [h]))
        (fun pk' k' pc' pv' v' q' h => hval pk' k' pc' pv' v' q' (by simp [h]))
        K ind c3 (out ++ ind.pfx ++ (34 :: k ++ [34]) ++ [58] ++ [32] ++
          pretty v ind.one_tab ind.pfx ++ [44, 10]) rest
        (by rw [hcap3, hcap2, hcap1]; exact hcap) hfl3
      refine ⟨c4, hfl4, by rw [hcap4, hcap3, hcap2, hcap1], ?_⟩
      intro F
      have hfuel : F + ((((pk, k, pc, pv, v, q) :: x2 :: xs2).map
          (fun t => stepsW t.2.2.2.2.1 + 2)).sum + 1) =
          (((F + (((x2 :: xs2).map (fun t => stepsW t.2.2.2.2.1 + 2)).sum + 1)) + 1) +
            stepsW v) + 1 := by
        simp
        omega
      rw [hfuel, go_cont _ _ _ hs1,
        hgo2 (F + (((x2 :: xs2).map (fun t => stepsW t.2.2.2.2.1 + 2)).sum + 1) + 1),
        go_cont _ _ _ hs3,
        hgo4 F]
      refine congrArg (format_json_go F) ?_
      simp [assemblePretty, List.append_assoc]

/-- Central theorem about format_json: starting from a Value frame, a
serialization of a valid value preceded by optional whitespace is consumed
exactly, its pretty printed form is appended to the output, the
indentation state is preserved, and exactly stepsW v loop iterations are
used; the rest of the stream is untouched. -/
theorem thmA_val : ∀ (v : WVal), validB v = true →
    ∀ (K : List St) (ind : Indent) (cur : Cursor) (out wv rest : List Nat),
      1 ≤ cur.cap → wsOnly wv = true → cur.flat = wv ++ render v ++ rest →
      numSafe v rest →
      ∃ cur', cur'.flat = rest ∧ cur'.cap = cur.cap ∧
        ∀ F, format_json_go (F + stepsW v) ⟨.Value :: K, ind, cur, out⟩ =
          format_json_go F ⟨K, ind, cur', out ++ pretty v ind.one_tab ind.pfx⟩ := by
  intro v
  induction v using WVal.indOn with
  | hstr s =>
    intro hv K ind cur out wv rest hcap hwv hflat _
    rw [validB] at hv
    have hflat' : cur.flat = wv ++ 34 :: (s ++ 34 :: rest) := by
      rw [hflat]
      simp [render]
    obtain ⟨c1, hs1, hfl1, hcap1⟩ := step_value_string K ind cur out wv s rest
      hcap hwv hv hflat'
    refine ⟨c1, hfl1, hcap1, ?_⟩
    intro F
    have hst : stepsW (.wstr s) = 1 := by rw [stepsW]
    rw [hst, go_cont _ _ _ hs1]
    refine congrArg (format_json_go F) ?_
    simp [pretty]
  | hnum b =>
    intro hv K ind cur out wv rest hcap hwv hflat hns
    rw [validB, numOK] at hv
    simp only [Bool.and_eq_true] at hv
    obtain ⟨⟨h1, h2⟩, h3⟩ := hv
    rw [numSafe] at hns
    cases hb : b with
    | nil => rw [hb] at h1; simp at h1
    | cons a t =>
      rw [hb] at h2 h3
      simp only [List.headD_cons] at h2
      have ht : ∀ x ∈ t, numCont x = true := by
        intro x hx
        exact (List.all_eq_true.mp (by simpa using h3)) x hx
      have hflat' : cur.flat = wv ++ a :: (t ++ rest) := by
        rw [hflat, hb]
        simp [render, hb]
      obtain ⟨c1, hs1, hfl1, hcap1⟩ := step_value_number K ind cur out wv rest a t
        hcap hwv h2 ht hns hflat'
      refine ⟨c1, hfl1, hcap1, ?_⟩
      intro F
      have hst : stepsW (WVal.wnum (a :: t)) = 1 := by rw [stepsW]
      rw [hst, go_cont _ _ _ hs1]
      refine congrArg (format_json_go F) ?_
      simp [pretty]
  | hnull =>
    intro _ K ind cur out wv rest hcap hwv hflat _
    obtain ⟨c1, hs1, hfl1, hcap1⟩ := step_value_lit K ind cur out wv rest
      [110, 117, 108, 108] (Or.inl rfl) hcap hwv (by rw [hflat]; simp [render])
    refine ⟨c1, hfl1, hcap1, ?_⟩
    intro F
    have hst : stepsW .wnull = 1 := by rw [stepsW]
    rw [hst, go_cont _ _ _ hs1]
    refine congrArg (format_json_go F) ?_
    simp [pretty]
  | htrue =>
    intro _ K ind cur out wv rest hcap hwv hflat _
    obtain ⟨c1, hs1, hfl1, hcap1⟩ := step_value_lit K ind cur out wv rest
      [116, 114, 117, 101] (Or.inr (Or.inl rfl)) hcap hwv
      (by rw [hflat]; simp [render])
    refine ⟨c1, hfl1, hcap1, ?_⟩
    intro F
    have hst : stepsW .wtrue = 1 := by rw [stepsW]
    rw [hst, go_cont _ _ _ hs1]
    refine congrArg (format_json_go F) ?_
    simp [pretty]
  | hfalse =>
    intro _ K ind cur out wv rest hcap hwv hflat _
    obtain ⟨c1, hs1, hfl1, hcap1⟩ := step_value_lit K ind cur out wv rest
      [102, 97, 108, 115, 101] (Or.inr (Or.inr rfl)) hcap hwv
      (by rw [hflat]; simp [render])
    refine ⟨c1, hfl1, hcap1, ?_⟩
    intro F
    have hst : stepsW .wfalse = 1 := by rw [stepsW]
    rw [hst, go_cont _ _ _ hs1]
    refine congrArg (format_json_go F) ?_
    simp [pretty]
  | harr items w2 ihmem =>
    intro hv K ind cur out wv rest hcap hwv hflat _
    rw [validB_arr] at hv
    simp only [Bool.and_eq_true] at hv
    obtain ⟨hw2, hall⟩ := hv
    have hval : ∀ p v q, (p, v, q) ∈ items →
        wsOnly p = true ∧ wsOnly q = true ∧ validB v = true := by
      intro p v q h
      have := (List.all_eq_true.mp hall) (p, v, q) h
      simp only [Bool.and_eq_true] at this
      exact ⟨this.1.1, this.1.2, this.2⟩
    have hflat' : cur.flat = wv ++ 91 ::
        (assembleSeq (items.map (fun t => t.1 ++ render t.2.1 ++ t.2.2)) w2 93 ++
          rest) := by
      rw [hflat, render_arr]
      simp [List.append_assoc]
    obtain ⟨c1, hs1, hfl1, hcap1⟩ := step_value_open K ind cur out wv
      (assembleSeq (items.map (fun t => t.1 ++ render t.2.1 ++ t.2.2)) w2 93 ++ rest)
      91 (Or.inr rfl) hcap hwv hflat'
    have hs1' : format_json_step ⟨.Value :: K, ind, cur, out⟩ =
        .cont ⟨.Array :: K, ind.push, c1, out ++ [91, 10]⟩ := hs1
    obtain ⟨c2, hfl2, hcap2, hgo2⟩ := thmA_items items w2 hw2
      (fun p v q h => ihmem p v q h)
      hval K ind.push c1 (out ++ [91, 10]) rest (by rw [hcap1]; exact hcap) hfl1
    refine ⟨c2, hfl2, by rw [hcap2, hcap1], ?_⟩
    intro F
    have hst : F + stepsW (.warr items w2) =
        (F + ((items.map (fun t => stepsW t.2.1 + 2)).sum + 1)) + 1 := by
      rw [stepsW_arr]
      omega
    rw [hst, go_cont _ _ _ hs1', hgo2 F]
    refine congrArg (format_json_go F) ?_
    simp only [FmtCfg.mk.injEq, Indent.pop_push, pretty_arr]
    refine ⟨trivial, trivial, trivial, ?_⟩
    have hpfx : ind.push.pfx = ind.pfx ++ ind.one_tab := rfl
    have htab : ind.push.one_tab = ind.one_tab := rfl
    simp [hpfx, htab, List.append_assoc]
  | hobj fs w2 ihmem =>
    intro hv K ind cur out wv rest hcap hwv hflat _
    rw [validB_obj] at hv
    simp only [Bool.and_eq_true] at hv
    obtain ⟨hw2, hall⟩ := hv
    have hval : ∀ pk k pc pv v q, (pk, k, pc, pv, v, q) ∈ fs →
        wsOnly pk = true ∧ strOK k 0 = true ∧ wsOnly pc = true ∧
          wsOnly pv = true ∧ wsOnly q = true ∧ validB v = true := by
      intro pk k pc pv v q h
      have := (List.all_eq_true.mp hall) (pk, k, pc, pv, v, q) h
      simp only [Bool.and_eq_true] at this
      exact ⟨this.1.1.1.1.1, this.1.1.1.1.2, this.1.1.1.2, this.1.1.2, this.1.2,
        this.2⟩
    have hflat' : cur.flat = wv ++ 123 ::
        (assembleSeq (fs.map (fun t =>
          t.1 ++ 34 :: t.2.1 ++ 34 :: t.2.2.1 ++ 58 :: t.2.2.2.1 ++
            render t.2.2.2.2.1 ++ t.2.2.2.2.2)) w2 125 ++ rest) := by
      rw [hflat, render_obj]
      simp [List.append_assoc]
    obtain ⟨c1, hs1, hfl1, hcap1⟩ := step_value_open K ind cur out wv
      (assembleSeq (fs.map (fun t =>
        t.1 ++ 34 :: t.2.1 ++ 34 :: t.2.2.1 ++ 58 :: t.2.2.2.1 ++
          render t.2.2.2.2.1 ++ t.2.2.2.2.2)) w2 125 ++ rest)
      123 (Or.inl rfl) hcap hwv hflat'
    have hs1' : format_json_step ⟨.Value :: K, ind, cur, out⟩ =
        .cont ⟨.Object :: K, ind.push, c1, out ++ [123, 10]⟩ := hs1
    obtain ⟨c2, hfl2, hcap2, hgo2⟩ := thmA_fields fs w2 hw2
      (fun pk k pc pv v q h => ihmem pk k pc pv v q h)
      hval K ind.push c1 (out ++ [123, 10]) rest (by rw [hcap1]; exact hcap) hfl1
    refine ⟨c2, hfl2, by rw [hcap2, hcap1], ?_⟩
    intro F
    have hst : F + stepsW (.wobj fs w2) =
        (F + ((fs.map (fun t => stepsW t.2.2.2.2.1 + 2)).sum + 1)) + 1 := by
      rw [stepsW_obj]
      omega
    rw [hst, go_cont _ _ _ hs1', hgo2 F]
    refine congrArg (format_json_go F) ?_
    simp only [FmtCfg.mk.injEq, Indent.pop_push, pretty_obj]
    refine ⟨trivial, trivial, trivial, ?_⟩
    have hpfx : ind.push.pfx = ind.pfx ++ ind.one_tab := rfl
    have htab : ind.push.one_tab = ind.one_tab := rfl
    simp [hpfx, htab, List.append_assoc]

theorem go_done (F : Nat) (ind : Indent) (cur : Cursor) (out : List Nat) :
    format_json_go (F + 1) ⟨[], ind, cur, out⟩ = some (.ok out) := rfl

/-- Top level behaviour of format_json on a serialized valid value with
optional leading whitespace: with sufficient fuel the call succeeds and
writes exactly the pretty printed form of the value; the bytes in rest are
never read past and never validated, and do not appear in the output. -/
theorem format_json_spec (v : WVal) (hv : validB v = true)
    (cur : Cursor) (ind : Indent) (lw rest : List Nat)
    (hcap : 1 ≤ cur.cap) (hlw : wsOnly lw = true)
    (hflat : cur.flat = lw ++ render v ++ rest) (hns : numSafe v rest)
    (fuel : Nat) (hfuel : stepsW v + 1 ≤ fuel) :
    format_json fuel cur ind = some (.ok (pretty v ind.one_tab ind.pfx)) := by
  obtain ⟨F, rfl⟩ : ∃ F, fuel = F + 1 + stepsW v := ⟨fuel - 1 - stepsW v, by omega⟩
  obtain ⟨cur', hfl', hcap', hgo⟩ := thmA_val v hv [] ind cur [] lw rest hcap hlw
    hflat hns
  rw [format_json, hgo (F + 1), go_done]
  simp

/-- One byte step of the chunk scanner in terms of the shared step state. -/
theorem fast_chunk_cons (c : Nat) (cs : List Nat) (p0 : Nat) (ind : Indent)
    (nl : Bool) (out : List Nat) :
    fast_chunk (c :: cs) p0 ind nl out =
      (if c == 34 then .quoteAt p0 (fastInd1 c ind) false (fastOut2 c ind nl out)
       else if c == 123 || c == 91 then
         fast_chunk cs (p0 + 1) (fastInd1 c ind).push true
           (fastOut2 c ind nl out ++ [c, 10])
       else if c == 44 then
         fast_chunk cs (p0 + 1) (fastInd1 c ind) true (fastOut2 c ind nl out ++ [44, 10])
       else if c == 58 then
         fast_chunk cs (p0 + 1) (fastInd1 c ind) false (fastOut2 c ind nl out ++ [58, 32])
       else if isWs c then
         fast_chunk cs (p0 + 1) (fastInd1 c ind) false (fastOut2 c ind nl out)
       else
         fast_chunk cs (p0 + 1) (fastInd1 c ind) false (fastOut2 c ind nl out ++ [c])) := by
  cases nl <;> rw [fast_chunk] <;> simp [fastInd1, fastOut2]

/-- One byte step of the flat model in terms of the shared step state. -/
theorem fastFlat_cons (c : Nat) (cs : List Nat) (ind : Indent)
    (nl : Bool) (out : List Nat) :
    fastFlat (c :: cs) ind nl out =
      (if c == 34 then
        (match str_scan cs 0 with
         | none => .error .unexpectedEof
         | some k => fastFlat (cs.drop k) (fastInd1 c ind) false
             (fastOut2 c ind nl out ++ 34 :: cs.take k))
       else if c == 123 || c == 91 then
         fastFlat cs (fastInd1 c ind).push true (fastOut2 c ind nl out ++ [c, 10])
       else if c == 44 then
         fastFlat cs (fastInd1 c ind) true (fastOut2 c ind nl out ++ [44, 10])
       else if c == 58 then
         fastFlat cs (fastInd1 c ind) false (fastOut2 c ind nl out ++ [58, 32])
       else if isWs c then
         fastFlat cs (fastInd1 c ind) false (fastOut2 c ind nl out)
       else
         fastFlat cs (fastInd1 c ind) false (fastOut2 c ind nl out ++ [c])) := by
  cases nl <;> rw [fastFlat] <;> simp [fastInd1, fastOut2]

/-- The string scanner consumes at least the closing quote. -/
theorem str_scan_pos (s : List Nat) (prev k : Nat) (h : str_scan s prev = some k) :
    1 ≤ k := by
  cases s with
  | nil => simp [str_scan] at h
  | cons c cs =>
    rw [str_scan] at h
    by_cases hc : (c == 34 && prev != 92) = true
    · rw [if_pos hc] at h
      cases h
      exact le_refl 1
    · rw [if_neg hc] at h
      obtain ⟨a, _, ha⟩ := Option.map_eq_some'.mp h
      omega

/-- On a byte other than a quote, the chunk scanner and the flat model take
the same step to the same next state. -/
theorem fast_step_agree (c : Nat) (cs : List Nat) (p0 : Nat) (ind : Indent)
    (nl : Bool) (out : List Nat) (h : (c == 34) = false) :
    ∃ ind2 nl2 out3,
      fast_chunk (c :: cs) p0 ind nl out = fast_chunk cs (p0 + 1) ind2 nl2 out3 ∧
      ∀ tail : List Nat, fastFlat (c :: (cs ++ tail)) ind nl out =
        fastFlat (cs ++ tail) ind2 nl2 out3 := by
  by_cases h1 : (c == 123 || c == 91) = true
  · exact ⟨(fastInd1 c ind).push, true, fastOut2 c ind nl out ++ [c, 10],
      by rw [fast_chunk_cons]; simp [h, h1],
      fun tail => by rw [fastFlat_cons]; simp [h, h1]⟩
  · by_cases h2 : (c == 44) = true
    · exact ⟨fastInd1 c ind, true, fastOut2 c ind nl out ++ [44, 10],
        by rw [fast_chunk_cons]; simp [h, h1, h2],
        fun tail => by rw [fastFlat_cons]; simp [h, h1, h2]⟩
    · by_cases h3 : (c == 58) = true
      · exact ⟨fastInd1 c ind, false, fastOut2 c ind nl out ++ [58, 32],
          by rw [fast_chunk_cons]; simp [h, h1, h2, h3],
          fun tail => by rw [fastFlat_cons]; simp [h, h1, h2, h3]⟩
      · by_cases h4 : isWs c = true
        · exact ⟨fastInd1 c ind, false, fastOut2 c ind nl out,
            by rw [fast_chunk_cons]; simp [h, h1, h2, h3, h4],
            fun tail => by rw [fastFlat_cons]; simp [h, h1, h2, h3, h4]⟩
        · exact ⟨fastInd1 c ind, false, fastOut2 c ind nl out ++ [c],
            by rw [fast_chunk_cons]; simp [h, h1, h2, h3, h4],
            fun tail => by rw [fastFlat_cons]; simp [h, h1, h2, h3, h4]⟩

/-- Scanning one chunk either exhausts it, reaching a state from which the
flat model continues on the remaining data, or stops at the first quote of
the chunk, at which point the flat model performs the string step on the
data after the quote. -/
theorem fast_chunk_cases (todo : List Nat) : ∀ (p0 : Nat) (ind : Indent)
    (nl : Bool) (out : List Nat),
    (∃ ind1 nl1 out1,
      fast_chunk todo p0 ind nl out = .endOfChunk ind1 nl1 out1 ∧
      ∀ tail, fastFlat (todo ++ tail) ind nl out = fastFlat tail ind1 nl1 out1) ∨
    (∃ pre suf ind1 out1,
      todo = pre ++ 34 :: suf ∧
      fast_chunk todo p0 ind nl out = .quoteAt (p0 + pre.length) ind1 false out1 ∧
      ∀ tail, fastFlat (todo ++ tail) ind nl out =
        (match str_scan (suf ++ tail) 0 with
         | none => Except.error JErr.unexpectedEof
         | some k => fastFlat ((suf ++ tail).drop k) ind1 false
             (out1 ++ 34 :: (suf ++ tail).take k))) := by
  induction todo with
  | nil =>
    intro p0 ind nl out
    exact Or.inl ⟨ind, nl, out, rfl, fun tail => by simp⟩
  | cons c cs ih =>
    intro p0 ind nl out
    by_cases h : (c == 34) = true
    · right
      have hc : c = 34 := by simpa using h
      refine ⟨[], cs, fastInd1 c ind, fastOut2 c ind nl out, by simp [hc], ?_, ?_⟩
      · rw [fast_chunk_cons]
        simp [h]
      · intro tail
        rw [List.cons_append, fastFlat_cons]
        simp [h]
    · obtain ⟨ind2, nl2, out3, hstep, hflat⟩ :=
        fast_step_agree c cs p0 ind nl out (by simp_all)
      rcases ih (p0 + 1) ind2 nl2 out3 with
        ⟨ind1, nl1, out1, heq, hf⟩ | ⟨pre, suf, ind1, out1, hdec, heq, hf⟩
      · left
        refine ⟨ind1, nl1, out1, by rw [hstep]; exact heq, fun tail => ?_⟩
        rw [List.cons_append, hflat tail]
        exact hf tail
      · right
        refine ⟨c :: pre, suf, ind1, out1, by rw [hdec, List.cons_append], ?_, fun tail => ?_⟩
        · rw [hstep, heq]
          congr 1
          simp
          omega
        · rw [List.cons_append, hflat tail]
          exact hf tail

/-- The flat model at an exhausted input returns the accumulated output. -/
theorem fastFlat_nil (ind : Indent) (nl : Bool) (out : List Nat) :
    fastFlat [] ind nl out = .ok out := by
  rw [fastFlat]

/-- After a refill the buffered chunk is empty only when the stream is
exhausted. -/
theorem fillBuf_chunk_inv (c : Cursor) (hcap : 1 ≤ c.cap)
    (h : (c.fillBuf).2.chunk = []) : (c.fillBuf).2.flat = [] := by
  rw [fillBuf_chunk] at h
  rw [fillBuf_flat]
  exact (fillBuf_empty_iff c hcap).mp h

/-- Unfolding of the fast loop when the chunk scan exhausts the chunk. -/
theorem fast_go_endOfChunk (fuel : Nat) (cur : Cursor) (ind : Indent)
    (nl : Bool) (out : List Nat) (ind1 : Indent) (nl1 : Bool) (out1 : List Nat)
    (h : fast_chunk cur.chunk 0 ind nl out = .endOfChunk ind1 nl1 out1) :
    format_json_fast_go (fuel + 1) cur ind nl out =
      (if ((cur.consume cur.chunk.length).fillBuf).1.isEmpty then some (.ok out1)
       else format_json_fast_go fuel ((cur.consume cur.chunk.length).fillBuf).2
         ind1 nl1 out1) := by
  rw [format_json_fast_go, h]

/-- Unfolding of the fast loop when the chunk scan stops at a quote. -/
theorem fast_go_quoteAt (fuel : Nat) (cur : Cursor) (ind : Indent)
    (nl : Bool) (out : List Nat) (pos : Nat) (ind1 : Indent) (nl1 : Bool)
    (out2 : List Nat)
    (h : fast_chunk cur.chunk 0 ind nl out = .quoteAt pos ind1 nl1 out2) :
    format_json_fast_go fuel cur ind nl out =
      (match write_string ((cur.consume pos).flatLen + 1) (cur.consume pos) with
       | none => none
       | some (.error e) => some (.error e)
       | some (.ok (s, c2)) =>
         match fuel with
         | 0 => none
         | fuel' + 1 =>
           format_json_fast_go fuel' (c2.fillBuf).2 ind1 nl1 (out2 ++ s)) := by
  rw [format_json_fast_go, h]

/-- The loop of format_json_fast computes the flat model of the remaining
data: neither the capacity nor the chunk alignment affects the result, and
the loop terminates within flat length plus one refill rounds. -/
theorem fast_go_fastFlat : ∀ (fuel : Nat) (cur : Cursor) (ind : Indent)
    (nl : Bool) (out : List Nat),
    1 ≤ cur.cap → cur.flat.length + 1 ≤ fuel →
    (cur.chunk = [] → cur.flat = []) →
    format_json_fast_go fuel cur ind nl out =
      some (fastFlat cur.flat ind nl out) := by
  intro fuel
  induction fuel using Nat.strong_induction_on with
  | _ fuel ihF =>
    intro cur ind nl out hcap hfuel hinv
    rcases fast_chunk_cases cur.chunk 0 ind nl out with
      ⟨ind1, nl1, out1, heq, hf⟩ | ⟨pre, suf, ind1, out1, hdec, heq, hf⟩
    · have hval : fastFlat cur.flat ind nl out = fastFlat cur.rest ind1 nl1 out1 :=
        hf cur.rest
      cases fuel with
      | zero => exact absurd hfuel (by omega)
      | succ fuel' =>
        rw [fast_go_endOfChunk fuel' cur ind nl out ind1 nl1 out1 heq]
        have hc1flat : (cur.consume cur.chunk.length).flat = cur.rest := by
          rw [consume_flat cur _ (le_refl _)]
          show (cur.chunk ++ cur.rest).drop cur.chunk.length = cur.rest
          rw [List.drop_left]
        by_cases hemp : (((cur.consume cur.chunk.length)).fillBuf).1.isEmpty
        · rw [if_pos hemp]
          have hre : cur.rest = [] := by
            have h1 := (fillBuf_empty_iff (cur.consume cur.chunk.length)
              (by rw [consume_cap]; exact hcap)).mp (List.isEmpty_iff.mp hemp)
            rwa [hc1flat] at h1
          rw [hval, hre, fastFlat_nil]
        · rw [if_neg hemp]
          have hch : cur.chunk ≠ [] := by
            intro h0
            have hfl : cur.flat = [] := hinv h0
            have hre : cur.rest = [] := by
              have h1 : cur.chunk ++ cur.rest = [] := hfl
              simpa [h0] using h1
            exact hemp (List.isEmpty_iff.mpr
              ((fillBuf_empty_iff _ (by rw [consume_cap]; exact hcap)).mpr
                (by rw [hc1flat, hre])))
          have hflat2 : ((cur.consume cur.chunk.length).fillBuf).2.flat = cur.rest := by
            rw [fillBuf_flat, hc1flat]
          have hlen : cur.rest.length + 1 ≤ fuel' := by
            have h1 : cur.flat.length = cur.chunk.length + cur.rest.length := by
              show (cur.chunk ++ cur.rest).length = _
              simp
            have h2 : 1 ≤ cur.chunk.length := by
              cases hcc : cur.chunk with
              | nil => exact absurd hcc hch
              | cons a l => simp
            omega
          rw [ihF fuel' (by omega) _ ind1 nl1 out1
            (by rw [fillBuf_cap, consume_cap]; exact hcap)
            (by rw [hflat2]; exact hlen)
            (fun h0 => fillBuf_chunk_inv _ (by rw [consume_cap]; exact hcap) h0)]
          rw [hflat2, hval]
    · rw [Nat.zero_add] at heq
      have hprelen : pre.length ≤ cur.chunk.length := by rw [hdec]; simp
      have hflat1 : (cur.consume pre.length).flat = 34 :: (suf ++ cur.rest) := by
        rw [consume_flat cur _ hprelen]
        show (cur.chunk ++ cur.rest).drop pre.length = 34 :: (suf ++ cur.rest)
        rw [hdec, List.append_assoc, List.drop_left]
        rfl
      have hcap1 : 1 ≤ (cur.consume pre.length).cap := by
        rw [consume_cap]; exact hcap
      have hspec := write_string_spec ((cur.consume pre.length).flatLen + 1)
        (cur.consume pre.length) (suf ++ cur.rest) hcap1 hflat1 (le_refl _)
      have hlenfacts : cur.flat.length =
          pre.length + 1 + suf.length + cur.rest.length := by
        show (cur.chunk ++ cur.rest).length = _
        rw [hdec]
        simp
        omega
      cases hscan : str_scan (suf ++ cur.rest) 0 with
      | none =>
        have hw := hspec.1 hscan
        rw [fast_go_quoteAt fuel cur ind nl out pre.length ind1 false out1 heq, hw]
        have h1 := hf cur.rest
        rw [hscan] at h1
        have hval : fastFlat cur.flat ind nl out = Except.error .unexpectedEof := h1
        rw [hval]
      | some k =>
        obtain ⟨cur', hw, hflat3, hcap3⟩ := hspec.2 k hscan
        rw [fast_go_quoteAt fuel cur ind nl out pre.length ind1 false out1 heq, hw]
        have h1 := hf cur.rest
        rw [hscan] at h1
        cases fuel with
        | zero => exact absurd hfuel (by omega)
        | succ fuel' =>
          have hk1 := str_scan_pos _ _ _ hscan
          have hdl : ((suf ++ cur.rest).drop k).length =
              (suf ++ cur.rest).length - k := by simp
          have hul : (suf ++ cur.rest).length = suf.length + cur.rest.length := by
            simp
          show format_json_fast_go fuel' (cur'.fillBuf).2 ind1 false
            (out1 ++ (34 :: (suf ++ cur.rest).take k)) =
            some (fastFlat cur.flat ind nl out)
          rw [ihF fuel' (by omega) _ ind1 false (out1 ++ (34 :: (suf ++ cur.rest).take k))
            (by rw [fillBuf_cap, hcap3, consume_cap]; exact hcap)
            (by rw [fillBuf_flat, hflat3]; omega)
            (fun h0 => fillBuf_chunk_inv _ (by rw [hcap3, consume_cap]; exact hcap) h0)]
          rw [fillBuf_flat, hflat3]
          have hval : fastFlat cur.flat ind nl out =
              fastFlat ((suf ++ cur.rest).drop k) ind1 false
                (out1 ++ 34 :: (suf ++ cur.rest).take k) := h1
          rw [hval]

/-- format_json_fast computes the flat model of the whole stream whenever
the fuel covers the stream length plus one refill round. -/
theorem format_json_fast_flat (fuel : Nat) (cur : Cursor) (ind : Indent)
    (hcap : 1 ≤ cur.cap) (hfuel : cur.flat.length + 1 ≤ fuel) :
    format_json_fast fuel cur ind = some (fastFlat cur.flat ind false []) := by
  rw [format_json_fast]
  rw [fast_go_fastFlat fuel (cur.fillBuf).2 ind false []
    (by rw [fillBuf_cap]; exact hcap)
    (by rw [fillBuf_flat]; exact hfuel)
    (fun h0 => fillBuf_chunk_inv cur hcap h0)]
  rw [fillBuf_flat]

/-- Unfolding of the empty wsEmpty predicate on arrays. -/
theorem noWsEmptyB_arr (items : List (List Nat × WVal × List Nat)) (w : List Nat) :
    noWsEmptyB (.warr items w) =
      ((!items.isEmpty || w.isEmpty) && items.all (fun t => noWsEmptyB t.2.1)) := by
  rw [noWsEmptyB]
  exact congrArg (fun z => (!items.isEmpty || w.isEmpty) && z)
    (attach_all_eq items (fun t => noWsEmptyB t.2.1))

/-- Unfolding of the empty wsEmpty predicate on objects. -/
theorem noWsEmptyB_obj
    (fs : List (List Nat × List Nat × List Nat × List Nat × WVal × List Nat))
    (w : List Nat) :
    noWsEmptyB (.wobj fs w) =
      ((!fs.isEmpty || w.isEmpty) && fs.all (fun t => noWsEmptyB t.2.2.2.2.1)) := by
  rw [noWsEmptyB]
  exact congrArg (fun z => (!fs.isEmpty || w.isEmpty) && z)
    (attach_all_eq fs (fun t => noWsEmptyB t.2.2.2.2.1))

/-- One whitespace byte with no pending newline is dropped. -/
theorem fastFlat_wsByte (c : Nat) (h : isWs c = true) (u : List Nat)
    (ind : Indent) (out : List Nat) :
    fastFlat (c :: u) ind false out = fastFlat u ind false out := by
  have hc : ((c = 9 ∨ c = 32) ∨ c = 10) ∨ c = 13 := by simpa [isWs] using h
  rcases hc with ((rfl | rfl) | rfl) | rfl <;>
    (rw [fastFlat_cons]; simp [fastOut2, fastInd1, isWs])

/-- A whitespace run with no pending newline is dropped. -/
theorem fastFlat_ws : ∀ (w : List Nat), wsOnly w = true → ∀ (u : List Nat)
    (ind : Indent) (out : List Nat),
    fastFlat (w ++ u) ind false out = fastFlat u ind false out := by
  intro w
  induction w with
  | nil => intro _ u ind out; rw [List.nil_append]
  | cons c cs ih =>
    intro hw u ind out
    have hc : isWs c = true := (List.all_eq_true.mp hw) c (by simp)
    have hcs : wsOnly cs = true := by
      rw [wsOnly] at hw ⊢
      simp only [List.all_cons, Bool.and_eq_true] at hw
      exact hw.2
    rw [List.cons_append, fastFlat_wsByte c hc, ih hcs]

/-- A plain byte with no pending newline is copied verbatim. -/
theorem fastFlat_plain (c : Nat) (hw : isWs c = false) (h34 : c ≠ 34)
    (h123 : c ≠ 123) (h91 : c ≠ 91) (h125 : c ≠ 125) (h93 : c ≠ 93)
    (h44 : c ≠ 44) (h58 : c ≠ 58) (u : List Nat) (ind : Indent) (out : List Nat) :
    fastFlat (c :: u) ind false out = fastFlat u ind false (out ++ [c]) := by
  rw [fastFlat_cons]
  simp [fastOut2, fastInd1, hw, h34, h123, h91, h125, h93, h44, h58]

/-- A run of plain bytes with no pending newline is copied verbatim. -/
theorem fastFlat_plainRun : ∀ (s : List Nat), s.all plainB = true →
    ∀ (u : List Nat) (ind : Indent) (out : List Nat),
      fastFlat (s ++ u) ind false out = fastFlat u ind false (out ++ s) := by
  intro s
  induction s with
  | nil => intro _ u ind out; simp
  | cons c cs ih =>
    intro hall u ind out
    simp only [List.all_cons, Bool.and_eq_true] at hall
    obtain ⟨hc, hcs⟩ := hall
    rw [plainB] at hc
    simp only [Bool.and_eq_true, bne_iff_ne, Bool.not_eq_true'] at hc
    obtain ⟨⟨⟨⟨⟨⟨⟨hw', h34⟩, h123⟩, h91⟩, h125⟩, h93⟩, h44⟩, h58⟩ := hc
    rw [List.cons_append, fastFlat_plain c hw' h34 h123 h91 h125 h93 h44 h58, ih hcs]
    simp [List.append_assoc]

/-- An opening bracket with no pending newline pushes one level, writes the
bracket and a newline and sets the pending newline flag. -/
theorem fastFlat_opener (b : Nat) (hb : b = 123 ∨ b = 91) (u : List Nat)
    (ind : Indent) (out : List Nat) :
    fastFlat (b :: u) ind false out = fastFlat u ind.push true (out ++ [b, 10]) := by
  rcases hb with rfl | rfl <;> (rw [fastFlat_cons]; simp [fastOut2, fastInd1])

/-- A comma with no pending newline writes a comma and a newline and sets
the pending newline flag. -/
theorem fastFlat_comma (u : List Nat) (ind : Indent) (out : List Nat) :
    fastFlat (44 :: u) ind false out = fastFlat u ind true (out ++ [44, 10]) := by
  rw [fastFlat_cons]
  simp [fastOut2, fastInd1]

/-- A colon with no pending newline writes a colon and a space. -/
theorem fastFlat_colon (u : List Nat) (ind : Indent) (out : List Nat) :
    fastFlat (58 :: u) ind false out = fastFlat u ind false (out ++ [58, 32]) := by
  rw [fastFlat_cons]
  simp [fastOut2, fastInd1]

/-- A closing bracket with no pending newline pops one level and writes a
newline, the popped prefix and the bracket. -/
theorem fastFlat_closer (cl : Nat) (hcl : cl = 125 ∨ cl = 93) (u : List Nat)
    (ind : Indent) (out : List Nat) :
    fastFlat (cl :: u) ind false out =
      fastFlat u ind.pop false (out ++ 10 :: (ind.pop.pfx ++ [cl])) := by
  rcases hcl with rfl | rfl <;>
    (rw [fastFlat_cons]; simp [fastOut2, fastInd1, Indent.write_to, isWs, List.append_assoc])

/-- A closing bracket with a pending newline pops one level and writes the
popped prefix and the bracket, with no extra newline. -/
theorem fastFlat_closer_nl (cl : Nat) (hcl : cl = 125 ∨ cl = 93) (u : List Nat)
    (ind : Indent) (out : List Nat) :
    fastFlat (cl :: u) ind true out =
      fastFlat u ind.pop false (out ++ (ind.pop.pfx ++ [cl])) := by
  rcases hcl with rfl | rfl <;>
    (rw [fastFlat_cons]; simp [fastOut2, fastInd1, Indent.write_to, isWs, List.append_assoc])

/-- At a byte other than a closing bracket, a pending newline is resolved
by writing the current prefix before processing the byte. -/
theorem fastFlat_flush (c : Nat) (h125 : c ≠ 125) (h93 : c ≠ 93) (u : List Nat)
    (ind : Indent) (out : List Nat) :
    fastFlat (c :: u) ind true out = fastFlat (c :: u) ind false (out ++ ind.pfx) := by
  rw [fastFlat_cons, fastFlat_cons]
  simp [fastOut2, fastInd1, Indent.write_to, h125, h93]

/-- At the start of a container entry, the pending newline writes the inner
prefix and the leading whitespace of the entry is dropped, leaving the first
token byte to be processed with no pending newline. -/
theorem fastFlat_enterEntry (p : List Nat) (hp : wsOnly p = true) (a : Nat)
    (h125 : a ≠ 125) (h93 : a ≠ 93) (t : List Nat) (ind : Indent) (out : List Nat) :
    fastFlat (p ++ a :: t) ind true out =
      fastFlat (a :: t) ind false (out ++ ind.pfx) := by
  cases p with
  | nil => rw [List.nil_append, fastFlat_flush a h125 h93]
  | cons c cs =>
    have hc : isWs c = true := (List.all_eq_true.mp hp) c (by simp)
    have hcs : wsOnly cs = true := by
      rw [wsOnly] at hp ⊢
      simp only [List.all_cons, Bool.and_eq_true] at hp
      exact hp.2
    have hcv : ((c = 9 ∨ c = 32) ∨ c = 10) ∨ c = 13 := by simpa [isWs] using hc
    have hc125 : c ≠ 125 := by omega
    have hc93 : c ≠ 93 := by omega
    rw [List.cons_append, fastFlat_flush c hc125 hc93, fastFlat_wsByte c hc,
      fastFlat_ws cs hcs]

/-- A complete string token with no pending newline is copied verbatim. -/
theorem fastFlat_str (s : List Nat) (hs : strOK s 0 = true) (u : List Nat)
    (ind : Indent) (out : List Nat) :
    fastFlat ((34 :: s ++ [34]) ++ u) ind false out =
      fastFlat u ind false (out ++ (34 :: s ++ [34])) := by
  have hseq : (34 :: s ++ [34]) ++ u = 34 :: (s ++ 34 :: u) := by simp
  rw [hseq, fastFlat_cons]
  have hscan := str_scan_strOK s 0 u hs
  simp [hscan, fastOut2, fastInd1, List.take_append_eq_append_take,
    List.drop_append_eq_append_drop, List.append_assoc]
  rw [List.take_of_length_le (by omega), List.drop_eq_nil_of_le (by omega),
    List.nil_append]

/-- Execution of the single pass formatter over the entries of an array,
from the state right after the opening bracket: pushed indentation and a
pending newline. Each entry is written on its own line at the pushed
indentation and the closing bracket line uses the popped indentation.
An empty array must carry no inner whitespace, else the pending newline
would be flushed at the whitespace byte. -/
theorem thmB_items :
    ∀ (items : List (List Nat × WVal × List Nat)) (w : List Nat),
      wsOnly w = true →
      (items = [] → w = []) →
      (∀ p v q, (p, v, q) ∈ items → validB v = true → noWsEmptyB v = true →
        ∀ (u : List Nat) (ind : Indent) (out : List Nat),
          fastFlat (render v ++ u) ind false out =
            fastFlat u ind false (out ++ pretty v ind.one_tab ind.pfx)) →
      (∀ p v q, (p, v, q) ∈ items →
        wsOnly p = true ∧ wsOnly q = true ∧ validB v = true ∧
          noWsEmptyB v = true) →
      ∀ (u : List Nat) (ind : Indent) (out : List Nat),
        fastFlat (assembleSeq (items.map (fun t => t.1 ++ render t.2.1 ++ t.2.2))
            w 93 ++ u) ind true out =
          fastFlat u ind.pop false
            (out ++ assemblePretty (items.map (fun t =>
              ind.pfx ++ pretty t.2.1 ind.one_tab ind.pfx)) ind.pop.pfx 93) := by
  intro items
  induction items with
  | nil =>
    intro w hw hemp _ _ u ind out
    rw [hemp rfl]
    simp only [List.map_nil]
    have h1 : assembleSeq ([] : List (List Nat)) [] 93 = [93] := by
      simp [assembleSeq]
    rw [h1, assemblePretty]
    rw [show ([93] ++ u : List Nat) = 93 :: u from rfl]
    rw [fastFlat_closer_nl 93 (Or.inr rfl) u ind out]
  | cons x xs ih =>
    obtain ⟨p, v, q⟩ := x
    intro w hw _ hIH hval u ind out
    have hx : (p, v, q) ∈ (p, v, q) :: xs := by simp
    obtain ⟨hp, hq, hv, hnwe⟩ := hval p v q hx
    obtain ⟨a, rv, hrv, haw, ha93, ha125, _⟩ := render_head v hv
    cases xs with
    | nil =>
      have hseq : assembleSeq ([(p, v, q)].map
            (fun t => t.1 ++ render t.2.1 ++ t.2.2)) w 93 ++ u =
          p ++ a :: (rv ++ (q ++ (w ++ 93 :: u))) := by
        simp [assembleSeq, hrv, List.append_assoc]
      rw [hseq, fastFlat_enterEntry p hp a ha125 ha93]
      have hval1 := hIH p v q hx hv hnwe (q ++ (w ++ 93 :: u)) ind (out ++ ind.pfx)
      rw [hrv, List.cons_append] at hval1
      rw [hval1, fastFlat_ws q hq, fastFlat_ws w hw, fastFlat_closer 93 (Or.inr rfl)]
      rw [List.map_cons, List.map_nil, assemblePretty]
      simp [List.append_assoc]
    | cons x2 xs2 =>
      have hseq : assembleSeq (((p, v, q) :: x2 :: xs2).map
            (fun t => t.1 ++ render t.2.1 ++ t.2.2)) w 93 ++ u =
          p ++ a :: (rv ++ (q ++ 44 ::
            (assembleSeq ((x2 :: xs2).map
              (fun t => t.1 ++ render t.2.1 ++ t.2.2)) w 93 ++ u))) := by
        simp [assembleSeq, hrv, List.append_assoc]
      rw [hseq, fastFlat_enterEntry p hp a ha125 ha93]
      have hval1 := hIH p v q hx hv hnwe (q ++ 44 ::
        (assembleSeq ((x2 :: xs2).map
          (fun t => t.1 ++ render t.2.1 ++ t.2.2)) w 93 ++ u)) ind (out ++ ind.pfx)
      rw [hrv, List.cons_append] at hval1
      rw [hval1, fastFlat_ws q hq, fastFlat_comma]
      rw [ih w hw (fun h => by cases h)
        (fun p' v' q' h => hIH p' v' q' (by simp [h]))
        (fun p' v' q' h => hval p' v' q' (by simp [h]))]
      simp only [List.map_cons, assemblePretty]
      simp [List.append_assoc]

/-- Execution of the single pass formatter over the fields of an object,
from the state right after the opening brace: pushed indentation and a
pending newline. Each field is written on its own line at the pushed
indentation as key, colon, space and value, and the closing brace line
uses the popped indentation. -/
theorem thmB_fields :
    ∀ (fs : List (List Nat × List Nat × List Nat × List Nat × WVal × List Nat))
      (w : List Nat),
      wsOnly w = true →
      (fs = [] → w = []) →
      (∀ pk k pc pv v q, (pk, k, pc, pv, v, q) ∈ fs → validB v = true →
        noWsEmptyB v = true →
        ∀ (u : List Nat) (ind : Indent) (out : List Nat),
          fastFlat (render v ++ u) ind false out =
            fastFlat u ind false (out ++ pretty v ind.one_tab ind.pfx)) →
      (∀ pk k pc pv v q, (pk, k, pc, pv, v, q) ∈ fs →
        wsOnly pk = true ∧ strOK k 0 = true ∧ wsOnly pc = true ∧
          wsOnly pv = true ∧ wsOnly q = true ∧ validB v = true ∧
          noWsEmptyB v = true) →
      ∀ (u : List Nat) (ind : Indent) (out : List Nat),
        fastFlat (assembleSeq (fs.map (fun t =>
            t.1 ++ 34 :: t.2.1 ++ 34 :: t.2.2.1 ++ 58 :: t.2.2.2.1 ++
              render t.2.2.2.2.1 ++ t.2.2.2.2.2)) w 125 ++ u) ind true out =
          fastFlat u ind.pop false
            (out ++ assemblePretty (fs.map (fun t =>
              ind.pfx ++ 34 :: t.2.1 ++ 34 :: 58 :: 32 ::
                pretty t.2.2.2.2.1 ind.one_tab ind.pfx)) ind.pop.pfx 125) := by
  intro fs
  induction fs with
  | nil =>
    intro w hw hemp _ _ u ind out
    rw [hemp rfl]
    simp only [List.map_nil]
    have h1 : assembleSeq ([] : List (List Nat)) [] 125 = [125] := by
      simp [assembleSeq]
    rw [h1, assemblePretty]
    rw [show ([125] ++ u : List Nat) = 125 :: u from rfl]
    rw [fastFlat_closer_nl 125 (Or.inl rfl) u ind out]
  | cons x xs ih =>
    obtain ⟨pk, k, pc, pv, v, q⟩ := x
    intro w hw _ hIH hval u ind out
    have hx : (pk, k, pc, pv, v, q) ∈ (pk, k, pc, pv, v, q) :: xs := by simp
    obtain ⟨hpk, hk, hpc, hpv, hq, hv, hnwe⟩ := hval pk k pc pv v q hx
    cases xs with
    | nil =>
      have hseq : assembleSeq ([(pk, k, pc, pv, v, q)].map (fun t =>
            t.1 ++ 34 :: t.2.1 ++ 34 :: t.2.2.1 ++ 58 :: t.2.2.2.1 ++
              render t.2.2.2.2.1 ++ t.2.2.2.2.2)) w 125 ++ u =
          pk ++ 34 :: (k ++ 34 :: (pc ++ 58 ::
            (pv ++ (render v ++ (q ++ (w ++ 125 :: u)))))) := by
        simp [assembleSeq, List.append_assoc]
      rw [hseq, fastFlat_enterEntry pk hpk 34 (by omega) (by omega)]
      have hstr := fastFlat_str k hk (pc ++ 58 ::
        (pv ++ (render v ++ (q ++ (w ++ 125 :: u))))) ind (out ++ ind.pfx)
      rw [show (34 :: k ++ [34]) ++ (pc ++ 58 ::
          (pv ++ (render v ++ (q ++ (w ++ 125 :: u))))) =
        34 :: (k ++ 34 :: (pc ++ 58 ::
          (pv ++ (render v ++ (q ++ (w ++ 125 :: u)))))) from by simp] at hstr
      rw [hstr, fastFlat_ws pc hpc, fastFlat_colon, fastFlat_ws pv hpv]
      rw [hIH pk k pc pv v q hx hv hnwe (q ++ (w ++ 125 :: u)) ind _]
      rw [fastFlat_ws q hq, fastFlat_ws w hw, fastFlat_closer 125 (Or.inl rfl)]
      simp only [List.map_cons, List.map_nil, assemblePretty]
      simp [List.append_assoc]
    | cons x2 xs2 =>
      have hseq : assembleSeq (((pk, k, pc, pv, v, q) :: x2 :: xs2).map (fun t =>
            t.1 ++ 34 :: t.2.1 ++ 34 :: t.2.2.1 ++ 58 :: t.2.2.2.1 ++
              render t.2.2.2.2.1 ++ t.2.2.2.2.2)) w 125 ++ u =
          pk ++ 34 :: (k ++ 34 :: (pc ++ 58 ::
            (pv ++ (render v ++ (q ++ 44 ::
              (assembleSeq ((x2 :: xs2).map (fun t =>
                t.1 ++ 34 :: t.2.1 ++ 34 :: t.2.2.1 ++ 58 :: t.2.2.2.1 ++
                  render t.2.2.2.2.1 ++ t.2.2.2.2.2)) w 125 ++ u))))))  := by
        simp [assembleSeq, List.append_assoc]
      rw [hseq, fastFlat_enterEntry pk hpk 34 (by omega) (by omega)]
      have hstr := fastFlat_str k hk (pc ++ 58 ::
        (pv ++ (render v ++ (q ++ 44 ::
          (assembleSeq ((x2 :: xs2).map (fun t =>
            t.1 ++ 34 :: t.2.1 ++ 34 :: t.2.2.1 ++ 58 :: t.2.2.2.1 ++
              render t.2.2.2.2.1 ++ t.2.2.2.2.2)) w 125 ++ u)))))
        ind (out ++ ind.pfx)
      rw [show (34 :: k ++ [34]) ++ (pc ++ 58 ::
          (pv ++ (render v ++ (q ++ 44 ::
            (assembleSeq ((x2 :: xs2).map (fun t =>
              t.1 ++ 34 :: t.2.1 ++ 34 :: t.2.2.1 ++ 58 :: t.2.2.2.1 ++
                render t.2.2.2.2.1 ++ t.2.2.2.2.2)) w 125 ++ u))))) =
        34 :: (k ++ 34 :: (pc ++ 58 ::
          (pv ++ (render v ++ (q ++ 44 ::
            (assembleSeq ((x2 :: xs2).map (fun t =>
              t.1 ++ 34 :: t.2.1 ++ 34 :: t.2.2.1 ++ 58 :: t.2.2.2.1 ++
                render t.2.2.2.2.1 ++ t.2.2.2.2.2)) w 125 ++ u)))))) from by simp] at hstr
      rw [hstr, fastFlat_ws pc hpc, fastFlat_colon, fastFlat_ws pv hpv]
      rw [hIH pk k pc pv v q hx hv hnwe (q ++ 44 ::
        (assembleSeq ((x2 :: xs2).map (fun t =>
          t.1 ++ 34 :: t.2.1 ++ 34 :: t.2.2.1 ++ 58 :: t.2.2.2.1 ++
            render t.2.2.2.2.1 ++ t.2.2.2.2.2)) w 125 ++ u)) ind _]
      rw [fastFlat_ws q hq, fastFlat_comma]
      rw [ih w hw (fun h => by cases h)
        (fun pk' k' pc' pv' v' q' h => hIH pk' k' pc' pv' v' q' (by simp [h]))
        (fun pk' k' pc' pv' v' q' h => hval pk' k' pc' pv' v' q' (by simp [h]))]
      simp only [List.map_cons, assemblePretty]
      simp [List.append_assoc]

/-- Bytes of the number continuation class are plain bytes of the single
pass formatter. -/
theorem numCont_plainB (c : Nat) (h : numCont c = true) : plainB c = true := by
  rw [numCont] at h
  rw [plainB, isWs]
  simp only [Bool.or_eq_true, Bool.and_eq_true, decide_eq_true_eq, beq_iff_eq] at h
  simp only [Bool.and_eq_true, Bool.not_eq_true', Bool.or_eq_false_iff,
    bne_iff_ne, beq_eq_false_iff_ne]
  omega

/-- A valid number consists of plain bytes only. -/
theorem numOK_plainRun (b : List Nat) (h : numOK b = true) :
    b.all plainB = true := by
  rw [numOK] at h
  simp only [Bool.and_eq_true] at h
  obtain ⟨⟨h1, h2⟩, h3⟩ := h
  cases hb : b with
  | nil => simp
  | cons a t =>
    rw [hb] at h2 h3
    simp only [List.headD_cons] at h2
    rw [List.all_cons]
    have hta : t.all plainB = true := by
      rw [List.all_eq_true]
      intro x hx
      exact numCont_plainB x ((List.all_eq_true.mp (by simpa using h3)) x hx)
    have hpa : plainB a = true := by
      rw [plainB, isWs]
      simp only [Bool.or_eq_true, Bool.and_eq_true, decide_eq_true_eq,
        beq_iff_eq, isDigit] at h2
      simp only [Bool.and_eq_true, Bool.not_eq_true', Bool.or_eq_false_iff,
        bne_iff_ne, beq_eq_false_iff_ne]
      omega
    simp [hpa, hta]

/-- Central theorem about format_json_fast at the flat level: processing a
serialization of a valid value whose empty containers carry no inner
whitespace, with no pending newline, appends exactly the pretty printed
form of the value to the output and continues on the remaining data in the
same state. -/
theorem thmB_val : ∀ (v : WVal), validB v = true → noWsEmptyB v = true →
    ∀ (u : List Nat) (ind : Indent) (out : List Nat),
      fastFlat (render v ++ u) ind false out =
        fastFlat u ind false (out ++ pretty v ind.one_tab ind.pfx) := by
  intro v
  induction v using WVal.indOn with
  | hstr s =>
    intro hv _ u ind out
    rw [validB] at hv
    have h := fastFlat_str s hv u ind out
    calc fastFlat (render (.wstr s) ++ u) ind false out
        = fastFlat ((34 :: s ++ [34]) ++ u) ind false out := by simp [render]
      _ = fastFlat u ind false (out ++ (34 :: s ++ [34])) := h
      _ = fastFlat u ind false (out ++ pretty (.wstr s) ind.one_tab ind.pfx) := by
          simp [pretty]
  | hnum b =>
    intro hv _ u ind out
    rw [validB] at hv
    have h := fastFlat_plainRun b (numOK_plainRun b hv) u ind out
    calc fastFlat (render (.wnum b) ++ u) ind false out
        = fastFlat (b ++ u) ind false out := by simp [render]
      _ = fastFlat u ind false (out ++ b) := h
      _ = fastFlat u ind false (out ++ pretty (.wnum b) ind.one_tab ind.pfx) := by
          simp [pretty]
  | hnull =>
    intro _ _ u ind out
    have h := fastFlat_plainRun [110, 117, 108, 108] (by decide) u ind out
    calc fastFlat (render .wnull ++ u) ind false out
        = fastFlat ([110, 117, 108, 108] ++ u) ind false out := by simp [render]
      _ = fastFlat u ind false (out ++ [110, 117, 108, 108]) := h
      _ = fastFlat u ind false (out ++ pretty .wnull ind.one_tab ind.pfx) := by
          simp [pretty]
  | htrue =>
    intro _ _ u ind out
    have h := fastFlat_plainRun [116, 114, 117, 101] (by decide) u ind out
    calc fastFlat (render .wtrue ++ u) ind false out
        = fastFlat ([116, 114, 117, 101] ++ u) ind false out := by simp [render]
      _ = fastFlat u ind false (out ++ [116, 114, 117, 101]) := h
      _ = fastFlat u ind false (out ++ pretty .wtrue ind.one_tab ind.pfx) := by
          simp [pretty]
  | hfalse =>
    intro _ _ u ind out
    have h := fastFlat_plainRun [102, 97, 108, 115, 101] (by decide) u ind out
    calc fastFlat (render .wfalse ++ u) ind false out
        = fastFlat ([102, 97, 108, 115, 101] ++ u) ind false out := by simp [render]
      _ = fastFlat u ind false (out ++ [102, 97, 108, 115, 101]) := h
      _ = fastFlat u ind false (out ++ pretty .wfalse ind.one_tab ind.pfx) := by
          simp [pretty]
  | harr items w2 ihmem =>
    intro hv hnwe u ind out
    rw [validB_arr] at hv
    rw [noWsEmptyB_arr] at hnwe
    simp only [Bool.and_eq_true] at hv hnwe
    obtain ⟨hw2, hall⟩ := hv
    obtain ⟨hne, hallnwe⟩ := hnwe
    have hval : ∀ p v q, (p, v, q) ∈ items →
        wsOnly p = true ∧ wsOnly q = true ∧ validB v = true ∧
          noWsEmptyB v = true := by
      intro p v q h
      have h1 := (List.all_eq_true.mp hall) (p, v, q) h
      have h2 := (List.all_eq_true.mp hallnwe) (p, v, q) h
      simp only [Bool.and_eq_true] at h1
      exact ⟨h1.1.1, h1.1.2, h1.2, h2⟩
    have hemp : items = [] → w2 = [] := by
      intro h0
      rw [h0] at hne
      simpa using hne
    have hrender : render (.warr items w2) ++ u =
        91 :: (assembleSeq (items.map
          (fun t => t.1 ++ render t.2.1 ++ t.2.2)) w2 93 ++ u) := by
      rw [render_arr]
      simp
    rw [hrender, fastFlat_opener 91 (Or.inr rfl)]
    rw [thmB_items items w2 hw2 hemp
      (fun p v q h hv hn => ihmem p v q h hv hn)
      hval u ind.push (out ++ [91, 10])]
    rw [Indent.pop_push, pretty_arr]
    have hpfx : ind.push.pfx = ind.pfx ++ ind.one_tab := rfl
    have htab : ind.push.one_tab = ind.one_tab := rfl
    simp [hpfx, htab, List.append_assoc]
  | hobj fs w2 ihmem =>
    intro hv hnwe u ind out
    rw [validB_obj] at hv
    rw [noWsEmptyB_obj] at hnwe
    simp only [Bool.and_eq_true] at hv hnwe
    obtain ⟨hw2, hall⟩ := hv
    obtain ⟨hne, hallnwe⟩ := hnwe
    have hval : ∀ pk k pc pv v q, (pk, k, pc, pv, v, q) ∈ fs →
        wsOnly pk = true ∧ strOK k 0 = true ∧ wsOnly pc = true ∧
          wsOnly pv = true ∧ wsOnly q = true ∧ validB v = true ∧
          noWsEmptyB v = true := by
      intro pk k pc pv v q h
      have h1 := (List.all_eq_true.mp hall) (pk, k, pc, pv, v, q) h
      have h2 := (List.all_eq_true.mp hallnwe) (pk, k, pc, pv, v, q) h
      simp only [Bool.and_eq_true] at h1
      exact ⟨h1.1.1.1.1.1, h1.1.1.1.1.2, h1.1.1.1.2, h1.1.1.2, h1.1.2, h1.2, h2⟩
    have hemp : fs = [] → w2 = [] := by
      intro h0
      rw [h0] at hne
      simpa using hne
    have hrender : render (.wobj fs w2) ++ u =
        123 :: (assembleSeq (fs.map (fun t =>
          t.1 ++ 34 :: t.2.1 ++ 34 :: t.2.2.1 ++ 58 :: t.2.2.2.1 ++
            render t.2.2.2.2.1 ++ t.2.2.2.2.2)) w2 125 ++ u) := by
      rw [render_obj]
      simp
    rw [hrender, fastFlat_opener 123 (Or.inl rfl)]
    rw [thmB_fields fs w2 hw2 hemp
      (fun pk k pc pv v q h hv hn => ihmem pk k pc pv v q h hv hn)
      hval u ind.push (out ++ [123, 10])]
    rw [Indent.pop_push, pretty_obj]
    have hpfx : ind.push.pfx = ind.pfx ++ ind.one_tab := rfl
    have htab : ind.push.one_tab = ind.one_tab := rfl
    simp [hpfx, htab, List.append_assoc]

/-- Top level behaviour of format_json_fast on a serialization of a valid
value with optional surrounding whitespace, when empty containers of the
value carry no inner whitespace: the single pass succeeds and writes the
pretty printed form. -/
theorem format_json_fast_spec (v : WVal) (hv : validB v = true)
    (hnwe : noWsEmptyB v = true) (fuel : Nat) (cur : Cursor) (ind : Indent)
    (lw tw : List Nat) (hcap : 1 ≤ cur.cap) (hlw : wsOnly lw = true)
    (htw : wsOnly tw = true) (hflat : cur.flat = lw ++ (render v ++ tw))
    (hfuel : cur.flat.length + 1 ≤ fuel) :
    format_json_fast fuel cur ind =
      some (.ok (pretty v ind.one_tab ind.pfx)) := by
  rw [format_json_fast_flat fuel cur ind hcap hfuel, hflat]
  rw [fastFlat_ws lw hlw]
  rw [thmB_val v hv hnwe tw ind []]
  have h2 := fastFlat_ws tw htw [] ind ([] ++ pretty v ind.one_tab ind.pfx)
  rw [List.append_nil] at h2
  rw [h2, fastFlat_nil]
  simp

/-- Unfolding of the canonical redecoration on arrays. -/
theorem canon_arr (items : List (List Nat × WVal × List Nat)) (w tab p : List Nat) :
    canon (.warr items w) tab p =
      .warr (items.map (fun t =>
        (10 :: (p ++ tab), canon t.2.1 tab (p ++ tab), ([] : List Nat)))) (10 :: p) := by
  rw [canon]
  exact congrArg (fun z => WVal.warr z (10 :: p))
    (List.attach_map_val items (fun t =>
      (10 :: (p ++ tab), canon t.2.1 tab (p ++ tab), ([] : List Nat))))

/-- Unfolding of the canonical redecoration on objects. -/
theorem canon_obj
    (fs : List (List Nat × List Nat × List Nat × List Nat × WVal × List Nat))
    (w tab p : List Nat) :
    canon (.wobj fs w) tab p =
      .wobj (fs.map (fun t =>
        (10 :: (p ++ tab), t.2.1, ([] : List Nat), [32],
          canon t.2.2.2.2.1 tab (p ++ tab), ([] : List Nat)))) (10 :: p) := by
  rw [canon]
  exact congrArg (fun z => WVal.wobj z (10 :: p))
    (List.attach_map_val fs (fun t =>
      (10 :: (p ++ tab), t.2.1, ([] : List Nat), [32],
        canon t.2.2.2.2.1 tab (p ++ tab), ([] : List Nat))))

/-- Unfolding of the no empty container predicate on arrays. -/
theorem noEmptyB_arr (items : List (List Nat × WVal × List Nat)) (w : List Nat) :
    noEmptyB (.warr items w) =
      (!items.isEmpty && items.all (fun t => noEmptyB t.2.1)) := by
  rw [noEmptyB]
  exact congrArg (fun z => !items.isEmpty && z)
    (attach_all_eq items (fun t => noEmptyB t.2.1))

/-- Unfolding of the no empty container predicate on objects. -/
theorem noEmptyB_obj
    (fs : List (List Nat × List Nat × List Nat × List Nat × WVal × List Nat))
    (w : List Nat) :
    noEmptyB (.wobj fs w) =
      (!fs.isEmpty && fs.all (fun t => noEmptyB t.2.2.2.2.1)) := by
  rw [noEmptyB]
  exact congrArg (fun z => !fs.isEmpty && z)
    (attach_all_eq fs (fun t => noEmptyB t.2.2.2.2.1))

/-- Joining entries that each start with a newline, with closing whitespace
a newline and the outer prefix, is the pretty assembly after one newline. -/
theorem assembleSeq_pretty (es : List (List Nat)) (p : List Nat) (cl : Nat) :
    assembleSeq (es.map (fun e => 10 :: e)) (10 :: p) cl =
      10 :: assemblePretty es p cl := by
  induction es with
  | nil => simp [assembleSeq, assemblePretty]
  | cons e es ih =>
    cases es with
    | nil => simp [assembleSeq, assemblePretty]
    | cons e2 es2 =>
      simp only [List.map_cons] at ih ⊢
      rw [assembleSeq, assemblePretty, ih] <;> simp

/-- The serialization of the canonical redecoration of a value is exactly
its pretty printed form. -/
theorem render_canon : ∀ (v : WVal) (tab p : List Nat),
    render (canon v tab p) = pretty v tab p := by
  intro v
  induction v using WVal.indOn with
  | hstr s => intro tab p; rw [canon, render, pretty]
  | hnum b => intro tab p; rw [canon, render, pretty]
  | hnull => intro tab p; rw [canon, render, pretty]
  | htrue => intro tab p; rw [canon, render, pretty]
  | hfalse => intro tab p; rw [canon, render, pretty]
  | harr items w ihmem =>
    intro tab p
    rw [canon_arr, render_arr, pretty_arr, List.map_map]
    have hmap : items.map ((fun t => t.1 ++ render t.2.1 ++ t.2.2) ∘ (fun t =>
        (10 :: (p ++ tab), canon t.2.1 tab (p ++ tab), ([] : List Nat)))) =
        (items.map (fun t => (p ++ tab) ++ pretty t.2.1 tab (p ++ tab))).map
          (fun e => 10 :: e) := by
      rw [List.map_map]
      apply List.map_congr_left
      intro t ht
      have hiv := ihmem t.1 t.2.1 t.2.2 (by simpa using ht) tab (p ++ tab)
      simp [Function.comp, hiv]
    rw [hmap, assembleSeq_pretty]
  | hobj fs w ihmem =>
    intro tab p
    rw [canon_obj, render_obj, pretty_obj, List.map_map]
    have hmap : fs.map ((fun t =>
        t.1 ++ 34 :: t.2.1 ++ 34 :: t.2.2.1 ++ 58 :: t.2.2.2.1 ++
          render t.2.2.2.2.1 ++ t.2.2.2.2.2) ∘ (fun t =>
        (10 :: (p ++ tab), t.2.1, ([] : List Nat), [32],
          canon t.2.2.2.2.1 tab (p ++ tab), ([] : List Nat)))) =
        (fs.map (fun t => (p ++ tab) ++ 34 :: t.2.1 ++ 34 :: 58 :: 32 ::
          pretty t.2.2.2.2.1 tab (p ++ tab))).map (fun e => 10 :: e) := by
      rw [List.map_map]
      apply List.map_congr_left
      intro t ht
      have hiv := ihmem t.1 t.2.1 t.2.2.1 t.2.2.2.1 t.2.2.2.2.1 t.2.2.2.2.2
        (by simpa using ht) tab (p ++ tab)
      simp [Function.comp, hiv]
    rw [hmap, assembleSeq_pretty]

/-- Pretty printing the canonical redecoration at the same indentation
reproduces the pretty printed form of the original value. -/
theorem pretty_canon : ∀ (v : WVal) (tab p : List Nat),
    pretty (canon v tab p) tab p = pretty v tab p := by
  intro v
  induction v using WVal.indOn with
  | hstr s => intro tab p; rw [canon]
  | hnum b => intro tab p; rw [canon]
  | hnull => intro tab p; rw [canon]
  | htrue => intro tab p; rw [canon]
  | hfalse => intro tab p; rw [canon]
  | harr items w ihmem =>
    intro tab p
    rw [canon_arr, pretty_arr, pretty_arr, List.map_map]
    refine congrArg (fun z => 91 :: 10 :: assemblePretty z p 93) ?_
    apply List.map_congr_left
    intro t ht
    have hiv := ihmem t.1 t.2.1 t.2.2 (by simpa using ht) tab (p ++ tab)
    simp [Function.comp, hiv]
  | hobj fs w ihmem =>
    intro tab p
    rw [canon_obj, pretty_obj, pretty_obj, List.map_map]
    refine congrArg (fun z => 123 :: 10 :: assemblePretty z p 125) ?_
    apply List.map_congr_left
    intro t ht
    have hiv := ihmem t.1 t.2.1 t.2.2.1 t.2.2.2.1 t.2.2.2.2.1 t.2.2.2.2.2
      (by simpa using ht) tab (p ++ tab)
    simp [Function.comp, hiv]

/-- Whitespace only byte lists are closed under cons of a newline. -/
theorem wsOnly_cons_nl (p : List Nat) (hp : wsOnly p = true) :
    wsOnly (10 :: p) = true := by
  rw [wsOnly] at hp ⊢
  simp [isWs, hp]

/-- The canonical redecoration of a valid value is valid, provided the
indentation unit and the prefix are whitespace. -/
theorem validB_canon : ∀ (v : WVal), validB v = true →
    ∀ (tab p : List Nat), wsOnly tab = true → wsOnly p = true →
    validB (canon v tab p) = true := by
  intro v
  induction v using WVal.indOn with
  | hstr s => intro hv tab p _ _; rw [canon]; exact hv
  | hnum b => intro hv tab p _ _; rw [canon]; exact hv
  | hnull => intro hv tab p _ _; rw [canon]; exact hv
  | htrue => intro hv tab p _ _; rw [canon]; exact hv
  | hfalse => intro hv tab p _ _; rw [canon]; exact hv
  | harr items w ihmem =>
    intro hv tab p htab hp
    rw [validB_arr] at hv
    simp only [Bool.and_eq_true] at hv
    obtain ⟨_, hall⟩ := hv
    rw [canon_arr, validB_arr]
    simp only [Bool.and_eq_true]
    refine ⟨wsOnly_cons_nl p hp, ?_⟩
    rw [List.all_map, List.all_eq_true]
    intro t ht
    have h1 := (List.all_eq_true.mp hall) t ht
    simp only [Bool.and_eq_true] at h1
    have hiv := ihmem t.1 t.2.1 t.2.2 (by simpa using ht) h1.2 tab (p ++ tab)
      htab (wsOnly_append p tab hp htab)
    simp only [Function.comp, Bool.and_eq_true]
    exact ⟨⟨wsOnly_cons_nl _ (wsOnly_append p tab hp htab), rfl⟩, hiv⟩
  | hobj fs w ihmem =>
    intro hv tab p htab hp
    rw [validB_obj] at hv
    simp only [Bool.and_eq_true] at hv
    obtain ⟨_, hall⟩ := hv
    rw [canon_obj, validB_obj]
    simp only [Bool.and_eq_true]
    refine ⟨wsOnly_cons_nl p hp, ?_⟩
    rw [List.all_map, List.all_eq_true]
    intro t ht
    have h1 := (List.all_eq_true.mp hall) t ht
    simp only [Bool.and_eq_true] at h1
    have hiv := ihmem t.1 t.2.1 t.2.2.1 t.2.2.2.1 t.2.2.2.2.1 t.2.2.2.2.2
      (by simpa using ht) h1.2 tab (p ++ tab) htab (wsOnly_append p tab hp htab)
    simp only [Function.comp, Bool.and_eq_true]
    exact ⟨⟨⟨⟨⟨wsOnly_cons_nl _ (wsOnly_append p tab hp htab), h1.1.1.1.1.2⟩,
      rfl⟩, rfl⟩, rfl⟩, hiv⟩

/-- The canonical redecoration of a value without empty containers has no
whitespace inside empty containers (vacuously, since it has none). -/
theorem noWsEmptyB_canon : ∀ (v : WVal), noEmptyB v = true →
    ∀ (tab p : List Nat), noWsEmptyB (canon v tab p) = true := by
  intro v
  induction v using WVal.indOn with
  | hstr s => intro _ tab p; rw [canon, noWsEmptyB]
  | hnum b => intro _ tab p; rw [canon, noWsEmptyB]
  | hnull => intro _ tab p; rw [canon, noWsEmptyB]
  | htrue => intro _ tab p; rw [canon, noWsEmptyB]
  | hfalse => intro _ tab p; rw [canon, noWsEmptyB]
  | harr items w ihmem =>
    intro hv tab p
    rw [noEmptyB_arr] at hv
    simp only [Bool.and_eq_true] at hv
    obtain ⟨hne, hall⟩ := hv
    rw [canon_arr, noWsEmptyB_arr]
    simp only [Bool.and_eq_true]
    constructor
    · rw [Bool.or_eq_true]
      left
      simpa using hne
    · rw [List.all_map, List.all_eq_true]
      intro t ht
      have h1 := (List.all_eq_true.mp hall) t ht
      exact ihmem t.1 t.2.1 t.2.2 (by simpa using ht) h1 tab (p ++ tab)
  | hobj fs w ihmem =>
    intro hv tab p
    rw [noEmptyB_obj] at hv
    simp only [Bool.and_eq_true] at hv
    obtain ⟨hne, hall⟩ := hv
    rw [canon_obj, noWsEmptyB_obj]
    simp only [Bool.and_eq_true]
    constructor
    · rw [Bool.or_eq_true]
      left
      simpa using hne
    · rw [List.all_map, List.all_eq_true]
      intro t ht
      have h1 := (List.all_eq_true.mp hall) t ht
      exact ihmem t.1 t.2.1 t.2.2.1 t.2.2.2.1 t.2.2.2.2.1 t.2.2.2.2.2
        (by simpa using ht) h1 tab (p ++ tab)

/-- A step that hangs makes the loop diverge. -/
theorem go_hang (F : Nat) (cfg : FmtCfg) (h : format_json_step cfg = .hang) :
    format_json_go (F + 1) cfg = none := by
  conv_lhs => rw [format_json_go]
  rw [h]

/-- The indentation unit of width spaces is whitespace. -/
theorem wsOnly_replicate (n : Nat) : wsOnly (List.replicate n 32) = true := by
  rw [wsOnly, List.all_eq_true]
  intro x hx
  rw [List.eq_of_mem_replicate hx]
  rfl

/-- A whitespace tail never extends a number token. -/
theorem numSafe_of_ws (v : WVal) (tw : List Nat) (htw : wsOnly tw = true) :
    numSafe v tw := by
  have h := numSafe_concat v tw [] htw (by rfl)
  rwa [List.append_nil] at h

/-- The flat model of the single pass formatter is total: on every input it
returns the accumulated output or an unexpected end of stream error. -/
theorem fastFlat_total : ∀ (n : Nat) (data : List Nat), data.length ≤ n →
    ∀ (ind : Indent) (nl : Bool) (out : List Nat),
    (∃ o, fastFlat data ind nl out = .ok o) ∨
      fastFlat data ind nl out = .error .unexpectedEof := by
  intro n
  induction n with
  | zero =>
    intro data hlen ind nl out
    have hd : data = [] := by cases data <;> simp_all
    rw [hd, fastFlat_nil]
    exact Or.inl ⟨out, rfl⟩
  | succ m ih =>
    intro data hlen ind nl out
    cases data with
    | nil =>
      rw [fastFlat_nil]
      exact Or.inl ⟨out, rfl⟩
    | cons c cs =>
      rw [fastFlat_cons]
      simp only [List.length_cons] at hlen
      by_cases h34 : (c == 34) = true
      · rw [if_pos h34]
        cases hscan : str_scan cs 0 with
        | none => simp [hscan]
        | some k =>
          simp only [hscan]
          exact ih (cs.drop k) (by rw [List.length_drop]; omega) _ _ _
      · rw [if_neg h34]
        by_cases h1 : (c == 123 || c == 91) = true
        · rw [if_pos h1]; exact ih cs (by omega) _ _ _
        · rw [if_neg h1]
          by_cases h2 : (c == 44) = true
          · rw [if_pos h2]; exact ih cs (by omega) _ _ _
          · rw [if_neg h2]
            by_cases h3 : (c == 58) = true
            · rw [if_pos h3]; exact ih cs (by omega) _ _ _
            · rw [if_neg h3]
              by_cases h4 : isWs c = true
              · rw [if_pos h4]; exact ih cs (by omega) _ _ _
              · rw [if_neg h4]; exact ih cs (by omega) _ _ _

/-!
Claim theorems. Each claim of the specification is settled by one theorem
below, with a closed witness instantiating it at a concrete input where the
theorem carries hypotheses, and a closed counterexample where the claim as
stated fails.
-/

/-- C1 (counterexample): on the well formed input of bytes lbracket, space,
rbracket, the two formatters disagree: the whitespace byte inside the empty
array makes the single pass formatter flush its pending indentation and
emit an indented blank line, which the grammar driven formatter never
emits. -/
theorem C1_counterexample :
    format_json 10 (mkCursor [91, 32, 93] 1) (Indent.new 2) =
      some (.ok [91, 10, 93]) ∧
    format_json_fast 10 (mkCursor [91, 32, 93] 1) (Indent.new 2) =
      some (.ok [91, 10, 32, 32, 10, 93]) := by
  exact ⟨rfl, rfl⟩

/-- C1 (amended): for every serialization of a valid value whose empty
containers carry no inner whitespace, with optional leading and trailing
whitespace, format_json and format_json_fast write the same byte sequence,
the pretty printed form, through cursors of any capacities down to one
byte and any chunk alignments. -/
theorem C1_formatters_agree (v : WVal) (hv : validB v = true)
    (hnwe : noWsEmptyB v = true) (lw tw : List Nat) (hlw : wsOnly lw = true)
    (htw : wsOnly tw = true) (cur1 cur2 : Cursor) (ind : Indent)
    (hcap1 : 1 ≤ cur1.cap) (hcap2 : 1 ≤ cur2.cap)
    (hflat1 : cur1.flat = lw ++ (render v ++ tw))
    (hflat2 : cur2.flat = lw ++ (render v ++ tw))
    (F1 F2 : Nat) (hF1 : stepsW v + 1 ≤ F1) (hF2 : cur2.flat.length + 1 ≤ F2) :
    format_json F1 cur1 ind = some (.ok (pretty v ind.one_tab ind.pfx)) ∧
    format_json_fast F2 cur2 ind = some (.ok (pretty v ind.one_tab ind.pfx)) := by
  constructor
  · exact format_json_spec v hv cur1 ind lw tw hcap1 hlw
      (by rw [hflat1, ← List.append_assoc]) (numSafe_of_ws v tw htw) F1 hF1
  · exact format_json_fast_spec v hv hnwe F2 cur2 ind lw tw hcap2 hlw htw
      hflat2 hF2

/-- C1 (witness): both formatters turn the input space, lbracket, rbracket
into the pretty printed empty array, at capacity one. -/
theorem C1_formatters_agree_witness :
    format_json 3 (mkCursor [32, 91, 93] 1) (Indent.new 2) =
      some (.ok (pretty (.warr [] []) (Indent.new 2).one_tab (Indent.new 2).pfx)) ∧
    format_json_fast 4 (mkCursor [32, 91, 93] 1) (Indent.new 2) =
      some (.ok (pretty (.warr [] []) (Indent.new 2).one_tab (Indent.new 2).pfx)) :=
  C1_formatters_agree (.warr [] []) (by rw [validB_arr]; rfl)
    (by rw [noWsEmptyB_arr]; rfl) [32] [] rfl rfl
    (mkCursor [32, 91, 93] 1) (mkCursor [32, 91, 93] 1) (Indent.new 2)
    (by decide) (by decide) (by rw [render_arr]; rfl) (by rw [render_arr]; rfl)
    3 4 (by rw [stepsW_arr]; simp) (by decide)

/-- C2: the whitespace skipper does not terminate at end of stream: on an
exhausted stream, and on any stream whose remaining bytes are all
whitespace, skip_whitespace returns none (the model of its infinite loop)
for every fuel, instead of returning. -/
theorem C2_skip_whitespace_diverges :
    (∀ fuel, skip_whitespace fuel (mkCursor [] 1) = none) ∧
    (∀ fuel, skip_whitespace fuel (mkCursor [32, 9, 10, 13] 1) = none) := by
  constructor <;> intro fuel <;> exact skip_whitespace_diverges fuel _ (by rfl)

/-- C3: truncation mid string and mid literal yield the unexpected end of
stream error, and an invalid literal spelling yields the invalid input
error carrying the first differing byte; but an input truncated where
number adjacent punctuation is expected (lbracket, digit one, then end of
stream) makes format_json hang for every fuel instead of reporting an
error, because skip_whitespace loops at end of stream before the Elem
frame can look at the punctuation. -/
theorem C3_truncation_errors :
    (∀ fuel, format_json fuel (mkCursor [91, 49] 1) (Indent.new 2) = none) ∧
    format_json 5 (mkCursor [34, 97, 98] 1) (Indent.new 2) =
      some (.error .unexpectedEof) ∧
    format_json 5 (mkCursor [116, 114, 117] 1) (Indent.new 2) =
      some (.error .unexpectedEof) ∧
    format_json 5 (mkCursor [110, 117, 108, 44] 1) (Indent.new 2) =
      some (.error (.invalidInput 44)) := by
  refine ⟨?_, rfl, rfl, rfl⟩
  intro fuel
  match fuel with
  | 0 => rfl
  | 1 => rfl
  | 2 => rfl
  | 3 => rfl
  | n + 4 =>
    show format_json_go ((n + 3) + 1)
      ⟨[.Value], Indent.new 2, mkCursor [91, 49] 1, []⟩ = none
    rw [go_cont (n + 3) ⟨[.Value], Indent.new 2, mkCursor [91, 49] 1, []⟩
      ⟨[.Array], ⟨[32, 32], [32, 32]⟩, ⟨[], [49], 1⟩, [91, 10]⟩ rfl]
    show format_json_go ((n + 2) + 1) _ = none
    rw [go_cont (n + 2)
      ⟨[.Array], ⟨[32, 32], [32, 32]⟩, ⟨[], [49], 1⟩, [91, 10]⟩
      ⟨[.Value, .Elem], ⟨[32, 32], [32, 32]⟩, ⟨[49], [], 1⟩, [91, 10, 32, 32]⟩ rfl]
    show format_json_go ((n + 1) + 1) _ = none
    rw [go_cont (n + 1)
      ⟨[.Value, .Elem], ⟨[32, 32], [32, 32]⟩, ⟨[49], [], 1⟩, [91, 10, 32, 32]⟩
      ⟨[.Elem], ⟨[32, 32], [32, 32]⟩, ⟨[], [], 1⟩, [91, 10, 32, 32, 49]⟩ rfl]
    show format_json_go (n + 1) _ = none
    exact go_hang n ⟨[.Elem], ⟨[32, 32], [32, 32]⟩, ⟨[], [], 1⟩, [91, 10, 32, 32, 49]⟩ rfl

/-- C4: positioned at an opening quote, write_string copies the quote and
the string content verbatim and stops right after the closing quote, the
first quote not escaped under the escape automaton (which treats a quote
after a collapsed backslash pair as closing); this holds for every
capacity and chunk alignment, so the escape state is carried across
refills. -/
theorem C4_write_string_verbatim (s : List Nat) (hs : strOK s 0 = true)
    (cur : Cursor) (u : List Nat) (hcap : 1 ≤ cur.cap)
    (hflat : cur.flat = 34 :: (s ++ 34 :: u)) (fuel : Nat)
    (hfuel : cur.flatLen + 1 ≤ fuel) :
    ∃ cur', write_string fuel cur = some (.ok (34 :: s ++ [34], cur')) ∧
      cur'.flat = u ∧ cur'.cap = cur.cap := by
  have hspec := write_string_spec fuel cur (s ++ 34 :: u) hcap hflat hfuel
  obtain ⟨cur', hw, hfl, hcap'⟩ := hspec.2 (s.length + 1) (str_scan_strOK s 0 u hs)
  have htake : (s ++ 34 :: u).take (s.length + 1) = s ++ [34] := by
    have h1 : s.take (s.length + 1) = s := List.take_of_length_le (by omega)
    have h2 : s.length + 1 - s.length = 1 := by omega
    rw [List.take_append_eq_append_take, h1, h2]
    rfl
  have hdrop : (s ++ 34 :: u).drop (s.length + 1) = u := by
    have h1 : s.drop (s.length + 1) = [] := List.drop_eq_nil_of_le (by omega)
    have h2 : s.length + 1 - s.length = 1 := by omega
    rw [List.drop_append_eq_append_drop, h1, h2]
    rfl
  rw [htake] at hw
  rw [hdrop] at hfl
  exact ⟨cur', hw, hfl, hcap'⟩

/-- C4 (witness): the string quote, t, e, s, t, space, backslash,
backslash, quote is copied byte for byte at capacity one; the final quote
closes the string because the backslash pair collapses. -/
theorem C4_write_string_verbatim_witness :
    ∃ cur', write_string 10 (mkCursor [34, 116, 101, 115, 116, 32, 92, 92, 34] 1) =
        some (.ok (34 :: [116, 101, 115, 116, 32, 92, 92] ++ [34], cur')) ∧
      cur'.flat = [] ∧
      cur'.cap = (mkCursor [34, 116, 101, 115, 116, 32, 92, 92, 34] 1).cap :=
  C4_write_string_verbatim [116, 101, 115, 116, 32, 92, 92] rfl
    (mkCursor [34, 116, 101, 115, 116, 32, 92, 92, 34] 1) [] (by decide) rfl
    10 (by decide)

/-- C5 (counterexample): peek_char reports the NUL sentinel both for a
stream whose next byte is a genuine NUL and for an exhausted stream, so
end of stream is not distinguishable from a NUL byte in the input. -/
theorem C5_counterexample :
    (peek_char (mkCursor [0] 1)).1 = 0 ∧ (peek_char (mkCursor [] 1)).1 = 0 := by
  exact ⟨rfl, rfl⟩

/-- C5 (amended): peek_char returns the head of the remaining data when
there is one and the byte 0 at end of stream, without advancing the
stream; the sentinel 0 coincides with a genuine NUL byte. -/
theorem C5_peek_spec (cur : Cursor) (hcap : 1 ≤ cur.cap) :
    (peek_char cur).1 = cur.flat.headD 0 ∧
    (peek_char cur).2.flat = cur.flat ∧ (peek_char cur).2.cap = cur.cap :=
  peek_char_spec cur hcap

/-- C5 (witness): peeking a stream starting with byte 7 returns 7 and
leaves the stream data unchanged. -/
theorem C5_peek_spec_witness :
    (peek_char (mkCursor [7, 8] 2)).1 = (mkCursor [7, 8] 2).flat.headD 0 ∧
    (peek_char (mkCursor [7, 8] 2)).2.flat = (mkCursor [7, 8] 2).flat ∧
    (peek_char (mkCursor [7, 8] 2)).2.cap = (mkCursor [7, 8] 2).cap :=
  C5_peek_spec (mkCursor [7, 8] 2) (by decide)

/-- C6: both formatters render the empty object and the empty array as the
opening bracket, a newline, then the closing bracket on its own line
preceded by exactly the current outer prefix of the indentation state:
not on one line, and not one level deeper. -/
theorem C6_empty_container (ind : Indent) (cur1 cur2 cur3 cur4 : Cursor)
    (F1 F2 F3 F4 : Nat)
    (hc1 : 1 ≤ cur1.cap) (hc2 : 1 ≤ cur2.cap)
    (hc3 : 1 ≤ cur3.cap) (hc4 : 1 ≤ cur4.cap)
    (hf1 : cur1.flat = [123, 125]) (hf2 : cur2.flat = [123, 125])
    (hf3 : cur3.flat = [91, 93]) (hf4 : cur4.flat = [91, 93])
    (hF1 : 3 ≤ F1) (hF2 : 3 ≤ F2) (hF3 : 3 ≤ F3) (hF4 : 3 ≤ F4) :
    format_json F1 cur1 ind = some (.ok (123 :: 10 :: (ind.pfx ++ [125]))) ∧
    format_json_fast F2 cur2 ind = some (.ok (123 :: 10 :: (ind.pfx ++ [125]))) ∧
    format_json F3 cur3 ind = some (.ok (91 :: 10 :: (ind.pfx ++ [93]))) ∧
    format_json_fast F4 cur4 ind = some (.ok (91 :: 10 :: (ind.pfx ++ [93]))) := by
  have hpo : pretty (.wobj [] []) ind.one_tab ind.pfx =
      123 :: 10 :: (ind.pfx ++ [125]) := by
    rw [pretty_obj]
    rfl
  have hpa : pretty (.warr [] []) ind.one_tab ind.pfx =
      91 :: 10 :: (ind.pfx ++ [93]) := by
    rw [pretty_arr]
    rfl
  refine ⟨?_, ?_, ?_, ?_⟩
  · have h := format_json_spec (.wobj [] []) (by rw [validB_obj]; rfl) cur1 ind
      [] [] hc1 rfl (by rw [hf1, render_obj]; rfl) trivial F1
      (by rw [stepsW_obj]; simpa using hF1)
    rwa [hpo] at h
  · have h := format_json_fast_spec (.wobj [] []) (by rw [validB_obj]; rfl)
      (by rw [noWsEmptyB_obj]; rfl) F2 cur2 ind [] [] hc2 rfl rfl
      (by rw [hf2, render_obj]; rfl) (by rw [hf2]; simpa using hF2)
    rwa [hpo] at h
  · have h := format_json_spec (.warr [] []) (by rw [validB_arr]; rfl) cur3 ind
      [] [] hc3 rfl (by rw [hf3, render_arr]; rfl) trivial F3
      (by rw [stepsW_arr]; simpa using hF3)
    rwa [hpa] at h
  · have h := format_json_fast_spec (.warr [] []) (by rw [validB_arr]; rfl)
      (by rw [noWsEmptyB_arr]; rfl) F4 cur4 ind [] [] hc4 rfl rfl
      (by rw [hf4, render_arr]; rfl) (by rw [hf4]; simpa using hF4)
    rwa [hpa] at h

/-- C6 (witness): at an indentation state with a one space outer prefix,
the empty containers close at that one space prefix, not deeper. -/
theorem C6_empty_container_witness :
    format_json 3 (mkCursor [123, 125] 1) ⟨[32, 32], [32]⟩ =
      some (.ok (123 :: 10 :: ([32] ++ [125]))) ∧
    format_json_fast 3 (mkCursor [123, 125] 1) ⟨[32, 32], [32]⟩ =
      some (.ok (123 :: 10 :: ([32] ++ [125]))) ∧
    format_json 3 (mkCursor [91, 93] 1) ⟨[32, 32], [32]⟩ =
      some (.ok (91 :: 10 :: ([32] ++ [93]))) ∧
    format_json_fast 3 (mkCursor [91, 93] 1) ⟨[32, 32], [32]⟩ =
      some (.ok (91 :: 10 :: ([32] ++ [93]))) :=
  C6_empty_container ⟨[32, 32], [32]⟩ (mkCursor [123, 125] 1)
    (mkCursor [123, 125] 1) (mkCursor [91, 93] 1) (mkCursor [91, 93] 1)
    3 3 3 3 (by decide) (by decide) (by decide) (by decide)
    rfl rfl rfl rfl (by decide) (by decide) (by decide) (by decide)

/-- C7: write_expected with an expected sequence reads exactly its length
in bytes: when the stream starts with the sequence it consumes it and
writes it; when a byte differs it reports invalid input carrying the first
differing read byte and writes nothing; when the stream is shorter than
the sequence it reports an unexpected end of stream. -/
theorem C7_write_expected (cur : Cursor) (expect : List Nat) :
    (∀ rest, cur.flat = expect ++ rest →
      ∃ cur', write_expected cur expect = .ok (expect, cur') ∧
        cur'.flat = rest ∧ cur'.cap = cur.cap) ∧
    (∀ pre x y e2 u, x ≠ y → expect = pre ++ x :: e2 →
      cur.flat = pre ++ y :: u → expect.length ≤ cur.flat.length →
      write_expected cur expect = .error (.invalidInput y)) ∧
    (cur.flat.length < expect.length →
      write_expected cur expect = .error .unexpectedEof) := by
  refine ⟨?_, ?_, ?_⟩
  · intro rest hflat
    exact write_expected_ok cur expect rest hflat
  · intro pre x y e2 u hx hexp hflat hlen
    exact write_expected_mismatch cur expect pre x y e2 u hx hexp hflat hlen
  · intro hlen
    exact write_expected_eof cur expect hlen

/-- C8 (counterexample): format_json_fast is not idempotent: it formats
the empty object input as lbrace, newline, rbrace, but formatting that
output again inserts an indented blank line, because the newline inside
the braces flushes the pending indentation before the closing brace pops
it. -/
theorem C8_counterexample :
    format_json_fast 3 (mkCursor [123, 125] 1) (Indent.new 4) =
      some (.ok [123, 10, 125]) ∧
    format_json_fast 4 (mkCursor [123, 10, 125] 1) (Indent.new 4) =
      some (.ok [123, 10, 32, 32, 32, 32, 10, 125]) := by
  exact ⟨rfl, rfl⟩

/-- C8 (amended): format_json is idempotent on the pretty printed form of
every valid value; format_json_fast is idempotent on it provided the value
contains no empty container (whose pretty form puts a newline between the
brackets, the whitespace the single pass formatter mishandles). -/
theorem C8_idempotent (v : WVal) (hv : validB v = true) (width : Nat) :
    (∀ cap F, 1 ≤ cap →
      stepsW (canon v (List.replicate width 32) []) + 1 ≤ F →
      format_json F (mkCursor (pretty v (List.replicate width 32) []) cap)
          (Indent.new width) =
        some (.ok (pretty v (List.replicate width 32) []))) ∧
    (noEmptyB v = true → ∀ cap F, 1 ≤ cap →
      (pretty v (List.replicate width 32) []).length + 1 ≤ F →
      format_json_fast F (mkCursor (pretty v (List.replicate width 32) []) cap)
          (Indent.new width) =
        some (.ok (pretty v (List.replicate width 32) []))) := by
  have hvc : validB (canon v (List.replicate width 32) []) = true :=
    validB_canon v hv (List.replicate width 32) [] (wsOnly_replicate width) rfl
  have hflat : (mkCursor (pretty v (List.replicate width 32) []) 0).rest =
      pretty v (List.replicate width 32) [] := rfl
  constructor
  · intro cap F hcap hF
    have h := format_json_spec (canon v (List.replicate width 32) []) hvc
      (mkCursor (pretty v (List.replicate width 32) []) cap) (Indent.new width)
      [] [] (by exact hcap) rfl
      (by show pretty v (List.replicate width 32) [] =
            [] ++ render (canon v (List.replicate width 32) []) ++ []
          rw [render_canon]
          simp)
      (numSafe_of_ws _ [] rfl) F hF
    rw [show (Indent.new width).one_tab = List.replicate width 32 from rfl,
      show (Indent.new width).pfx = ([] : List Nat) from rfl] at h
    rwa [pretty_canon] at h
  · intro hnoe cap F hcap hF
    have h := format_json_fast_spec (canon v (List.replicate width 32) []) hvc
      (noWsEmptyB_canon v hnoe (List.replicate width 32) []) F
      (mkCursor (pretty v (List.replicate width 32) []) cap) (Indent.new width)
      [] [] (by exact hcap) rfl rfl
      (by show pretty v (List.replicate width 32) [] =
            [] ++ (render (canon v (List.replicate width 32) []) ++ [])
          rw [render_canon]
          simp)
      (by show (pretty v (List.replicate width 32) []).length + 1 ≤ F
          exact hF)
    rw [show (Indent.new width).one_tab = List.replicate width 32 from rfl,
      show (Indent.new width).pfx = ([] : List Nat) from rfl] at h
    rwa [pretty_canon] at h

/-- C8 (witness): both formatters are idempotent on the one digit number
one, whose pretty form is itself. -/
theorem C8_idempotent_witness :
    format_json 2 (mkCursor (pretty (.wnum [49]) (List.replicate 2 32) []) 1)
        (Indent.new 2) =
      some (.ok (pretty (.wnum [49]) (List.replicate 2 32) [])) ∧
    format_json_fast 3 (mkCursor (pretty (.wnum [49]) (List.replicate 2 32) []) 1)
        (Indent.new 2) =
      some (.ok (pretty (.wnum [49]) (List.replicate 2 32) [])) :=
  ⟨(C8_idempotent (.wnum [49]) (by rw [validB]; rfl) 2).1 1 2 (by decide)
      (by rw [canon, stepsW]),
    (C8_idempotent (.wnum [49]) (by rw [validB]; rfl) 2).2 (by rw [noEmptyB]) 1 3
      (by decide) (by rw [pretty]; decide)⟩

/-- C9: format_json_fast neither crashes nor hangs on any input, balanced
or not: with fuel covering the stream it terminates with either an output
or an unexpected end of stream error; and the indentation pop applied at
every closing bracket leaves an already empty prefix empty rather than
failing. -/
theorem C9_fast_no_crash (cur : Cursor) (ind : Indent) (fuel : Nat)
    (hcap : 1 ≤ cur.cap) (hfuel : cur.flat.length + 1 ≤ fuel) :
    ((∃ out, format_json_fast fuel cur ind = some (.ok out)) ∨
      format_json_fast fuel cur ind = some (.error .unexpectedEof)) ∧
    (∀ t : List Nat, Indent.pop ⟨t, []⟩ = ⟨t, []⟩) := by
  constructor
  · rw [format_json_fast_flat fuel cur ind hcap hfuel]
    rcases fastFlat_total cur.flat.length cur.flat (le_refl _) ind false [] with
      ⟨o, ho⟩ | ho
    · exact Or.inl ⟨o, by rw [ho]⟩
    · exact Or.inr (by rw [ho])
  · intro t
    simp [Indent.pop]

/-- C9 (witness): on the unbalanced input of three closing brackets the
single pass formatter terminates with an output. -/
theorem C9_fast_no_crash_witness :
    ((∃ out, format_json_fast 4 (mkCursor [93, 93, 93] 1) (Indent.new 2) =
        some (.ok out)) ∨
      format_json_fast 4 (mkCursor [93, 93, 93] 1) (Indent.new 2) =
        some (.error .unexpectedEof)) ∧
    (∀ t : List Nat, Indent.pop ⟨t, []⟩ = ⟨t, []⟩) :=
  C9_fast_no_crash (mkCursor [93, 93, 93] 1) (Indent.new 2) 4 (by decide)
    (by decide)

/-- C10: when the stream starts, after optional whitespace, with one
complete serialized valid value, format_json succeeds with exactly the
pretty printed value; the bytes after the value are arbitrary, never
validated, and absent from the output. -/
theorem C10_trailing_garbage (v : WVal) (hv : validB v = true) (cur : Cursor)
    (ind : Indent) (lw rest : List Nat) (hcap : 1 ≤ cur.cap)
    (hlw : wsOnly lw = true) (hflat : cur.flat = lw ++ render v ++ rest)
    (hns : numSafe v rest) (fuel : Nat) (hfuel : stepsW v + 1 ≤ fuel) :
    format_json fuel cur ind = some (.ok (pretty v ind.one_tab ind.pfx)) :=
  format_json_spec v hv cur ind lw rest hcap hlw hflat hns fuel hfuel

/-- C10 (witness): on the input one, space, two, the formatter formats the
number one and ignores the trailing bytes. -/
theorem C10_trailing_garbage_witness :
    format_json 2 (mkCursor [49, 32, 50] 1) (Indent.new 2) =
      some (.ok (pretty (.wnum [49]) (Indent.new 2).one_tab (Indent.new 2).pfx)) :=
  C10_trailing_garbage (.wnum [49]) (by rw [validB]; rfl)
    (mkCursor [49, 32, 50] 1) (Indent.new 2) [] [32, 50] (by decide) rfl
    (by rw [render]; rfl) (by rw [numSafe]; rfl) 2 (by rw [stepsW])

end Jsonfmt
